import Mathlib

/-!
Key identities and the compression envelope of `shibme/stl` (xipher)

A shallow embedding of the Go sources

* `commons/compression.go` (the flag-byte compression envelope),
* `ecc/keys.go` (interned Curve25519 key objects),
* `internal/asx/keys.go` (the 64-byte hybrid seed),
* `keys.go` (package `xipher`: password based and raw private keys, self-describing
  public keys),

followed by theorems about them.

Conventions of the embedding.

* A Go `[]byte` is a `List Byte`; `string(b)` used as a map key is the byte list itself.
  A key object holds the bytes its slice had when the object was made: that is the code
  for as long as no caller writes to a slice it has passed to a package or received from
  it. The section on shared slices keeps the slices of `ecc` in a memory of their own, for
  a caller that does write.
* A Go pointer to a heap object is an index (`Ptr`) into the list of objects of that type;
  allocation appends at the end; `nil` is `none`.
* A Go `map[string]*T` is an association list read from the front (`GoMap`).
* A Go function with result `(T, error)` that also touches package state is a function
  `State → Except Err T × State`.  A run-time panic is the error value `Err.panic`.
* Primitives that live outside the repository (zlib, `rand.Read`, `curve25519.X25519`,
  the AEAD constructor) and the helpers of `kdfSpec`, whose file is not part of the
  sources at hand, are parameters.
-/

/-- One octet. -/
abbrev Byte := Fin 256

/-- A Go byte slice, by value. -/
abbrev Bytes := List Byte

/-- A Go pointer: the index of the object in the heap of its type. -/
abbrev Ptr := Nat

/-- The error values the embedded functions can return. -/
inductive Err where
  /-- The value `errInvalidKeyLength` of package `ecc`. -/
  | errInvalidKeyLength
  /-- The value `errInvalidPrivateKeyLength` of package `asx`. -/
  | errInvalidPrivateKeyLength
  /-- The value `errInvalidPublicKeyLength` of package `asx`. -/
  | errInvalidPublicKeyLength
  /-- The value `errInvalidPublicKey` of package `asx`. -/
  | errInvalidPublicKey
  /-- The value `errInvalidPassword` of package `xipher`. -/
  | errInvalidPassword
  /-- The value `errPrivKeyUnavailableForPwd` of package `xipher`. -/
  | errPrivKeyUnavailableForPwd
  /-- The `fmt.Errorf("invalid private key length: expected %d, got %d", ..)` of `xipher`. -/
  | invalidPrivateKeyLength (expected got : Nat)
  /-- The `fmt.Errorf("invalid public key length: expected %d, got %d", ..)` of `xipher`. -/
  | invalidPublicKeyLength (expected got : Nat)
  /-- An error handed up from a primitive outside the sources (zlib, the random source,
  X25519, the AEAD constructor, the `kdfSpec` helpers), identified by a code. -/
  | external (code : Nat)
  /-- A Go run-time panic (index out of range, nil dereference). -/
  | panic
  deriving DecidableEq, Repr

/-! ## `commons/compression.go` -/

namespace commons

/-- The function `Compress`; `zCompress` is the zlib wrapper of the same file, taken as a
parameter. -/
def Compress (zCompress : Bytes → Except Err Bytes) (data : Bytes) : Except Err Bytes :=
  let dataSize := data.length
  match zCompress data with
  | .ok compressedData =>
    if dataSize ≤ compressedData.length then .ok ((0 : Byte) :: data)
    else .ok ((1 : Byte) :: compressedData)
  | .error err => .error err

/-- The function `Decompress`; slicing `compressedBytes[1:]` of an empty slice panics. -/
def Decompress (zDecompress : Bytes → Except Err Bytes) (compressedBytes : Bytes) :
    Except Err Bytes :=
  match compressedBytes with
  | [] => .error .panic
  | flag :: preProcessedBytes =>
    if flag = 1 then zDecompress preProcessedBytes else .ok preProcessedBytes

end commons

/-! ## Heap and map helpers -/

/-- A Go `map[string]*T`: association list, the binding nearest the front wins. -/
abbrev GoMap := List (Bytes × Ptr)

/-- The read `m[string(k)]`; `none` is the `nil` a missing key yields. -/
def lookup : GoMap → Bytes → Option Ptr
  | [], _ => none
  | (k', v) :: m, k => if k' = k then some v else lookup m k

/-- The write `m[string(k)] = v`. -/
def store (m : GoMap) (k : Bytes) (v : Ptr) : GoMap := (k, v) :: m

/-- The outcome of one use of the process random source (`crypto/rand`): it fails with an
error, or supplies as many bytes as are asked for. -/
inductive RandSrc where
  | fail (code : Nat)
  | bytes (f : Nat → Byte)

/-- The pair `make([]byte, n)` and `rand.Read` on it: `n` bytes, or the error. -/
def randRead (rnd : RandSrc) (n : Nat) : Except Err Bytes :=
  match rnd with
  | .fail code => .error (.external code)
  | .bytes f => .ok ((List.range n).map f)

/-- An AEAD cipher context (`*chacha20poly1305.Cipher`), known by the key it was made for. -/
structure Cipher where
  key : Bytes
  deriving DecidableEq, Repr

/-- The primitives package `ecc` imports. -/
structure Prims where
  /-- The function `curve25519.X25519(scalar, point)`. -/
  X25519 : Bytes → Bytes → Except Err Bytes
  /-- The value `curve25519.Basepoint`. -/
  Basepoint : Bytes
  /-- The function `chacha20poly1305.Get(key)`. -/
  chachaGet : Bytes → Except Err Cipher

/-! ## `ecc/keys.go` -/

namespace ecc

/-- The constant `curve25519.ScalarSize`. -/
def ScalarSize : Nat := 32

/-- The struct `encrypter`. -/
structure encrypter where
  ephPubKey : Bytes
  cipher : Cipher
  deriving DecidableEq, Repr

/-- The struct `PrivateKey`. -/
structure PrivateKey where
  key : Bytes
  publicKey : Option Ptr
  deriving DecidableEq, Repr

/-- The struct `PublicKey`. -/
structure PublicKey where
  key : Bytes
  encrypter : Option encrypter
  deriving DecidableEq, Repr

/-- The package state: both object heaps, and the registries `privateKeyMap` and
`publicKeyMap`. -/
structure State where
  privateKeys : List PrivateKey
  publicKeys : List PublicKey
  privateKeyMap : GoMap
  publicKeyMap : GoMap
  deriving DecidableEq, Repr

/-- The state at process start: nothing allocated, both registries empty. -/
def State.empty : State := ⟨[], [], [], []⟩

/-- The function `GetPrivateKey`. -/
def GetPrivateKey (key : Bytes) (s : State) : Except Err Ptr × State :=
  if key.length ≠ ScalarSize then (.error .errInvalidKeyLength, s)
  else
    match lookup s.privateKeyMap key with
    | some privateKey => (.ok privateKey, s)
    | none =>
      let privateKey := s.privateKeys.length
      (.ok privateKey,
        { s with
          privateKeys := s.privateKeys ++ [{ key := key, publicKey := none }]
          privateKeyMap := store s.privateKeyMap key privateKey })

/-- The function `NewPrivateKey`. -/
def NewPrivateKey (rnd : RandSrc) (s : State) : Except Err Ptr × State :=
  match randRead rnd ScalarSize with
  | .error err => (.error err, s)
  | .ok key => GetPrivateKey key s

/-- The method `(*PrivateKey).PublicKey`. -/
def PrivateKey.PublicKey (P : Prims) (privateKey : Ptr) (s : State) : Except Err Ptr × State :=
  match s.privateKeys[privateKey]? with
  | none => (.error .panic, s)
  | some obj =>
    match obj.publicKey with
    | some pubKey => (.ok pubKey, s)
    | none =>
      match P.X25519 obj.key P.Basepoint with
      | .error err => (.error err, s)
      | .ok key =>
        match lookup s.publicKeyMap key with
        | some pubKey =>
          (.ok pubKey,
            { s with
              privateKeys := s.privateKeys.set privateKey { obj with publicKey := some pubKey } })
        | none =>
          let pubKey := s.publicKeys.length
          (.ok pubKey,
            { s with
              publicKeys := s.publicKeys ++ [{ key := key, encrypter := none }]
              publicKeyMap := store s.publicKeyMap key pubKey
              privateKeys := s.privateKeys.set privateKey { obj with publicKey := some pubKey } })

/-- The function `GetPublicKey`. -/
def GetPublicKey (key : Bytes) (s : State) : Except Err Ptr × State :=
  if key.length ≠ ScalarSize then (.error .errInvalidKeyLength, s)
  else
    match lookup s.publicKeyMap key with
    | some publicKey => (.ok publicKey, s)
    | none =>
      let publicKey := s.publicKeys.length
      (.ok publicKey,
        { s with
          publicKeys := s.publicKeys ++ [{ key := key, encrypter := none }]
          publicKeyMap := store s.publicKeyMap key publicKey })

/-- The method `(*PublicKey).Bytes`. -/
def PublicKey.Bytes (publicKey : Ptr) (s : State) : Except Err Bytes :=
  match s.publicKeys[publicKey]? with
  | none => .error .panic
  | some obj => .ok obj.key

/-- The method `(*PublicKey).getEncrypter`. -/
def PublicKey.getEncrypter (P : Prims) (rnd : RandSrc) (publicKey : Ptr) (s : State) :
    Except Err ecc.encrypter × State :=
  match s.publicKeys[publicKey]? with
  | none => (.error .panic, s)
  | some obj =>
    match obj.encrypter with
    | some enc => (.ok enc, s)
    | none =>
      match randRead rnd ScalarSize with
      | .error err => (.error err, s)
      | .ok ephPrivKey =>
        match P.X25519 ephPrivKey P.Basepoint with
        | .error err => (.error err, s)
        | .ok ephPubKey =>
          match P.X25519 ephPrivKey obj.key with
          | .error err => (.error err, s)
          | .ok sharedKey =>
            match P.chachaGet sharedKey with
            | .error err => (.error err, s)
            | .ok cipher =>
              let enc : ecc.encrypter := { ephPubKey := ephPubKey, cipher := cipher }
              (.ok enc,
                { s with
                  publicKeys := s.publicKeys.set publicKey { obj with encrypter := some enc } })

/-- One call into package `ecc` that can change its state. -/
inductive Call where
  | NewPrivateKey (rnd : RandSrc)
  | GetPrivateKey (key : Bytes)
  | PublicKey (privateKey : Ptr)
  | GetPublicKey (key : Bytes)
  | getEncrypter (rnd : RandSrc) (publicKey : Ptr)

/-- The state after one call. -/
def Call.exec (P : Prims) : Call → State → State
  | .NewPrivateKey rnd, s => (ecc.NewPrivateKey rnd s).2
  | .GetPrivateKey key, s => (ecc.GetPrivateKey key s).2
  | .PublicKey privateKey, s => (ecc.PrivateKey.PublicKey P privateKey s).2
  | .GetPublicKey key, s => (ecc.GetPublicKey key s).2
  | .getEncrypter rnd publicKey, s => (ecc.PublicKey.getEncrypter P rnd publicKey s).2

/-- The state after a sequence of calls, first call first. -/
def run (P : Prims) (calls : List Call) (s : State) : State :=
  calls.foldl (fun st c => c.exec P st) s

end ecc

/-! ## `ecc/keys.go`: key objects that share the slice of their caller -/

namespace ecc.mem

/-- A Go `[]byte` by reference: the index of its backing array in the memory of slices.
Only slices that span their whole array are modelled. -/
abbrev Slice := Nat

/-- The struct `PrivateKey`. The field `key *[]byte` is set to `&key`, the slice that was
handed to `GetPrivateKey`: the object shares the backing array of its caller. -/
structure PrivateKey where
  key : Slice
  publicKey : Option Ptr
  deriving DecidableEq, Repr

/-- The struct `PublicKey`, with `key *[]byte` a shared slice as well. -/
structure PublicKey where
  key : Slice
  encrypter : Option ecc.encrypter
  deriving DecidableEq, Repr

/-- The package state, and with it the memory of byte slices that callers and key objects
share. -/
structure State where
  slices : List Bytes
  privateKeys : List PrivateKey
  publicKeys : List PublicKey
  privateKeyMap : GoMap
  publicKeyMap : GoMap
  deriving DecidableEq, Repr

/-- The state at process start. -/
def State.empty : State := ⟨[], [], [], [], []⟩

/-- A caller makes a new slice that holds `bytes`. -/
def newSlice (bytes : Bytes) (s : State) : Slice × State :=
  (s.slices.length, { s with slices := s.slices ++ [bytes] })

/-- The assignment `sl[i] = b` by a holder of the slice `sl`. An index out of range, a
panic in Go, changes nothing here. -/
def setByte (sl : Slice) (i : Nat) (b : Byte) (s : State) : State :=
  match s.slices[sl]? with
  | none => s
  | some bytes => { s with slices := s.slices.set sl (bytes.set i b) }

/-- The bytes the slice `sl` holds now. -/
def read (sl : Slice) (s : State) : Option Bytes := s.slices[sl]?

/-- The method `(*PrivateKey).Bytes`: `*privateKey.key`, the slice itself. -/
def PrivateKey.Bytes (privateKey : Ptr) (s : State) : Except Err Slice :=
  match s.privateKeys[privateKey]? with
  | none => .error .panic
  | some obj => .ok obj.key

/-- The function `GetPrivateKey`. The registry is read and written under `string(key)`, a
copy of the bytes; the new object keeps `&key`, the slice. -/
def GetPrivateKey (key : Slice) (s : State) : Except Err Ptr × State :=
  match s.slices[key]? with
  | none => (.error .panic, s)
  | some bytes =>
    if bytes.length ≠ ScalarSize then (.error .errInvalidKeyLength, s)
    else
      match lookup s.privateKeyMap bytes with
      | some privateKey => (.ok privateKey, s)
      | none =>
        let privateKey := s.privateKeys.length
        (.ok privateKey,
          { s with
            privateKeys := s.privateKeys ++ [{ key := key, publicKey := none }]
            privateKeyMap := store s.privateKeyMap bytes privateKey })

/-- The method `(*PrivateKey).PublicKey`. The result of `curve25519.X25519` is a new
slice, which the new public key object keeps. -/
def PrivateKey.PublicKey (P : Prims) (privateKey : Ptr) (s : State) : Except Err Ptr × State :=
  match s.privateKeys[privateKey]? with
  | none => (.error .panic, s)
  | some obj =>
    match obj.publicKey with
    | some pubKey => (.ok pubKey, s)
    | none =>
      match s.slices[obj.key]? with
      | none => (.error .panic, s)
      | some scalar =>
        match P.X25519 scalar P.Basepoint with
        | .error err => (.error err, s)
        | .ok bytes =>
          let key := s.slices.length
          let s1 := { s with slices := s.slices ++ [bytes] }
          match lookup s1.publicKeyMap bytes with
          | some pubKey =>
            (.ok pubKey,
              { s1 with
                privateKeys := s1.privateKeys.set privateKey { obj with publicKey := some pubKey } })
          | none =>
            let pubKey := s1.publicKeys.length
            (.ok pubKey,
              { s1 with
                publicKeys := s1.publicKeys ++ [{ key := key, encrypter := none }]
                publicKeyMap := store s1.publicKeyMap bytes pubKey
                privateKeys := s1.privateKeys.set privateKey { obj with publicKey := some pubKey } })

/-- The function `GetPublicKey`. -/
def GetPublicKey (key : Slice) (s : State) : Except Err Ptr × State :=
  match s.slices[key]? with
  | none => (.error .panic, s)
  | some bytes =>
    if bytes.length ≠ ScalarSize then (.error .errInvalidKeyLength, s)
    else
      match lookup s.publicKeyMap bytes with
      | some publicKey => (.ok publicKey, s)
      | none =>
        let publicKey := s.publicKeys.length
        (.ok publicKey,
          { s with
            publicKeys := s.publicKeys ++ [{ key := key, encrypter := none }]
            publicKeyMap := store s.publicKeyMap bytes publicKey })

/-- The method `(*PublicKey).Bytes`: `*publicKey.key`, the slice itself. -/
def PublicKey.Bytes (publicKey : Ptr) (s : State) : Except Err Slice :=
  match s.publicKeys[publicKey]? with
  | none => .error .panic
  | some obj => .ok obj.key

/-- A process in which a caller fills the slice `0` with 32 bytes `1`, hands it to
`GetPrivateKey`, which makes object `0`, writes 255 to the first byte of its slice, and
then makes the slice `1` with 32 bytes `1`. -/
def rewrittenPrivate : State :=
  (newSlice (List.replicate 32 1)
    (setByte 0 0 255
      (GetPrivateKey 0 (newSlice (List.replicate 32 1) State.empty).2).2)).2

/-- A process in which a caller fills the slice `0` with 32 bytes `2`, hands it to
`GetPublicKey`, which makes object `0`, and then writes 255 to the first byte of its
slice. -/
def rewrittenPublic : State :=
  setByte 0 0 255 (GetPublicKey 0 (newSlice (List.replicate 32 2) State.empty).2).2

end ecc.mem

/-! ## `internal/asx/keys.go` -/

namespace asx

/-- Modelled from the spec: the constant `PrivateKeyLength` of package `asx`, declared
outside the sources at hand; the hybrid seed is "exactly 64 bytes" (§4.3, §6, and the
comment on `ParsePrivateKey`). -/
def PrivateKeyLength : Nat := 64

/-- The struct `PrivateKey`; the sub-key fields are pointers, `nil` until first use. -/
structure PrivateKey where
  key : Bytes
  eccPrivKey : Option Ptr
  kybPrivKey : Option Ptr
  pubKeyECC : Option Ptr
  pubKeyKyb : Option Ptr
  deriving DecidableEq, Repr

/-- The function `ParsePrivateKey`: a fresh object, not interned. -/
def ParsePrivateKey (key : Bytes) : Except Err PrivateKey :=
  if key.length ≠ PrivateKeyLength then .error .errInvalidPrivateKeyLength
  else .ok { key := key, eccPrivKey := none, kybPrivKey := none, pubKeyECC := none,
             pubKeyKyb := none }

end asx

/-! ## `internal/asx/keys.go`: the stateful part -/

namespace ecc

/-- Modelled from the spec: the function `ecc.ParsePrivateKey` that package `asx` calls
and the `ecc/keys.go` at hand does not declare. By §4.2 it "fails with `InvalidKeyLength`
unless exactly 32 bytes; interns", which is the `GetPrivateKey` of `ecc/keys.go`. -/
def ParsePrivateKey (key : Bytes) (s : State) : Except Err Ptr × State :=
  GetPrivateKey key s

/-- Modelled from the spec: the function `ecc.ParsePublicKey` that package `asx` calls and
the `ecc/keys.go` at hand does not declare. By §4.2 it "fails with `InvalidKeyLength`
unless exactly 32 bytes; interns", which is the `GetPublicKey` of `ecc/keys.go`. -/
def ParsePublicKey (key : Bytes) (s : State) : Except Err Ptr × State :=
  GetPublicKey key s

end ecc

namespace asx

/-- What package `asx` uses and the sources at hand do not declare: its constants
`AlgoECC`, `AlgoKyber` and `MinPublicKeyLength`, the function `sha256.Sum256` (whose
result is a `[32]byte`), and the functions of package `kyb`, with `κ` the type of its
private keys and `π` the type of its public keys. -/
structure Env (κ π : Type) where
  AlgoECC : Byte
  AlgoKyber : Byte
  MinPublicKeyLength : Nat
  Sum256 : Bytes → { l : Bytes // l.length = 32 }
  /-- The function `kyb.NewPrivateKeyForSeed`. -/
  kybNewPrivateKeyForSeed : Bytes → Except Err κ
  /-- The method `(*kyb.PrivateKey).PublicKey`. -/
  kybPublicKey : κ → Except Err π
  /-- The method `(*kyb.PublicKey).Bytes`. -/
  kybBytes : π → Except Err Bytes
  /-- The function `kyb.ParsePublicKey`. -/
  kybParsePublicKey : Bytes → Except Err π

/-- What the spec says of the constants (§4.3, §6): the two tags are distinct, and the
minimum length is that of a tag byte with the shortest payload, the 32 bytes of a classical
key; at least the tag byte must be there. -/
structure Env.Lawful {κ π : Type} (E : Env κ π) : Prop where
  tags : E.AlgoECC ≠ E.AlgoKyber
  min_pos : 1 ≤ E.MinPublicKeyLength
  min_le : E.MinPublicKeyLength ≤ 33

/-- The struct `PublicKey`: `ePub` points into the heap of `ecc` public keys, `kPub` into
the heap of `kyb` public keys. -/
structure PublicKey where
  ePub : Option Ptr
  kPub : Option Ptr
  deriving DecidableEq, Repr

/-- The state of a process that uses package `asx`: the state of package `ecc`, the heaps
of `asx` private and public keys, and the heaps of `kyb` keys. -/
structure State (κ π : Type) where
  ecc : ecc.State
  privateKeys : List PrivateKey
  publicKeys : List PublicKey
  kybPrivateKeys : List κ
  kybPublicKeys : List π

/-- The state at process start. -/
def State.empty {κ π : Type} : State κ π := ⟨ecc.State.empty, [], [], [], []⟩

variable {κ π : Type}

/-- The function `ParsePrivateKey`, with the object it returns placed in the heap. -/
def ParsePrivateKeyIn (key : Bytes) (s : State κ π) : Except Err Ptr × State κ π :=
  match ParsePrivateKey key with
  | .error err => (.error err, s)
  | .ok obj => (.ok s.privateKeys.length, { s with privateKeys := s.privateKeys ++ [obj] })

/-- The function `NewPrivateKey`. -/
def NewPrivateKey (rnd : RandSrc) (s : State κ π) : Except Err Ptr × State κ π :=
  match randRead rnd PrivateKeyLength with
  | .error err => (.error err, s)
  | .ok key => ParsePrivateKeyIn key s

/-- The method `(*PrivateKey).getEccPrivKey`. -/
def PrivateKey.getEccPrivKey (E : Env κ π) (privateKey : Ptr) (s : State κ π) :
    Except Err Ptr × State κ π :=
  match s.privateKeys[privateKey]? with
  | none => (.error .panic, s)
  | some obj =>
    match obj.eccPrivKey with
    | some eccPrivKey => (.ok eccPrivKey, s)
    | none =>
      match ecc.ParsePrivateKey (E.Sum256 obj.key).val s.ecc with
      | (.error err, e1) => (.error err, { s with ecc := e1 })
      | (.ok eccPrivKey, e1) =>
        (.ok eccPrivKey,
          { s with
            ecc := e1
            privateKeys :=
              s.privateKeys.set privateKey { obj with eccPrivKey := some eccPrivKey } })

/-- The method `(*PrivateKey).getKybPrivKey`. -/
def PrivateKey.getKybPrivKey (E : Env κ π) (privateKey : Ptr) (s : State κ π) :
    Except Err Ptr × State κ π :=
  match s.privateKeys[privateKey]? with
  | none => (.error .panic, s)
  | some obj =>
    match obj.kybPrivKey with
    | some kybPrivKey => (.ok kybPrivKey, s)
    | none =>
      match E.kybNewPrivateKeyForSeed obj.key with
      | .error err => (.error err, s)
      | .ok k =>
        let kybPrivKey := s.kybPrivateKeys.length
        (.ok kybPrivKey,
          { s with
            kybPrivateKeys := s.kybPrivateKeys ++ [k]
            privateKeys :=
              s.privateKeys.set privateKey { obj with kybPrivKey := some kybPrivKey } })

/-- The method `(*PrivateKey).PublicKeyECC`. -/
def PrivateKey.PublicKeyECC (E : Env κ π) (P : Prims) (privateKey : Ptr) (s : State κ π) :
    Except Err Ptr × State κ π :=
  match s.privateKeys[privateKey]? with
  | none => (.error .panic, s)
  | some obj =>
    match obj.pubKeyECC with
    | some pubKeyECC => (.ok pubKeyECC, s)
    | none =>
      match ecc.ParsePrivateKey (E.Sum256 obj.key).val s.ecc with
      | (.error err, e1) => (.error err, { s with ecc := e1 })
      | (.ok eccPrivKey, e1) =>
        match ecc.PrivateKey.PublicKey P eccPrivKey e1 with
        | (.error err, e2) => (.error err, { s with ecc := e2 })
        | (.ok eccPubKey, e2) =>
          let pubKeyECC := s.publicKeys.length
          (.ok pubKeyECC,
            { s with
              ecc := e2
              publicKeys := s.publicKeys ++ [{ ePub := some eccPubKey, kPub := none }]
              privateKeys :=
                s.privateKeys.set privateKey { obj with pubKeyECC := some pubKeyECC } })

/-- The method `(*PrivateKey).PublicKeyKyber`. -/
def PrivateKey.PublicKeyKyber (E : Env κ π) (privateKey : Ptr) (s : State κ π) :
    Except Err Ptr × State κ π :=
  match s.privateKeys[privateKey]? with
  | none => (.error .panic, s)
  | some obj =>
    match obj.pubKeyKyb with
    | some pubKeyKyb => (.ok pubKeyKyb, s)
    | none =>
      match E.kybNewPrivateKeyForSeed obj.key with
      | .error err => (.error err, s)
      | .ok kybPrivKey =>
        match E.kybPublicKey kybPrivKey with
        | .error err => (.error err, s)
        | .ok kybPubKey =>
          let pubKeyKyb := s.publicKeys.length
          (.ok pubKeyKyb,
            { s with
              kybPublicKeys := s.kybPublicKeys ++ [kybPubKey]
              publicKeys :=
                s.publicKeys ++ [{ ePub := none, kPub := some s.kybPublicKeys.length }]
              privateKeys :=
                s.privateKeys.set privateKey { obj with pubKeyKyb := some pubKeyKyb } })

/-- The method `(*PublicKey).Bytes`. -/
def PublicKey.Bytes (E : Env κ π) (publicKey : Ptr) (s : State κ π) : Except Err Bytes :=
  match s.publicKeys[publicKey]? with
  | none => .error .panic
  | some obj =>
    match obj.ePub with
    | some ePub =>
      match ecc.PublicKey.Bytes ePub s.ecc with
      | .error err => .error err
      | .ok keyBytes => .ok (E.AlgoECC :: keyBytes)
    | none =>
      match obj.kPub with
      | some kPub =>
        match s.kybPublicKeys[kPub]? with
        | none => .error .panic
        | some k =>
          match E.kybBytes k with
          | .error err => .error err
          | .ok kybPubKeyBytes => .ok (E.AlgoKyber :: kybPubKeyBytes)
      | none => .error .errInvalidPublicKey

/-- The function `ParsePublicKey`. Reading `key[0]` of an empty slice panics; the `switch`
tries its cases in order. -/
def ParsePublicKey (E : Env κ π) (key : Bytes) (s : State κ π) : Except Err Ptr × State κ π :=
  if key.length < E.MinPublicKeyLength then (.error .errInvalidPublicKeyLength, s)
  else
    match key with
    | [] => (.error .panic, s)
    | tag :: payload =>
      if tag = E.AlgoECC then
        match ecc.ParsePublicKey payload s.ecc with
        | (.error err, e1) => (.error err, { s with ecc := e1 })
        | (.ok eccPubKey, e1) =>
          (.ok s.publicKeys.length,
            { s with
              ecc := e1
              publicKeys := s.publicKeys ++ [{ ePub := some eccPubKey, kPub := none }] })
      else if tag = E.AlgoKyber then
        match E.kybParsePublicKey payload with
        | .error err => (.error err, s)
        | .ok kybPubKey =>
          (.ok s.publicKeys.length,
            { s with
              kybPublicKeys := s.kybPublicKeys ++ [kybPubKey]
              publicKeys :=
                s.publicKeys ++ [{ ePub := none, kPub := some s.kybPublicKeys.length }] })
      else (.error .errInvalidPublicKey, s)

/-- One call into the process that can change its state: a call into package `ecc`, or
one of the functions of package `asx`. -/
inductive Call where
  | ecc (c : ecc.Call)
  | NewPrivateKey (rnd : RandSrc)
  | ParsePrivateKey (key : Bytes)
  | getEccPrivKey (privateKey : Ptr)
  | getKybPrivKey (privateKey : Ptr)
  | PublicKeyECC (privateKey : Ptr)
  | PublicKeyKyber (privateKey : Ptr)
  | ParsePublicKey (key : Bytes)

/-- The state after one call. -/
def Call.exec (E : Env κ π) (P : Prims) : Call → State κ π → State κ π
  | .ecc c, s => { s with ecc := c.exec P s.ecc }
  | .NewPrivateKey rnd, s => (asx.NewPrivateKey rnd s).2
  | .ParsePrivateKey key, s => (asx.ParsePrivateKeyIn key s).2
  | .getEccPrivKey privateKey, s => (asx.PrivateKey.getEccPrivKey E privateKey s).2
  | .getKybPrivKey privateKey, s => (asx.PrivateKey.getKybPrivKey E privateKey s).2
  | .PublicKeyECC privateKey, s => (asx.PrivateKey.PublicKeyECC E P privateKey s).2
  | .PublicKeyKyber privateKey, s => (asx.PrivateKey.PublicKeyKyber E privateKey s).2
  | .ParsePublicKey key, s => (asx.ParsePublicKey E key s).2

/-- The state after a sequence of calls, first call first. -/
def run (E : Env κ π) (P : Prims) (calls : List Call) (s : State κ π) : State κ π :=
  calls.foldl (fun st c => c.exec E P st) s

end asx

/-! ## `keys.go` (package `xipher`) -/

namespace xipher

/-- The helpers of `kdfSpec`, whose file is not among the sources, as a parameter: the
type `σ` of specs, the length of their encoding, and the functions `keys.go` calls. -/
structure KdfOps (σ : Type) where
  /-- The constant `kdfSpecLength`. -/
  kdfSpecLength : Nat
  /-- The function `newSpec()`, run on one outcome of the random source. -/
  newSpec : RandSrc → Except Err σ
  /-- The method `setIterations`. -/
  setIterations : σ → Byte → σ
  /-- The method `setMemory`. -/
  setMemory : σ → Byte → σ
  /-- The method `setThreads`. -/
  setThreads : σ → Byte → σ
  /-- The method `getCipherKey(pwd)`. -/
  getCipherKey : σ → Bytes → Bytes
  /-- The method `bytes()`. -/
  bytes : σ → Bytes
  /-- The function `parseKdfSpec`. -/
  parseKdfSpec : Bytes → Except Err σ

/-- Modelled from the spec: the constant `cipherKeyLength`, declared outside the sources at
hand; the curve public key part of a public key is 32 bytes (§3, §6). -/
def cipherKeyLength : Nat := 32

/-- Modelled from the spec: the constant `PrivateKeyLength`, declared outside the sources
at hand; "the given bytes must be 32 bytes long" (comment on `ParsePrivateKey`, §6). -/
def PrivateKeyLength : Nat := 32

/-- Modelled from the spec: the constant `PublicKeyLength`, declared outside the sources at
hand; "exactly `32 + specLength` bytes" (§3, §4.4, §6). -/
def PublicKeyLength {σ : Type} (K : KdfOps σ) : Nat := cipherKeyLength + K.kdfSpecLength

/-- The struct `PrivateKey`. -/
structure PrivateKey (σ : Type) where
  password : Option Bytes
  spec : Option σ
  key : Bytes
  symEncrypter : Option Cipher
  publicKey : Option Ptr
  specKeyMap : List (Bytes × Bytes)
  deriving DecidableEq, Repr

/-- The struct `PublicKey`; `publicKey` points into the heap of `ecc` public keys. -/
structure PublicKey (σ : Type) where
  publicKey : Ptr
  spec : Option σ
  deriving DecidableEq, Repr

/-- The state of the process: the state of package `ecc`, the two object heaps of package
`xipher`, and its registries `pwdXipherMap` and `keyXipherMap`. -/
structure State (σ : Type) where
  ecc : ecc.State
  privateKeys : List (PrivateKey σ)
  publicKeys : List (PublicKey σ)
  pwdXipherMap : GoMap
  keyXipherMap : GoMap
  deriving DecidableEq, Repr

/-- The state at process start. -/
def State.empty {σ : Type} : State σ := ⟨ecc.State.empty, [], [], [], []⟩

variable {σ : Type}

/-- The function `newPrivateKeyForPwdAndSpec`. -/
def newPrivateKeyForPwdAndSpec (K : KdfOps σ) (password : Bytes) (spec : σ) (s : State σ) :
    Except Err Ptr × State σ :=
  if password.length = 0 then (.error .errInvalidPassword, s)
  else
    match lookup s.pwdXipherMap password with
    | some privateKey => (.ok privateKey, s)
    | none =>
      let privateKey := s.privateKeys.length
      let key := K.getCipherKey spec password
      (.ok privateKey,
        { s with
          privateKeys := s.privateKeys ++
            [{ password := some password, spec := some spec, key := key, symEncrypter := none,
               publicKey := none, specKeyMap := [(K.bytes spec, key)] }]
          pwdXipherMap := store s.pwdXipherMap password privateKey })

/-- The function `NewPrivateKeyForPassword`. -/
def NewPrivateKeyForPassword (K : KdfOps σ) (rnd : RandSrc) (password : Bytes) (s : State σ) :
    Except Err Ptr × State σ :=
  match K.newSpec rnd with
  | .error err => (.error err, s)
  | .ok spec => newPrivateKeyForPwdAndSpec K password spec s

/-- The function `NewPrivateKeyForPasswordAndSpec`. -/
def NewPrivateKeyForPasswordAndSpec (K : KdfOps σ) (rnd : RandSrc) (password : Bytes)
    (iterations memory threads : Byte) (s : State σ) : Except Err Ptr × State σ :=
  match K.newSpec rnd with
  | .error err => (.error err, s)
  | .ok spec =>
    newPrivateKeyForPwdAndSpec K password
      (K.setThreads (K.setMemory (K.setIterations spec iterations) memory) threads) s

/-- The function `NewPrivateKey`. -/
def NewPrivateKey (rnd : RandSrc) (s : State σ) : Except Err Ptr × State σ :=
  match randRead rnd cipherKeyLength with
  | .error err => (.error err, s)
  | .ok key =>
    let privateKey := s.privateKeys.length
    (.ok privateKey,
      { s with
        privateKeys := s.privateKeys ++
          [{ password := none, spec := none, key := key, symEncrypter := none,
             publicKey := none, specKeyMap := [] }]
        keyXipherMap := store s.keyXipherMap key privateKey })

/-- The function `ParsePrivateKey`. -/
def ParsePrivateKey (key : Bytes) (s : State σ) : Except Err Ptr × State σ :=
  if key.length ≠ PrivateKeyLength then
    (.error (.invalidPrivateKeyLength PrivateKeyLength key.length), s)
  else
    match lookup s.keyXipherMap key with
    | some privateKey => (.ok privateKey, s)
    | none =>
      let privateKey := s.privateKeys.length
      (.ok privateKey,
        { s with
          privateKeys := s.privateKeys ++
            [{ password := none, spec := none, key := key, symEncrypter := none,
               publicKey := none, specKeyMap := [] }]
          keyXipherMap := store s.keyXipherMap key privateKey })

/-- The method `(*PrivateKey).isPwdBased`. -/
def PrivateKey.isPwdBased (privateKey : Ptr) (s : State σ) : Except Err Bool :=
  match s.privateKeys[privateKey]? with
  | none => .error .panic
  | some obj => .ok (obj.password.isSome && obj.spec.isSome)

/-- The method `(*PrivateKey).Bytes`. -/
def PrivateKey.Bytes (privateKey : Ptr) (s : State σ) : Except Err Bytes :=
  match s.privateKeys[privateKey]? with
  | none => .error .panic
  | some obj =>
    if obj.password.isSome ∨ obj.spec.isSome then .error .errPrivKeyUnavailableForPwd
    else .ok obj.key

/-- The method `(*PrivateKey).PublicKey`. -/
def PrivateKey.PublicKey (P : Prims) (privateKey : Ptr) (s : State σ) :
    Except Err Ptr × State σ :=
  match s.privateKeys[privateKey]? with
  | none => (.error .panic, s)
  | some obj =>
    match obj.publicKey with
    | some publicKey => (.ok publicKey, s)
    | none =>
      match ecc.GetPrivateKey obj.key s.ecc with
      | (.error err, e1) => (.error err, { s with ecc := e1 })
      | (.ok eccPrivKey, e1) =>
        match ecc.PrivateKey.PublicKey P eccPrivKey e1 with
        | (.error err, e2) => (.error err, { s with ecc := e2 })
        | (.ok eccPubKey, e2) =>
          let publicKey := s.publicKeys.length
          (.ok publicKey,
            { s with
              ecc := e2
              publicKeys := s.publicKeys ++ [{ publicKey := eccPubKey, spec := obj.spec }]
              privateKeys :=
                s.privateKeys.set privateKey { obj with publicKey := some publicKey } })

/-- The function `ParsePublicKey`. The conversion `[kdfSpecLength]byte(specBytes)` panics on
a slice shorter than the array and otherwise reads its first `kdfSpecLength` bytes. -/
def ParsePublicKey (K : KdfOps σ) (pubKeyBytes : Bytes) (s : State σ) :
    Except Err Ptr × State σ :=
  if pubKeyBytes.length ≠ PublicKeyLength K then
    (.error (.invalidPublicKeyLength (PublicKeyLength K) pubKeyBytes.length), s)
  else
    match ecc.GetPublicKey (pubKeyBytes.take cipherKeyLength) s.ecc with
    | (.error err, e1) => (.error err, { s with ecc := e1 })
    | (.ok eccPubKey, e1) =>
      let specBytes := pubKeyBytes.drop cipherKeyLength
      if specBytes.length < K.kdfSpecLength then (.error .panic, { s with ecc := e1 })
      else if specBytes.take K.kdfSpecLength ≠ List.replicate K.kdfSpecLength 0 then
        match K.parseKdfSpec specBytes with
        | .error err => (.error err, { s with ecc := e1 })
        | .ok spec =>
          (.ok s.publicKeys.length,
            { s with
              ecc := e1
              publicKeys := s.publicKeys ++ [{ publicKey := eccPubKey, spec := some spec }] })
      else
        (.ok s.publicKeys.length,
          { s with
            ecc := e1
            publicKeys := s.publicKeys ++ [{ publicKey := eccPubKey, spec := none }] })

/-- The method `(*PublicKey).isPwdBased`. -/
def PublicKey.isPwdBased (publicKey : Ptr) (s : State σ) : Except Err Bool :=
  match s.publicKeys[publicKey]? with
  | none => .error .panic
  | some obj => .ok obj.spec.isSome

/-- The method `(*PublicKey).Bytes`. -/
def PublicKey.Bytes (K : KdfOps σ) (publicKey : Ptr) (s : State σ) : Except Err Bytes :=
  match s.publicKeys[publicKey]? with
  | none => .error .panic
  | some obj =>
    match ecc.PublicKey.Bytes obj.publicKey s.ecc with
    | .error err => .error err
    | .ok keyBytes =>
      match obj.spec with
      | some spec => .ok (keyBytes ++ K.bytes spec)
      | none => .ok (keyBytes ++ List.replicate K.kdfSpecLength 0)

/-- One call into the process that can change its state: a call into package `ecc`, or one
of the exported functions of package `xipher`. -/
inductive Call where
  | ecc (c : ecc.Call)
  | NewPrivateKeyForPassword (rnd : RandSrc) (password : Bytes)
  | NewPrivateKeyForPasswordAndSpec (rnd : RandSrc) (password : Bytes)
      (iterations memory threads : Byte)
  | NewPrivateKey (rnd : RandSrc)
  | ParsePrivateKey (key : Bytes)
  | PublicKey (privateKey : Ptr)
  | ParsePublicKey (pubKeyBytes : Bytes)

/-- The state after one call. -/
def Call.exec (K : KdfOps σ) (P : Prims) : Call → State σ → State σ
  | .ecc c, s => { s with ecc := c.exec P s.ecc }
  | .NewPrivateKeyForPassword rnd password, s =>
    (xipher.NewPrivateKeyForPassword K rnd password s).2
  | .NewPrivateKeyForPasswordAndSpec rnd password iterations memory threads, s =>
    (xipher.NewPrivateKeyForPasswordAndSpec K rnd password iterations memory threads s).2
  | .NewPrivateKey rnd, s => (xipher.NewPrivateKey rnd s).2
  | .ParsePrivateKey key, s => (xipher.ParsePrivateKey key s).2
  | .PublicKey privateKey, s => (xipher.PrivateKey.PublicKey P privateKey s).2
  | .ParsePublicKey pubKeyBytes, s => (xipher.ParsePublicKey K pubKeyBytes s).2

/-- The state after a sequence of calls, first call first. -/
def run (K : KdfOps σ) (P : Prims) (calls : List Call) (s : State σ) : State σ :=
  calls.foldl (fun st c => c.exec K P st) s

end xipher

/-! ## Stand-ins for the primitives, to run the embedding on concrete inputs -/

/-- A stand-in for the primitives of package `ecc`: `X25519` adds scalar and point bytewise
and, as the library does, rejects operands that are not 32 bytes long; the AEAD constructor
accepts 32-byte keys. -/
def toyPrims : Prims where
  X25519 := fun scalar point =>
    if scalar.length = 32 ∧ point.length = 32 then .ok (List.zipWith (· + ·) scalar point)
    else .error (.external 1)
  Basepoint := 9 :: List.replicate 31 0
  chachaGet := fun key => if key.length = 32 then .ok ⟨key⟩ else .error (.external 2)

/-- Thirty-two equal bytes. -/
def key32 (b : Byte) : Bytes := List.replicate 32 b

/-- Modelled from the spec: the struct `kdfSpec`, whose file is not among the sources. It
holds the three one-byte cost parameters of §3 and §6 (iterations, memory, threads); the
16 further bytes, drawn from the random source by `newSpec`, bring the encoding to the 19
bytes that make a public key "51 bytes long" (comment on `ParsePublicKey`). -/
structure kdfSpec where
  iterations : Byte
  memory : Byte
  threads : Byte
  salt : { l : Bytes // l.length = 16 }
  deriving DecidableEq

/-- Modelled from the spec: the helpers of `kdfSpec`. `newSpec` fills in the defaults and
draws the salt; a setter keeps the default on a zero argument ("zero values fall back to
library defaults", §4.4); `bytes` is the fixed-length encoding, one byte per parameter
(§6), and `parseKdfSpec` reads it back. The key derivation itself is a stand-in that mixes
password, salt and iterations into 32 bytes. -/
def toyKdf : xipher.KdfOps kdfSpec where
  kdfSpecLength := 19
  newSpec := fun rnd =>
    match rnd with
    | .fail code => .error (.external code)
    | .bytes f =>
      .ok { iterations := 16, memory := 64, threads := 1,
            salt := ⟨(List.range 16).map f, by simp⟩ }
  setIterations := fun spec iterations =>
    if iterations = 0 then spec else { spec with iterations := iterations }
  setMemory := fun spec memory => if memory = 0 then spec else { spec with memory := memory }
  setThreads := fun spec threads =>
    if threads = 0 then spec else { spec with threads := threads }
  getCipherKey := fun spec pwd =>
    (List.range 32).map fun i =>
      pwd.getD (i % pwd.length) 0 + spec.iterations + spec.salt.val.getD (i % 16) 0
  bytes := fun spec => spec.iterations :: spec.memory :: spec.threads :: spec.salt.val
  parseKdfSpec := fun b =>
    if h : b.length = 19 then
      .ok { iterations := b.getD 0 0, memory := b.getD 1 0, threads := b.getD 2 0,
            salt := ⟨b.drop 3, by simp [h]⟩ }
    else .error (.external 3)

/-- A random source that yields the byte `b` over and over. -/
def constSrc (b : Byte) : RandSrc := .bytes (fun _ => b)

/-- A two-byte password. -/
def pw12 : Bytes := [1, 2]

/-- Modelled from the spec: the constants of package `asx`, declared outside the sources:
two distinct small tag values and the minimum length 33 of a tag byte with a 32-byte
classical payload (§4.3, §6). SHA-256 and package `kyb` are stand-ins: a 32-byte fold of
the seed, and keys that are their own 40-byte encoding. -/
def toyEnv : asx.Env Bytes Bytes where
  AlgoECC := 0
  AlgoKyber := 1
  MinPublicKeyLength := 33
  Sum256 := fun b => ⟨(List.range 32).map (fun i => b.getD i 0 + b.getD (i + 32) 0), by simp⟩
  kybNewPrivateKeyForSeed := fun seed =>
    if seed.length = 64 then .ok (seed.take 40) else .error (.external 6)
  kybPublicKey := fun k => .ok (k.map (· + 1))
  kybBytes := fun k => .ok k
  kybParsePublicKey := fun b => if b.length = 40 then .ok b else .error (.external 7)

/-- Sixty-four equal bytes. -/
def key64 (b : Byte) : Bytes := List.replicate 64 b

/-- A 34-byte hybrid public key encoding: the tag of a classical key followed by a payload
of 33 bytes, one more than a curve public key has. -/
def pub34 : Bytes := toyEnv.AlgoECC :: (key32 1 ++ [1])

/-! ## Well-formedness of the `ecc` state -/

namespace ecc

/-- The invariant of the package state: each registry maps bytes to an allocated object
holding exactly those bytes, every object is registered under its own bytes, private keys
have 32 bytes, and a memoized public key is the X25519 image of its private key. -/
structure Inv (P : Prims) (s : State) : Prop where
  priv_map : ∀ b p, lookup s.privateKeyMap b = some p →
    ∃ o, s.privateKeys[p]? = some o ∧ o.key = b
  pub_map : ∀ b p, lookup s.publicKeyMap b = some p →
    ∃ o, s.publicKeys[p]? = some o ∧ o.key = b
  priv_obj : ∀ (p : Ptr) (o : PrivateKey), s.privateKeys[p]? = some o →
    lookup s.privateKeyMap o.key = some p ∧ o.key.length = ScalarSize
  pub_obj : ∀ (p : Ptr) (o : PublicKey), s.publicKeys[p]? = some o → lookup s.publicKeyMap o.key = some p
  priv_pub : ∀ (p : Ptr) (o : PrivateKey) (q : Ptr), s.privateKeys[p]? = some o → o.publicKey = some q →
    ∃ po, s.publicKeys[q]? = some po ∧ P.X25519 o.key P.Basepoint = .ok po.key

/-- Every public key object holds exactly 32 bytes. -/
def PubLen (s : State) : Prop :=
  ∀ (p : Ptr) (o : PublicKey), s.publicKeys[p]? = some o → o.key.length = ScalarSize

/-- The state `t` is a later stage of `s`: every object of `s` is still there, with the same
key bytes and the same memoized fields. -/
structure Ext (s t : State) : Prop where
  priv : ∀ (p : Ptr) (o : PrivateKey), s.privateKeys[p]? = some o →
    ∃ o', t.privateKeys[p]? = some o' ∧ o'.key = o.key ∧
      ∀ q, o.publicKey = some q → o'.publicKey = some q
  pub : ∀ (p : Ptr) (o : PublicKey), s.publicKeys[p]? = some o →
    ∃ o', t.publicKeys[p]? = some o' ∧ o'.key = o.key ∧
      ∀ e, o.encrypter = some e → o'.encrypter = some e

/-- The contract of `curve25519.X25519`: a successful result is a slice of 32 bytes. -/
def X25519Len (P : Prims) : Prop :=
  ∀ k p r, P.X25519 k p = .ok r → r.length = 32

/-- The contract of `curve25519.X25519` on the base point: with a 32-byte scalar the
multiplication of the base point does not fail. -/
def BasepointTotal (P : Prims) : Prop :=
  ∀ k : Bytes, k.length = 32 → ∃ r, P.X25519 k P.Basepoint = .ok r

end ecc

/-! ## Well-formedness of the state of a process that uses `asx` -/

namespace asx

variable {κ π : Type}

/-- In the `ecc` state `e`, a private key is registered under the bytes `k`, and its
memoized public key is the object `q`. -/
def EccMemo (e : ecc.State) (k : Bytes) (q : Ptr) : Prop :=
  ∃ ep eo, lookup e.privateKeyMap k = some ep ∧ e.privateKeys[ep]? = some eo ∧
    eo.publicKey = some q

/-- What the invariant says of one private key object: a memoized classical sub-key is the
`ecc` private key registered under the SHA-256 of the seed; a memoized classical public key
is an object with only `ePub` set, to the memoized public key of that `ecc` private key; a
memoized post-quantum public key is an object with only `kPub` set. -/
def PrivOk (E : Env κ π) (e : ecc.State) (pubs : List PublicKey) (o : PrivateKey) : Prop :=
  (∀ ep, o.eccPrivKey = some ep → lookup e.privateKeyMap (E.Sum256 o.key).val = some ep) ∧
  (∀ pub, o.pubKeyECC = some pub →
    ∃ q, pubs[pub]? = some { ePub := some q, kPub := none } ∧
      EccMemo e (E.Sum256 o.key).val q) ∧
  (∀ pub, o.pubKeyKyb = some pub →
    ∃ k, pubs[pub]? = some { ePub := none, kPub := some k })

/-- What the invariant says of one public key object: exactly one sub-key is set, and it
points to an allocated object. -/
def PubOk (e : ecc.State) (kybs : List π) (po : PublicKey) : Prop :=
  (∃ q, po = { ePub := some q, kPub := none } ∧ ∃ eo, e.publicKeys[q]? = some eo) ∨
  (∃ k, po = { ePub := none, kPub := some k } ∧ k < kybs.length)

/-- The invariant of the state. -/
structure Inv (E : Env κ π) (P : Prims) (s : State κ π) : Prop where
  ecc : ecc.Inv P s.ecc
  priv : ∀ (p : Ptr) (o : PrivateKey), s.privateKeys[p]? = some o →
    PrivOk E s.ecc s.publicKeys o
  pub : ∀ (pub : Ptr) (po : PublicKey), s.publicKeys[pub]? = some po →
    PubOk s.ecc s.kybPublicKeys po

/-- One private key object is a later stage of another: same seed, and every memoized
field that was set is still set to the same pointer. -/
def PrivLater (o o' : PrivateKey) : Prop :=
  o'.key = o.key ∧ (∀ x, o.eccPrivKey = some x → o'.eccPrivKey = some x) ∧
  (∀ x, o.pubKeyECC = some x → o'.pubKeyECC = some x) ∧
  (∀ x, o.pubKeyKyb = some x → o'.pubKeyKyb = some x)

/-- The state `t` is a later stage of `s`. -/
structure Ext (s t : State κ π) : Prop where
  ecc : ecc.Ext s.ecc t.ecc
  priv : ∀ (p : Ptr) (o : PrivateKey), s.privateKeys[p]? = some o →
    ∃ o', t.privateKeys[p]? = some o' ∧ PrivLater o o'
  pub : ∀ (pub : Ptr) (po : PublicKey), s.publicKeys[pub]? = some po →
    t.publicKeys[pub]? = some po
  kyb : ∀ (k : Ptr) (x : π), s.kybPublicKeys[k]? = some x → t.kybPublicKeys[k]? = some x

/-- What one call does to the properties of the state: the invariant is kept, the state is
only extended, and, given the 32-byte result of X25519, `ecc` public keys stay 32 bytes
long. -/
def Step (E : Env κ π) (P : Prims) (s t : State κ π) : Prop :=
  (Inv E P s → Inv E P t) ∧ Ext s t ∧
    (ecc.X25519Len P → ecc.PubLen s.ecc → ecc.PubLen t.ecc)

end asx

/-! ## Well-formedness of the process state -/

namespace xipher

variable {σ : Type}

/-- What the embedding assumes of the `kdfSpec` helpers, after §3, §6 and §8 of the spec:
the encoding has the fixed length, parsing inverts encoding, and a spec made by `newSpec`,
with or without the setters applied, never encodes as the all-zero region that stands for
"not password based". -/
structure KdfOps.Lawful (K : KdfOps σ) : Prop where
  bytes_length : ∀ spec, (K.bytes spec).length = K.kdfSpecLength
  parse_bytes : ∀ b spec, K.parseKdfSpec b = .ok spec → K.bytes spec = b
  parse_total : ∀ spec, ∃ spec', K.parseKdfSpec (K.bytes spec) = .ok spec'
  built_nonzero : ∀ rnd spec, K.newSpec rnd = .ok spec →
    K.bytes spec ≠ List.replicate K.kdfSpecLength 0 ∧
    ∀ i m t, K.bytes (K.setThreads (K.setMemory (K.setIterations spec i) m) t) ≠
      List.replicate K.kdfSpecLength 0

/-- Modelled from the spec: what the setters of `kdfSpec`, whose file is not among the
sources, do to the three cost parameters of a spec, read here by `iterations`, `memory` and
`threads`. "Zero values fall back to library defaults" (§4.4), "zero meaning use default"
(§6): a setter called with zero leaves its parameter as it is, with another value it
stores that value, and no setter touches the parameter of another. -/
structure KdfOps.Costs (K : KdfOps σ) (iterations memory threads : σ → Byte) : Prop where
  setIterations_iterations : ∀ sp v,
    iterations (K.setIterations sp v) = if v = 0 then iterations sp else v
  setIterations_memory : ∀ sp v, memory (K.setIterations sp v) = memory sp
  setIterations_threads : ∀ sp v, threads (K.setIterations sp v) = threads sp
  setMemory_iterations : ∀ sp v, iterations (K.setMemory sp v) = iterations sp
  setMemory_memory : ∀ sp v, memory (K.setMemory sp v) = if v = 0 then memory sp else v
  setMemory_threads : ∀ sp v, threads (K.setMemory sp v) = threads sp
  setThreads_iterations : ∀ sp v, iterations (K.setThreads sp v) = iterations sp
  setThreads_memory : ∀ sp v, memory (K.setThreads sp v) = memory sp
  setThreads_threads : ∀ sp v, threads (K.setThreads sp v) = if v = 0 then threads sp else v

/-- The key derivation returns a key of `cipherKeyLength` bytes. -/
def KdfOps.KeyLen (K : KdfOps σ) : Prop :=
  ∀ (spec : σ) (pwd : Bytes), (K.getCipherKey spec pwd).length = cipherKeyLength

/-- The invariant of the process state. -/
structure Inv (P : Prims) (s : State σ) : Prop where
  ecc : ecc.Inv P s.ecc
  key_map : ∀ (k : Bytes) (p : Ptr), lookup s.keyXipherMap k = some p →
    ∃ o, s.privateKeys[p]? = some o ∧ o.key = k ∧ o.password = none ∧ o.spec = none
  pwd_map : ∀ (w : Bytes) (p : Ptr), lookup s.pwdXipherMap w = some p →
    ∃ o, s.privateKeys[p]? = some o ∧ o.password = some w ∧ o.spec.isSome
  priv_obj : ∀ (p : Ptr) (o : PrivateKey σ), s.privateKeys[p]? = some o →
    (o.password.isSome ↔ o.spec.isSome) ∧
    ∀ q, o.publicKey = some q → ∃ po, s.publicKeys[q]? = some po ∧ po.spec = o.spec
  pub_obj : ∀ (q : Ptr) (po : PublicKey σ), s.publicKeys[q]? = some po →
    ∃ eo, s.ecc.publicKeys[po.publicKey]? = some eo

/-- No spec held by a key object encodes as the all-zero region. -/
structure SpecInv (K : KdfOps σ) (s : State σ) : Prop where
  priv : ∀ (p : Ptr) (o : PrivateKey σ) (sp : σ), s.privateKeys[p]? = some o →
    o.spec = some sp → K.bytes sp ≠ List.replicate K.kdfSpecLength 0
  pub : ∀ (q : Ptr) (po : PublicKey σ) (sp : σ), s.publicKeys[q]? = some po →
    po.spec = some sp → K.bytes sp ≠ List.replicate K.kdfSpecLength 0

/-- Every password key holds the KDF output of its password under its spec, and every key
without a password holds 32 bytes. -/
structure KeyInv (K : KdfOps σ) (privs : List (PrivateKey σ)) : Prop where
  derived : ∀ (p : Ptr) (o : PrivateKey σ) (w : Bytes) (sp : σ), privs[p]? = some o →
    o.password = some w → o.spec = some sp → o.key = K.getCipherKey sp w
  raw : ∀ (p : Ptr) (o : PrivateKey σ), privs[p]? = some o → o.password = none →
    o.key.length = 32

/-- The state `t` is a later stage of `s`: the `ecc` part is, every private key object
keeps its key, password, spec and memoized public key, and public key objects do not
change. -/
structure Ext (s t : State σ) : Prop where
  ecc : ecc.Ext s.ecc t.ecc
  priv : ∀ (p : Ptr) (o : PrivateKey σ), s.privateKeys[p]? = some o →
    ∃ o', t.privateKeys[p]? = some o' ∧ o'.key = o.key ∧ o'.password = o.password ∧
      o'.spec = o.spec ∧ ∀ q, o.publicKey = some q → o'.publicKey = some q
  pub : ∀ (q : Ptr) (po : PublicKey σ), s.publicKeys[q]? = some po →
    t.publicKeys[q]? = some po

end xipher

namespace xipher

/-- The KdfSpec region of an encoded public key: the spec bytes, or `kdfSpecLength` zero
bytes when there is no spec. -/
def specRegion {σ : Type} (K : KdfOps σ) (spec : Option σ) : Bytes :=
  match spec with
  | some sp => K.bytes sp
  | none => List.replicate K.kdfSpecLength 0

end xipher

namespace xipher

/-- What one call does to the properties of the state: the invariant is kept, the state is
only extended, given the assumptions on the helpers and on X25519 specs stay non-zero and
public keys stay 32 bytes long, and the keys held by private key objects stay as derived. -/
def Step {σ : Type} (K : KdfOps σ) (P : Prims) (s t : State σ) : Prop :=
  (Inv P s → Inv P t) ∧ Ext s t ∧ (K.Lawful → SpecInv K s → SpecInv K t) ∧
    (ecc.X25519Len P → ecc.PubLen s.ecc → ecc.PubLen t.ecc) ∧
    (KeyInv K s.privateKeys → KeyInv K t.privateKeys)

end xipher

/-! ## Lemmas: heaps and maps -/

theorem heap_get_alloc {α : Type} (h : List α) (a : α) (p : Nat) :
    (h ++ [a])[p]? = if p = h.length then some a else h[p]? := by
  by_cases hp : p = h.length
  · subst hp; simp
  · rw [if_neg hp]
    rcases Nat.lt_or_gt_of_ne hp with hlt | hgt
    · exact List.getElem?_append_left hlt
    · rw [List.getElem?_eq_none (by simp; omega), List.getElem?_eq_none (by omega)]

theorem heap_get_set {α : Type} (h : List α) (a : α) (i p : Nat) :
    (h.set i a)[p]? = if i = p ∧ p < h.length then some a else h[p]? := by
  rw [List.getElem?_set]
  by_cases hip : i = p
  · subst hip
    by_cases hl : i < h.length
    · simp [hl]
    · simp [hl]; omega
  · simp [hip]

theorem heap_get_lt {α : Type} {h : List α} {p : Nat} {a : α} (hp : h[p]? = some a) :
    p < h.length := by
  by_contra hge
  rw [List.getElem?_eq_none (by omega)] at hp
  cases hp

theorem randRead_length {rnd : RandSrc} {n : Nat} {k : Bytes} (h : randRead rnd n = .ok k) :
    k.length = n := by
  unfold randRead at h
  split at h
  · cases h
  · cases h
    simp

theorem lookup_store (m : GoMap) (k k' : Bytes) (v : Ptr) :
    lookup (store m k v) k' = if k = k' then some v else lookup m k' := by
  simp [store, lookup]

/-! ## Lemmas: the `ecc` invariant -/

namespace ecc

theorem inv_empty (P : Prims) : Inv P State.empty := by
  constructor <;> simp [State.empty, lookup]

theorem publen_empty : PubLen State.empty := by
  intro p o h; simp [State.empty] at h

theorem ext_refl (s : State) : Ext s s :=
  ⟨fun _ o h => ⟨o, h, rfl, fun _ hq => hq⟩, fun _ o h => ⟨o, h, rfl, fun _ he => he⟩⟩

theorem ext_trans {s t u : State} (h1 : Ext s t) (h2 : Ext t u) : Ext s u := by
  constructor
  · intro p o h
    obtain ⟨o1, ho1, hk1, hq1⟩ := h1.priv p o h
    obtain ⟨o2, ho2, hk2, hq2⟩ := h2.priv p o1 ho1
    exact ⟨o2, ho2, hk2.trans hk1, fun q hq => hq2 q (hq1 q hq)⟩
  · intro p o h
    obtain ⟨o1, ho1, hk1, hq1⟩ := h1.pub p o h
    obtain ⟨o2, ho2, hk2, hq2⟩ := h2.pub p o1 ho1
    exact ⟨o2, ho2, hk2.trans hk1, fun q hq => hq2 q (hq1 q hq)⟩

/-- A registry entry survives into every later well-formed state. -/
theorem ext_priv_map {P : Prims} {s t : State} (hs : Inv P s) (ht : Inv P t) (h : Ext s t)
    {b : Bytes} {p : Ptr} (hb : lookup s.privateKeyMap b = some p) :
    lookup t.privateKeyMap b = some p := by
  obtain ⟨o, ho, hk⟩ := hs.priv_map b p hb
  obtain ⟨o', ho', hk', _⟩ := h.priv p o ho
  have := (ht.priv_obj p o' ho').1
  rwa [hk', hk] at this

theorem ext_pub_map {P : Prims} {s t : State} (hs : Inv P s) (ht : Inv P t) (h : Ext s t)
    {b : Bytes} {p : Ptr} (hb : lookup s.publicKeyMap b = some p) :
    lookup t.publicKeyMap b = some p := by
  obtain ⟨o, ho, hk⟩ := hs.pub_map b p hb
  obtain ⟨o', ho', hk', _⟩ := h.pub p o ho
  have := ht.pub_obj p o' ho'
  rwa [hk', hk] at this

end ecc

/-! ## Theorems: compression envelope -/

/-- C1. For every byte sequence `d` on which zlib compression succeeds, `Compress d`
succeeds with an envelope `e`, and `Decompress e` succeeds and returns exactly `d`,
provided `zDecompress` inverts `zCompress`. -/
theorem compress_decompress_roundtrip (zCompress zDecompress : Bytes → Except Err Bytes)
    (hinv : ∀ d c, zCompress d = .ok c → zDecompress c = .ok d)
    (d c : Bytes) (hc : zCompress d = .ok c) :
    ∃ e, commons.Compress zCompress d = .ok e ∧ commons.Decompress zDecompress e = .ok d := by
  unfold commons.Compress
  rw [hc]
  by_cases hle : d.length ≤ c.length
  · exact ⟨0 :: d, by simp [hle], by simp [commons.Decompress]⟩
  · exact ⟨1 :: c, by simp [hle], by simp [commons.Decompress, hinv d c hc]⟩

/-- Witness of C1: the identity codec on the two-byte input `[7, 7]`. -/
theorem compress_decompress_roundtrip_witness :
    ∃ e, commons.Compress (fun d => .ok d) [7, 7] = .ok e ∧
      commons.Decompress (fun c => .ok c) e = .ok [7, 7] :=
  compress_decompress_roundtrip (fun d => .ok d) (fun c => .ok c)
    (fun _ _ h => by cases h; rfl) [7, 7] [7, 7] rfl

/-- C2. With `c = zCompress d`: `Compress d` is the flag byte `1` followed by `c` exactly
when `len c < len d`, otherwise the flag byte `0` followed by `d` itself; in both cases the
envelope is at most one byte longer than `d`. -/
theorem compress_flag_and_length (zCompress : Bytes → Except Err Bytes)
    (d c : Bytes) (hc : zCompress d = .ok c) :
    (c.length < d.length → commons.Compress zCompress d = .ok (1 :: c)) ∧
    (¬ c.length < d.length → commons.Compress zCompress d = .ok (0 :: d)) ∧
    (∀ e, commons.Compress zCompress d = .ok e → e.length ≤ d.length + 1) := by
  unfold commons.Compress
  rw [hc]
  by_cases hle : d.length ≤ c.length
  · refine ⟨fun h => absurd hle (Nat.not_le.mpr h), fun _ => by simp [hle], ?_⟩
    intro e he
    simp [hle] at he
    subst he
    simp
  · refine ⟨fun _ => by simp [hle], fun h => absurd (Nat.not_lt.mp h) hle, ?_⟩
    intro e he
    simp [hle] at he
    subst he
    simp only [List.length_cons]
    omega

/-- Witness of C2: a codec that shrinks every input to the empty sequence, on `[5, 5]`. -/
theorem compress_flag_and_length_witness :
    ((([] : Bytes).length < ([5, 5] : Bytes).length →
        commons.Compress (fun _ => .ok []) [5, 5] = .ok (1 :: [])) ∧
      (¬ ([] : Bytes).length < ([5, 5] : Bytes).length →
        commons.Compress (fun _ => .ok []) [5, 5] = .ok (0 :: [5, 5])) ∧
      (∀ e, commons.Compress (fun _ => .ok []) [5, 5] = .ok e →
        e.length ≤ ([5, 5] : Bytes).length + 1)) :=
  compress_flag_and_length (fun _ => .ok []) [5, 5] [] rfl

/-! ## Lemmas: each `ecc` call keeps the invariant and only extends the state -/

namespace ecc

theorem GetPrivateKey_inv {P : Prims} {s : State} (key : Bytes) (h : Inv P s) :
    Inv P (GetPrivateKey key s).2 := by
  unfold GetPrivateKey
  split
  · exact h
  · rename_i hlen
    have hlen' : key.length = ScalarSize := by simpa using hlen
    split
    · exact h
    · rename_i hnone
      constructor
      · intro b p hb
        simp only [lookup_store] at hb
        simp only [heap_get_alloc]
        split at hb
        · cases hb
          subst_vars
          exact ⟨{ key := b, publicKey := none }, by simp, rfl⟩
        · obtain ⟨o, ho, hk⟩ := h.priv_map b p hb
          exact ⟨o, by rw [if_neg (Nat.ne_of_lt (heap_get_lt ho))]; exact ho, hk⟩
      · exact h.pub_map
      · intro p o ho
        simp only [heap_get_alloc] at ho
        simp only [lookup_store]
        split at ho
        · cases ho
          subst_vars
          simp [hlen']
        · obtain ⟨hm, hl⟩ := h.priv_obj p o ho
          refine ⟨?_, hl⟩
          split
          · subst_vars
            rw [hnone] at hm
            cases hm
          · exact hm
      · exact h.pub_obj
      · intro p o q ho hq
        simp only [heap_get_alloc] at ho
        split at ho
        · cases ho
          cases hq
        · exact h.priv_pub p o q ho hq

theorem GetPrivateKey_ext (key : Bytes) (s : State) : Ext s (GetPrivateKey key s).2 := by
  unfold GetPrivateKey
  split
  · exact ext_refl s
  · split
    · exact ext_refl s
    · constructor
      · intro p o ho
        refine ⟨o, ?_, rfl, fun _ hq => hq⟩
        simp only [heap_get_alloc]
        rw [if_neg (Nat.ne_of_lt (heap_get_lt ho))]
        exact ho
      · intro p o ho
        exact ⟨o, ho, rfl, fun _ he => he⟩

theorem GetPrivateKey_publen (key : Bytes) {s : State} (h : PubLen s) :
    PubLen (GetPrivateKey key s).2 := by
  unfold GetPrivateKey
  split
  · exact h
  · split
    · exact h
    · exact h

end ecc

namespace ecc

theorem GetPublicKey_inv {P : Prims} {s : State} (key : Bytes) (h : Inv P s) :
    Inv P (GetPublicKey key s).2 := by
  unfold GetPublicKey
  split
  · exact h
  · split
    · exact h
    · rename_i hnone
      constructor
      · exact h.priv_map
      · intro b p hb
        simp only [lookup_store] at hb
        simp only [heap_get_alloc]
        split at hb
        · cases hb
          subst_vars
          exact ⟨{ key := b, encrypter := none }, by simp, rfl⟩
        · obtain ⟨o, ho, hk⟩ := h.pub_map b p hb
          exact ⟨o, by rw [if_neg (Nat.ne_of_lt (heap_get_lt ho))]; exact ho, hk⟩
      · exact h.priv_obj
      · intro p o ho
        simp only [heap_get_alloc] at ho
        simp only [lookup_store]
        split at ho
        · cases ho
          subst_vars
          simp
        · have hm := h.pub_obj p o ho
          split
          · subst_vars
            rw [hnone] at hm
            cases hm
          · exact hm
      · intro p o q ho hq
        obtain ⟨po, hpo, hx⟩ := h.priv_pub p o q ho hq
        refine ⟨po, ?_, hx⟩
        simp only [heap_get_alloc]
        rw [if_neg (Nat.ne_of_lt (heap_get_lt hpo))]
        exact hpo

theorem GetPublicKey_ext (key : Bytes) (s : State) : Ext s (GetPublicKey key s).2 := by
  unfold GetPublicKey
  split
  · exact ext_refl s
  · split
    · exact ext_refl s
    · constructor
      · intro p o ho
        exact ⟨o, ho, rfl, fun _ hq => hq⟩
      · intro p o ho
        refine ⟨o, ?_, rfl, fun _ he => he⟩
        simp only [heap_get_alloc]
        rw [if_neg (Nat.ne_of_lt (heap_get_lt ho))]
        exact ho

theorem GetPublicKey_publen (key : Bytes) {s : State} (h : PubLen s) :
    PubLen (GetPublicKey key s).2 := by
  unfold GetPublicKey
  split
  · exact h
  · rename_i hlen
    have hlen' : key.length = ScalarSize := by simpa using hlen
    split
    · exact h
    · intro p o ho
      simp only [heap_get_alloc] at ho
      split at ho
      · cases ho
        exact hlen'
      · exact h p o ho

theorem NewPrivateKey_inv {P : Prims} {s : State} (rnd : RandSrc) (h : Inv P s) :
    Inv P (NewPrivateKey rnd s).2 := by
  unfold NewPrivateKey
  split
  · exact h
  · exact GetPrivateKey_inv _ h

theorem NewPrivateKey_ext (rnd : RandSrc) (s : State) : Ext s (NewPrivateKey rnd s).2 := by
  unfold NewPrivateKey
  split
  · exact ext_refl s
  · exact GetPrivateKey_ext _ s

theorem NewPrivateKey_publen (rnd : RandSrc) {s : State} (h : PubLen s) :
    PubLen (NewPrivateKey rnd s).2 := by
  unfold NewPrivateKey
  split
  · exact h
  · exact GetPrivateKey_publen _ h

theorem getEncrypter_state (P : Prims) (rnd : RandSrc) (publicKey : Ptr) (s : State) :
    (PublicKey.getEncrypter P rnd publicKey s).2 = s ∨
    ∃ obj enc, s.publicKeys[publicKey]? = some obj ∧ obj.encrypter = none ∧
      (PublicKey.getEncrypter P rnd publicKey s).2 =
        { s with publicKeys := s.publicKeys.set publicKey { obj with encrypter := some enc } } := by
  unfold PublicKey.getEncrypter
  repeat' split
  all_goals first
    | exact Or.inl rfl
    | exact Or.inr ⟨_, _, by assumption, by assumption, rfl⟩

theorem getEncrypter_inv {P : Prims} {s : State} (rnd : RandSrc) (publicKey : Ptr)
    (h : Inv P s) : Inv P (PublicKey.getEncrypter P rnd publicKey s).2 := by
  rcases getEncrypter_state P rnd publicKey s with heq | ⟨obj, enc, hobj, hnone, heq⟩
  · rw [heq]; exact h
  rw [heq]
  constructor
  · exact h.priv_map
  · intro b p hb
    obtain ⟨o, ho, hk⟩ := h.pub_map b p hb
    simp only [heap_get_set]
    by_cases hp : publicKey = p ∧ p < s.publicKeys.length
    · rw [if_pos hp]
      obtain ⟨rfl, _⟩ := hp
      rw [hobj] at ho
      cases ho
      exact ⟨_, rfl, hk⟩
    · rw [if_neg hp]
      exact ⟨o, ho, hk⟩
  · exact h.priv_obj
  · intro p o ho
    simp only [heap_get_set] at ho
    split at ho
    · rename_i hp
      obtain ⟨rfl, _⟩ := hp
      cases ho
      exact h.pub_obj _ obj hobj
    · exact h.pub_obj p o ho
  · intro p o q ho hq
    obtain ⟨po, hpo, hx⟩ := h.priv_pub p o q ho hq
    simp only [heap_get_set]
    by_cases hp : publicKey = q ∧ q < s.publicKeys.length
    · rw [if_pos hp]
      obtain ⟨rfl, _⟩ := hp
      rw [hobj] at hpo
      cases hpo
      exact ⟨_, rfl, hx⟩
    · rw [if_neg hp]
      exact ⟨po, hpo, hx⟩

theorem getEncrypter_ext (P : Prims) (rnd : RandSrc) (publicKey : Ptr) (s : State) :
    Ext s (PublicKey.getEncrypter P rnd publicKey s).2 := by
  rcases getEncrypter_state P rnd publicKey s with heq | ⟨obj, enc, hobj, hnone, heq⟩
  · rw [heq]; exact ext_refl s
  rw [heq]
  constructor
  · intro p o ho
    exact ⟨o, ho, rfl, fun _ hq => hq⟩
  · intro p o ho
    simp only [heap_get_set]
    by_cases hp : publicKey = p ∧ p < s.publicKeys.length
    · rw [if_pos hp]
      obtain ⟨rfl, _⟩ := hp
      rw [hobj] at ho
      cases ho
      refine ⟨_, rfl, rfl, ?_⟩
      intro e he
      rw [hnone] at he
      cases he
    · rw [if_neg hp]
      exact ⟨o, ho, rfl, fun _ he => he⟩

theorem getEncrypter_publen (P : Prims) (rnd : RandSrc) (publicKey : Ptr) {s : State}
    (h : PubLen s) : PubLen (PublicKey.getEncrypter P rnd publicKey s).2 := by
  rcases getEncrypter_state P rnd publicKey s with heq | ⟨obj, enc, hobj, hnone, heq⟩
  · rw [heq]; exact h
  rw [heq]
  intro p o ho
  simp only [heap_get_set] at ho
  split at ho
  · rename_i hp
    obtain ⟨rfl, _⟩ := hp
    cases ho
    exact h _ obj hobj
  · exact h p o ho

end ecc

namespace ecc

/-- The three ways `(*PrivateKey).PublicKey` can end: nothing changes (and a returned
pointer is the memoized one), the registered public key is memoized, or a fresh public key
is allocated, registered and memoized. -/
theorem PublicKey_cases (P : Prims) (privateKey : Ptr) (s : State) :
    ((PrivateKey.PublicKey P privateKey s).2 = s ∧
      ∀ q, (PrivateKey.PublicKey P privateKey s).1 = .ok q →
        ∃ obj, s.privateKeys[privateKey]? = some obj ∧ obj.publicKey = some q) ∨
    (∃ obj key pubKey, s.privateKeys[privateKey]? = some obj ∧ obj.publicKey = none ∧
      P.X25519 obj.key P.Basepoint = .ok key ∧ lookup s.publicKeyMap key = some pubKey ∧
      PrivateKey.PublicKey P privateKey s =
        (.ok pubKey,
          { s with
            privateKeys :=
              s.privateKeys.set privateKey { obj with publicKey := some pubKey } })) ∨
    (∃ obj key, s.privateKeys[privateKey]? = some obj ∧ obj.publicKey = none ∧
      P.X25519 obj.key P.Basepoint = .ok key ∧ lookup s.publicKeyMap key = none ∧
      PrivateKey.PublicKey P privateKey s =
        (.ok s.publicKeys.length,
          { s with
            publicKeys := s.publicKeys ++ [{ key := key, encrypter := none }]
            publicKeyMap := store s.publicKeyMap key s.publicKeys.length
            privateKeys :=
              s.privateKeys.set privateKey
                { obj with publicKey := some s.publicKeys.length } })) := by
  unfold PrivateKey.PublicKey
  split
  · exact Or.inl ⟨rfl, fun q hq => by cases hq⟩
  · rename_i obj hobj
    split
    · rename_i pubKey hmemo
      refine Or.inl ⟨rfl, fun q hq => ?_⟩
      cases hq
      exact ⟨obj, hobj, hmemo⟩
    · rename_i hnone
      split
      · exact Or.inl ⟨rfl, fun q hq => by cases hq⟩
      · rename_i key hx
        split
        · rename_i pubKey hl
          exact Or.inr (Or.inl ⟨obj, key, pubKey, hobj, hnone, hx, hl, rfl⟩)
        · rename_i hl
          exact Or.inr (Or.inr ⟨obj, key, hobj, hnone, hx, hl, rfl⟩)

theorem PublicKey_inv {P : Prims} {s : State} (privateKey : Ptr) (h : Inv P s) :
    Inv P (PrivateKey.PublicKey P privateKey s).2 := by
  rcases PublicKey_cases P privateKey s with ⟨heq, _⟩ | ⟨obj, key, pubKey, hobj, hnone, hx, hl, heq⟩ |
    ⟨obj, key, hobj, hnone, hx, hl, heq⟩
  · rw [heq]; exact h
  · rw [heq]
    obtain ⟨po, hpo, hpk⟩ := h.pub_map key pubKey hl
    constructor
    · intro b p hb
      obtain ⟨o, ho, hk⟩ := h.priv_map b p hb
      simp only [heap_get_set]
      by_cases hp : privateKey = p ∧ p < s.privateKeys.length
      · rw [if_pos hp]
        obtain ⟨rfl, _⟩ := hp
        rw [hobj] at ho
        cases ho
        exact ⟨_, rfl, hk⟩
      · rw [if_neg hp]
        exact ⟨o, ho, hk⟩
    · exact h.pub_map
    · intro p o ho
      simp only [heap_get_set] at ho
      split at ho
      · rename_i hp
        obtain ⟨rfl, _⟩ := hp
        cases ho
        exact h.priv_obj _ obj hobj
      · exact h.priv_obj p o ho
    · exact h.pub_obj
    · intro p o q ho hq
      simp only [heap_get_set] at ho
      split at ho
      · cases ho
        cases hq
        exact ⟨po, hpo, by rw [hpk]; exact hx⟩
      · exact h.priv_pub p o q ho hq
  · rw [heq]
    constructor
    · intro b p hb
      obtain ⟨o, ho, hk⟩ := h.priv_map b p hb
      simp only [heap_get_set]
      by_cases hp : privateKey = p ∧ p < s.privateKeys.length
      · rw [if_pos hp]
        obtain ⟨rfl, _⟩ := hp
        rw [hobj] at ho
        cases ho
        exact ⟨_, rfl, hk⟩
      · rw [if_neg hp]
        exact ⟨o, ho, hk⟩
    · intro b p hb
      simp only [lookup_store] at hb
      simp only [heap_get_alloc]
      split at hb
      · rename_i hkb
        cases hb
        exact ⟨{ key := key, encrypter := none }, by simp, hkb⟩
      · obtain ⟨o, ho, hk⟩ := h.pub_map b p hb
        exact ⟨o, by rw [if_neg (Nat.ne_of_lt (heap_get_lt ho))]; exact ho, hk⟩
    · intro p o ho
      simp only [heap_get_set] at ho
      split at ho
      · rename_i hp
        obtain ⟨rfl, _⟩ := hp
        cases ho
        exact h.priv_obj _ obj hobj
      · exact h.priv_obj p o ho
    · intro p o ho
      simp only [heap_get_alloc] at ho
      simp only [lookup_store]
      split at ho
      · cases ho
        subst_vars
        simp
      · have hm := h.pub_obj p o ho
        split
        · subst_vars
          rw [hl] at hm
          cases hm
        · exact hm
    · intro p o q ho hq
      simp only [heap_get_set] at ho
      simp only [heap_get_alloc]
      split at ho
      · cases ho
        cases hq
        exact ⟨{ key := key, encrypter := none }, by simp, hx⟩
      · obtain ⟨po, hpo, hxo⟩ := h.priv_pub p o q ho hq
        exact ⟨po, by rw [if_neg (Nat.ne_of_lt (heap_get_lt hpo))]; exact hpo, hxo⟩

theorem PublicKey_ext (P : Prims) (privateKey : Ptr) (s : State) :
    Ext s (PrivateKey.PublicKey P privateKey s).2 := by
  have hpriv : ∀ (obj : PrivateKey) (q : Ptr), s.privateKeys[privateKey]? = some obj →
      obj.publicKey = none → ∀ (p : Ptr) (o : PrivateKey), s.privateKeys[p]? = some o →
      ∃ o', (s.privateKeys.set privateKey { obj with publicKey := some q })[p]? = some o' ∧
        o'.key = o.key ∧ ∀ q', o.publicKey = some q' → o'.publicKey = some q' := by
    intro obj q hobj hnone p o ho
    simp only [heap_get_set]
    by_cases hp : privateKey = p ∧ p < s.privateKeys.length
    · rw [if_pos hp]
      obtain ⟨rfl, _⟩ := hp
      rw [hobj] at ho
      cases ho
      refine ⟨_, rfl, rfl, ?_⟩
      intro q' hq'
      rw [hnone] at hq'
      cases hq'
    · rw [if_neg hp]
      exact ⟨o, ho, rfl, fun _ hq => hq⟩
  rcases PublicKey_cases P privateKey s with ⟨heq, _⟩ | ⟨obj, key, pubKey, hobj, hnone, hx, hl, heq⟩ |
    ⟨obj, key, hobj, hnone, hx, hl, heq⟩
  · rw [heq]; exact ext_refl s
  · rw [heq]
    exact ⟨hpriv obj pubKey hobj hnone, fun p o ho => ⟨o, ho, rfl, fun _ he => he⟩⟩
  · rw [heq]
    refine ⟨hpriv obj _ hobj hnone, fun p o ho => ⟨o, ?_, rfl, fun _ he => he⟩⟩
    simp only [heap_get_alloc]
    rw [if_neg (Nat.ne_of_lt (heap_get_lt ho))]
    exact ho

theorem PublicKey_publen {P : Prims} (hX : X25519Len P) (privateKey : Ptr) {s : State}
    (h : PubLen s) : PubLen (PrivateKey.PublicKey P privateKey s).2 := by
  rcases PublicKey_cases P privateKey s with ⟨heq, _⟩ | ⟨obj, key, pubKey, hobj, hnone, hx, hl, heq⟩ |
    ⟨obj, key, hobj, hnone, hx, hl, heq⟩
  · rw [heq]; exact h
  · rw [heq]; exact h
  · rw [heq]
    intro p o ho
    simp only [heap_get_alloc] at ho
    split at ho
    · cases ho
      exact hX _ _ _ hx
    · exact h p o ho

end ecc

namespace ecc

theorem exec_inv {P : Prims} {s : State} (c : Call) (h : Inv P s) : Inv P (c.exec P s) := by
  cases c with
  | NewPrivateKey rnd => exact NewPrivateKey_inv rnd h
  | GetPrivateKey key => exact GetPrivateKey_inv key h
  | PublicKey privateKey => exact PublicKey_inv privateKey h
  | GetPublicKey key => exact GetPublicKey_inv key h
  | getEncrypter rnd publicKey => exact getEncrypter_inv rnd publicKey h

theorem exec_ext (P : Prims) (c : Call) (s : State) : Ext s (c.exec P s) := by
  cases c with
  | NewPrivateKey rnd => exact NewPrivateKey_ext rnd s
  | GetPrivateKey key => exact GetPrivateKey_ext key s
  | PublicKey privateKey => exact PublicKey_ext P privateKey s
  | GetPublicKey key => exact GetPublicKey_ext key s
  | getEncrypter rnd publicKey => exact getEncrypter_ext P rnd publicKey s

theorem exec_publen {P : Prims} (hX : X25519Len P) (c : Call) {s : State} (h : PubLen s) :
    PubLen (c.exec P s) := by
  cases c with
  | NewPrivateKey rnd => exact NewPrivateKey_publen rnd h
  | GetPrivateKey key => exact GetPrivateKey_publen key h
  | PublicKey privateKey => exact PublicKey_publen hX privateKey h
  | GetPublicKey key => exact GetPublicKey_publen key h
  | getEncrypter rnd publicKey => exact getEncrypter_publen P rnd publicKey h

theorem run_inv {P : Prims} (calls : List Call) {s : State} (h : Inv P s) :
    Inv P (run P calls s) := by
  induction calls generalizing s with
  | nil => exact h
  | cons c cs ih => exact ih (exec_inv c h)

theorem run_ext (P : Prims) (calls : List Call) (s : State) : Ext s (run P calls s) := by
  induction calls generalizing s with
  | nil => exact ext_refl s
  | cons c cs ih => exact ext_trans (exec_ext P c s) (ih (c.exec P s))

theorem run_publen {P : Prims} (hX : X25519Len P) (calls : List Call) {s : State}
    (h : PubLen s) : PubLen (run P calls s) := by
  induction calls generalizing s with
  | nil => exact h
  | cons c cs ih => exact ih (exec_publen hX c h)

/-- On 32 bytes `GetPrivateKey` succeeds, and afterwards the registry maps the bytes to the
returned object. -/
theorem GetPrivateKey_ok (key : Bytes) (s : State) (hlen : key.length = 32) :
    ∃ p, (GetPrivateKey key s).1 = .ok p ∧
      lookup (GetPrivateKey key s).2.privateKeyMap key = some p := by
  unfold GetPrivateKey
  rw [if_neg (by simpa [ScalarSize] using hlen)]
  split
  · rename_i p hp
    exact ⟨p, rfl, hp⟩
  · exact ⟨s.privateKeys.length, rfl, by simp [lookup_store]⟩

/-- On 32 bytes `GetPublicKey` succeeds, and afterwards the registry maps the bytes to the
returned object. -/
theorem GetPublicKey_ok (key : Bytes) (s : State) (hlen : key.length = 32) :
    ∃ p, (GetPublicKey key s).1 = .ok p ∧
      lookup (GetPublicKey key s).2.publicKeyMap key = some p := by
  unfold GetPublicKey
  rw [if_neg (by simpa [ScalarSize] using hlen)]
  split
  · rename_i p hp
    exact ⟨p, rfl, hp⟩
  · exact ⟨s.publicKeys.length, rfl, by simp [lookup_store]⟩

/-- A successful `GetPublicKey` leaves the bytes registered under the returned object. -/
theorem GetPublicKey_registered (key : Bytes) (s : State) (p : Ptr)
    (h : (GetPublicKey key s).1 = .ok p) :
    lookup (GetPublicKey key s).2.publicKeyMap key = some p := by
  unfold GetPublicKey at h ⊢
  split
  · rename_i hlen
    rw [if_pos hlen] at h
    cases h
  · rename_i hlen
    rw [if_neg hlen] at h
    split
    · rename_i q hq
      rw [hq] at h
      cases h
      exact hq
    · rename_i hq
      rw [hq] at h
      cases h
      simp [lookup_store]

/-- A registered key is returned as it is, and the state does not change. -/
theorem GetPublicKey_of_lookup (key : Bytes) (s : State) (p : Ptr)
    (hlen : key.length = ScalarSize) (h : lookup s.publicKeyMap key = some p) :
    GetPublicKey key s = (.ok p, s) := by
  unfold GetPublicKey
  rw [if_neg (by simpa using hlen), h]

/-- The object returned by a successful `(*PrivateKey).PublicKey` is allocated. -/
theorem PublicKey_ok_obj {P : Prims} {s t : State} (h : Inv P s) (q p : Ptr)
    (hr : PrivateKey.PublicKey P q s = (.ok p, t)) : ∃ o, t.publicKeys[p]? = some o := by
  rcases PublicKey_cases P q s with ⟨heq, hmemo⟩ | ⟨obj, key, pubKey, hobj, hnone, hx, hl, heq⟩ |
    ⟨obj, key, hobj, hnone, hx, hl, heq⟩
  · rw [hr] at heq hmemo
    obtain ⟨obj, hobj, hq⟩ := hmemo p rfl
    obtain ⟨po, hpo, _⟩ := h.priv_pub q obj p hobj hq
    cases heq
    exact ⟨po, hpo⟩
  · rw [hr] at heq
    cases heq
    obtain ⟨po, hpo, _⟩ := h.pub_map key p hl
    exact ⟨po, hpo⟩
  · rw [hr] at heq
    cases heq
    exact ⟨{ key := key, encrypter := none }, by simp⟩

end ecc

/-! ## Theorems: interning and byte round trips of package `ecc` -/

theorem toyPrims_X25519Len : ecc.X25519Len toyPrims := by
  intro k p r h
  simp only [toyPrims] at h
  split at h
  · rename_i hl
    cases h
    simp [hl.1, hl.2]
  · cases h

/-- C3. In every state reached by calls into the package, and for all 32-byte sequences
`b1`, `b2`: `GetPrivateKey b1` and a later `GetPrivateKey b2` (any calls in between) both
succeed, and they return the same object exactly when `b1 = b2`; likewise `GetPublicKey`. -/
theorem ecc_interning (P : Prims) (pre mid : List ecc.Call) (b1 b2 : Bytes)
    (h1 : b1.length = 32) (h2 : b2.length = 32) :
    (∃ p1 p2,
      (ecc.GetPrivateKey b1 (ecc.run P pre ecc.State.empty)).1 = .ok p1 ∧
      (ecc.GetPrivateKey b2
        (ecc.run P mid (ecc.GetPrivateKey b1 (ecc.run P pre ecc.State.empty)).2)).1 = .ok p2 ∧
      (p1 = p2 ↔ b1 = b2)) ∧
    (∃ p1 p2,
      (ecc.GetPublicKey b1 (ecc.run P pre ecc.State.empty)).1 = .ok p1 ∧
      (ecc.GetPublicKey b2
        (ecc.run P mid (ecc.GetPublicKey b1 (ecc.run P pre ecc.State.empty)).2)).1 = .ok p2 ∧
      (p1 = p2 ↔ b1 = b2)) := by
  have hs : ecc.Inv P (ecc.run P pre ecc.State.empty) := ecc.run_inv pre (ecc.inv_empty P)
  constructor
  · obtain ⟨p1, hr1, hm1⟩ := ecc.GetPrivateKey_ok b1 (ecc.run P pre ecc.State.empty) h1
    have hs1 := ecc.GetPrivateKey_inv b1 hs
    have hs2 : ecc.Inv P (ecc.run P mid (ecc.GetPrivateKey b1 (ecc.run P pre ecc.State.empty)).2) :=
      ecc.run_inv mid hs1
    obtain ⟨p2, hr2, hm2⟩ := ecc.GetPrivateKey_ok b2
      (ecc.run P mid (ecc.GetPrivateKey b1 (ecc.run P pre ecc.State.empty)).2) h2
    have hs3 := ecc.GetPrivateKey_inv b2 hs2
    have hm1' := ecc.ext_priv_map hs1 hs3
      (ecc.ext_trans (ecc.run_ext P mid _) (ecc.GetPrivateKey_ext b2 _)) hm1
    refine ⟨p1, p2, hr1, hr2, ?_, ?_⟩
    · intro hp
      subst hp
      obtain ⟨o, ho, hk⟩ := hs3.priv_map b1 p1 hm1'
      obtain ⟨o', ho', hk'⟩ := hs3.priv_map b2 p1 hm2
      rw [ho] at ho'
      cases ho'
      exact hk.symm.trans hk'
    · intro hb
      subst hb
      rw [hm1'] at hm2
      exact Option.some.inj hm2
  · obtain ⟨p1, hr1, hm1⟩ := ecc.GetPublicKey_ok b1 (ecc.run P pre ecc.State.empty) h1
    have hs1 := ecc.GetPublicKey_inv b1 hs
    have hs2 : ecc.Inv P (ecc.run P mid (ecc.GetPublicKey b1 (ecc.run P pre ecc.State.empty)).2) :=
      ecc.run_inv mid hs1
    obtain ⟨p2, hr2, hm2⟩ := ecc.GetPublicKey_ok b2
      (ecc.run P mid (ecc.GetPublicKey b1 (ecc.run P pre ecc.State.empty)).2) h2
    have hs3 := ecc.GetPublicKey_inv b2 hs2
    have hm1' := ecc.ext_pub_map hs1 hs3
      (ecc.ext_trans (ecc.run_ext P mid _) (ecc.GetPublicKey_ext b2 _)) hm1
    refine ⟨p1, p2, hr1, hr2, ?_, ?_⟩
    · intro hp
      subst hp
      obtain ⟨o, ho, hk⟩ := hs3.pub_map b1 p1 hm1'
      obtain ⟨o', ho', hk'⟩ := hs3.pub_map b2 p1 hm2
      rw [ho] at ho'
      cases ho'
      exact hk.symm.trans hk'
    · intro hb
      subst hb
      rw [hm1'] at hm2
      exact Option.some.inj hm2

/-- Witness of C3: after one key was interned, `GetPrivateKey` of two different 32-byte
sequences, with a public-key derivation in between. -/
theorem ecc_interning_witness :
    (∃ p1 p2,
      (ecc.GetPrivateKey (key32 1)
        (ecc.run toyPrims [.GetPrivateKey (key32 1)] ecc.State.empty)).1 = .ok p1 ∧
      (ecc.GetPrivateKey (key32 2)
        (ecc.run toyPrims [.PublicKey 0] (ecc.GetPrivateKey (key32 1)
          (ecc.run toyPrims [.GetPrivateKey (key32 1)] ecc.State.empty)).2)).1 = .ok p2 ∧
      (p1 = p2 ↔ key32 1 = key32 2)) ∧
    (∃ p1 p2,
      (ecc.GetPublicKey (key32 1)
        (ecc.run toyPrims [.GetPrivateKey (key32 1)] ecc.State.empty)).1 = .ok p1 ∧
      (ecc.GetPublicKey (key32 2)
        (ecc.run toyPrims [.PublicKey 0] (ecc.GetPublicKey (key32 1)
          (ecc.run toyPrims [.GetPrivateKey (key32 1)] ecc.State.empty)).2)).1 = .ok p2 ∧
      (p1 = p2 ↔ key32 1 = key32 2)) :=
  ecc_interning toyPrims [.GetPrivateKey (key32 1)] [.PublicKey 0] (key32 1) (key32 2)
    (by simp [key32]) (by simp [key32])

/-- C5, at the input where the code departs from it. A key object keeps the slice it was
made from, and the registry a copy of its bytes. A caller hands a slice of 32 bytes `1` to
`GetPrivateKey` and then writes 255 to its first byte. For a new slice `k` of 32 bytes `1`,
`GetPrivateKey(k)` returns the object registered under these bytes, and `Bytes()` of it is
the slice of the first caller, which holds 255, 1, ..., 1: not the bytes of `k`. Likewise
for the public key object `p` made by `GetPublicKey` from a slice of 32 bytes `2` that its
caller then rewrote: `p.Bytes()` holds 255, 2, ..., 2, bytes under which nothing is
registered, and `GetPublicKey(p.Bytes())` makes a second object instead of returning
`p`. -/
theorem ecc_bytes_shared_slice :
    (ecc.mem.read 1 ecc.mem.rewrittenPrivate = some (List.replicate 32 1) ∧
      (ecc.mem.GetPrivateKey 1 ecc.mem.rewrittenPrivate).1 = .ok 0 ∧
      ecc.mem.PrivateKey.Bytes 0 (ecc.mem.GetPrivateKey 1 ecc.mem.rewrittenPrivate).2 =
        .ok 0 ∧
      ecc.mem.read 0 (ecc.mem.GetPrivateKey 1 ecc.mem.rewrittenPrivate).2 =
        some (255 :: List.replicate 31 1) ∧
      ecc.mem.read 0 (ecc.mem.GetPrivateKey 1 ecc.mem.rewrittenPrivate).2 ≠
        ecc.mem.read 1 ecc.mem.rewrittenPrivate) ∧
    (ecc.mem.PublicKey.Bytes 0 ecc.mem.rewrittenPublic = .ok 0 ∧
      ecc.mem.read 0 ecc.mem.rewrittenPublic = some (255 :: List.replicate 31 2) ∧
      (ecc.mem.GetPublicKey 0 ecc.mem.rewrittenPublic).1 = .ok 1 ∧
      (ecc.mem.GetPublicKey 0 ecc.mem.rewrittenPublic).1 ≠ .ok 0) := by
  refine ⟨⟨rfl, rfl, rfl, rfl, ?_⟩, rfl, rfl, rfl, ?_⟩
  · have h0 : ecc.mem.read 0 (ecc.mem.GetPrivateKey 1 ecc.mem.rewrittenPrivate).2 =
        some (255 :: List.replicate 31 1) := rfl
    have h1 : ecc.mem.read 1 ecc.mem.rewrittenPrivate = some (List.replicate 32 1) := rfl
    rw [h0, h1]
    decide
  · have h : (ecc.mem.GetPublicKey 0 ecc.mem.rewrittenPublic).1 = .ok 1 := rfl
    rw [h]
    intro h'
    cases h'

/-! ## Theorems: length validation -/

/-- C4. Each fixed-length key parser returns an error if and only if the input length
differs from its required length, and the error is then its invalid-key-length error:
`ecc.GetPrivateKey` and `ecc.GetPublicKey` with 32 (`errInvalidKeyLength`),
`asx.ParsePrivateKey` with 64 (`errInvalidPrivateKeyLength`), `xipher.ParsePrivateKey`
with 32 (the formatted "invalid private key length" error). -/
theorem parsers_length_validation {σ : Type} (key : Bytes) (es : ecc.State)
    (xs : xipher.State σ) :
    (((∃ e, (ecc.GetPrivateKey key es).1 = .error e) ↔ key.length ≠ 32) ∧
      (key.length ≠ 32 → ecc.GetPrivateKey key es = (.error .errInvalidKeyLength, es))) ∧
    (((∃ e, (ecc.GetPublicKey key es).1 = .error e) ↔ key.length ≠ 32) ∧
      (key.length ≠ 32 → ecc.GetPublicKey key es = (.error .errInvalidKeyLength, es))) ∧
    (((∃ e, asx.ParsePrivateKey key = .error e) ↔ key.length ≠ 64) ∧
      (key.length ≠ 64 → asx.ParsePrivateKey key = .error .errInvalidPrivateKeyLength)) ∧
    (((∃ e, (xipher.ParsePrivateKey key xs).1 = .error e) ↔ key.length ≠ 32) ∧
      (key.length ≠ 32 →
        xipher.ParsePrivateKey key xs = (.error (.invalidPrivateKeyLength 32 key.length), xs))) := by
  refine ⟨⟨⟨?_, ?_⟩, ?_⟩, ⟨⟨?_, ?_⟩, ?_⟩, ⟨⟨?_, ?_⟩, ?_⟩, ⟨⟨?_, ?_⟩, ?_⟩⟩
  · rintro ⟨e, he⟩
    intro hlen
    obtain ⟨p, hp, _⟩ := ecc.GetPrivateKey_ok key es hlen
    rw [hp] at he
    cases he
  · intro hlen
    exact ⟨.errInvalidKeyLength, by simp [ecc.GetPrivateKey, ecc.ScalarSize, hlen]⟩
  · intro hlen
    simp [ecc.GetPrivateKey, ecc.ScalarSize, hlen]
  · rintro ⟨e, he⟩
    intro hlen
    obtain ⟨p, hp, _⟩ := ecc.GetPublicKey_ok key es hlen
    rw [hp] at he
    cases he
  · intro hlen
    exact ⟨.errInvalidKeyLength, by simp [ecc.GetPublicKey, ecc.ScalarSize, hlen]⟩
  · intro hlen
    simp [ecc.GetPublicKey, ecc.ScalarSize, hlen]
  · rintro ⟨e, he⟩
    intro hlen
    simp [asx.ParsePrivateKey, asx.PrivateKeyLength, hlen] at he
  · intro hlen
    exact ⟨.errInvalidPrivateKeyLength, by simp [asx.ParsePrivateKey, asx.PrivateKeyLength, hlen]⟩
  · intro hlen
    simp [asx.ParsePrivateKey, asx.PrivateKeyLength, hlen]
  · rintro ⟨e, he⟩
    intro hlen
    unfold xipher.ParsePrivateKey at he
    rw [if_neg (by simpa [xipher.PrivateKeyLength] using hlen)] at he
    split at he <;> cases he
  · intro hlen
    exact ⟨_, by simp [xipher.ParsePrivateKey, xipher.PrivateKeyLength, hlen]; rfl⟩
  · intro hlen
    simp [xipher.ParsePrivateKey, xipher.PrivateKeyLength, hlen]

/-! ## Lemmas: the elementary updates of the process state keep the invariants -/

namespace xipher

variable {σ : Type}

theorem heap_alloc_old {α : Type} {h : List α} {p : Nat} {a b : α} (hp : h[p]? = some a) :
    (h ++ [b])[p]? = some a := by
  rw [heap_get_alloc, if_neg (Nat.ne_of_lt (heap_get_lt hp))]
  exact hp

theorem xinv_start (P : Prims) : Inv P (State.empty : State σ) := by
  refine ⟨ecc.inv_empty P, ?_, ?_, ?_, ?_⟩ <;> simp [State.empty, lookup]

theorem specinv_start (K : KdfOps σ) : SpecInv K (State.empty : State σ) := by
  constructor <;> simp [State.empty]

theorem xext_refl (s : State σ) : Ext s s :=
  ⟨ecc.ext_refl s.ecc, fun _ o h => ⟨o, h, rfl, rfl, rfl, fun _ hq => hq⟩, fun _ _ h => h⟩

theorem xext_trans {s t u : State σ} (h1 : Ext s t) (h2 : Ext t u) : Ext s u := by
  refine ⟨ecc.ext_trans h1.ecc h2.ecc, ?_, fun q po h => h2.pub q po (h1.pub q po h)⟩
  intro p o h
  obtain ⟨o1, ho1, hk1, hw1, hs1, hq1⟩ := h1.priv p o h
  obtain ⟨o2, ho2, hk2, hw2, hs2, hq2⟩ := h2.priv p o1 ho1
  exact ⟨o2, ho2, hk2.trans hk1, hw2.trans hw1, hs2.trans hs1, fun q hq => hq2 q (hq1 q hq)⟩

theorem xinv_withEcc {P : Prims} {s : State σ} (h : Inv P s) {e : ecc.State}
    (he : ecc.Inv P e) (hx : ecc.Ext s.ecc e) : Inv P { s with ecc := e } := by
  refine ⟨he, h.key_map, h.pwd_map, h.priv_obj, ?_⟩
  intro q po hpo
  obtain ⟨eo, heo⟩ := h.pub_obj q po hpo
  obtain ⟨eo', heo', _⟩ := hx.pub _ eo heo
  exact ⟨eo', heo'⟩

theorem xext_withEcc (s : State σ) {e : ecc.State} (hx : ecc.Ext s.ecc e) :
    Ext s { s with ecc := e } :=
  ⟨hx, fun _ o h => ⟨o, h, rfl, rfl, rfl, fun _ hq => hq⟩, fun _ _ h => h⟩

theorem specinv_withEcc {K : KdfOps σ} {s : State σ} (h : SpecInv K s) (e : ecc.State) :
    SpecInv K { s with ecc := e } :=
  ⟨h.priv, h.pub⟩

theorem xinv_allocPub {P : Prims} {s : State σ} (h : Inv P s) (q : Ptr) (sp : Option σ)
    (hq : ∃ eo, s.ecc.publicKeys[q]? = some eo) :
    Inv P { s with publicKeys := s.publicKeys ++ [{ publicKey := q, spec := sp }] } := by
  refine ⟨h.ecc, h.key_map, h.pwd_map, ?_, ?_⟩
  · intro p o ho
    refine ⟨(h.priv_obj p o ho).1, fun q' hq' => ?_⟩
    obtain ⟨po, hpo, hs⟩ := (h.priv_obj p o ho).2 q' hq'
    exact ⟨po, heap_alloc_old hpo, hs⟩
  · intro q' po hpo
    simp only [heap_get_alloc] at hpo
    split at hpo
    · cases hpo
      exact hq
    · exact h.pub_obj q' po hpo

theorem xext_allocPub (s : State σ) (po : PublicKey σ) :
    Ext s { s with publicKeys := s.publicKeys ++ [po] } :=
  ⟨ecc.ext_refl s.ecc, fun _ o h => ⟨o, h, rfl, rfl, rfl, fun _ hq => hq⟩,
    fun _ _ h => heap_alloc_old h⟩

theorem specinv_allocPub {K : KdfOps σ} {s : State σ} (h : SpecInv K s) (q : Ptr)
    (sp : Option σ)
    (hsp : ∀ x, sp = some x → K.bytes x ≠ List.replicate K.kdfSpecLength 0) :
    SpecInv K { s with publicKeys := s.publicKeys ++ [{ publicKey := q, spec := sp }] } := by
  refine ⟨h.priv, ?_⟩
  intro q' po x hpo hx
  simp only [heap_get_alloc] at hpo
  split at hpo
  · cases hpo
    exact hsp x hx
  · exact h.pub q' po x hpo hx

theorem xinv_setMemo {P : Prims} {s : State σ} (h : Inv P s) (p q : Ptr)
    (obj : PrivateKey σ) (po : PublicKey σ) (hobj : s.privateKeys[p]? = some obj)
    (hpo : s.publicKeys[q]? = some po) (hsp : po.spec = obj.spec) :
    Inv P { s with privateKeys := s.privateKeys.set p { obj with publicKey := some q } } := by
  refine ⟨h.ecc, ?_, ?_, ?_, h.pub_obj⟩
  · intro k p' hk
    obtain ⟨o, ho, h1, h2, h3⟩ := h.key_map k p' hk
    simp only [heap_get_set]
    by_cases hp : p = p' ∧ p' < s.privateKeys.length
    · rw [if_pos hp]
      obtain ⟨rfl, _⟩ := hp
      rw [hobj] at ho
      cases ho
      exact ⟨_, rfl, h1, h2, h3⟩
    · rw [if_neg hp]
      exact ⟨o, ho, h1, h2, h3⟩
  · intro w p' hw
    obtain ⟨o, ho, h1, h2⟩ := h.pwd_map w p' hw
    simp only [heap_get_set]
    by_cases hp : p = p' ∧ p' < s.privateKeys.length
    · rw [if_pos hp]
      obtain ⟨rfl, _⟩ := hp
      rw [hobj] at ho
      cases ho
      exact ⟨_, rfl, h1, h2⟩
    · rw [if_neg hp]
      exact ⟨o, ho, h1, h2⟩
  · intro p' o ho
    simp only [heap_get_set] at ho
    split at ho
    · cases ho
      refine ⟨(h.priv_obj p obj hobj).1, fun q' hq' => ?_⟩
      cases hq'
      exact ⟨po, hpo, hsp⟩
    · exact h.priv_obj p' o ho

theorem xext_setMemo (s : State σ) (p q : Ptr) (obj : PrivateKey σ)
    (hobj : s.privateKeys[p]? = some obj) (hnone : obj.publicKey = none) :
    Ext s { s with privateKeys := s.privateKeys.set p { obj with publicKey := some q } } := by
  refine ⟨ecc.ext_refl s.ecc, ?_, fun _ _ h => h⟩
  intro p' o ho
  simp only [heap_get_set]
  by_cases hp : p = p' ∧ p' < s.privateKeys.length
  · rw [if_pos hp]
    obtain ⟨rfl, _⟩ := hp
    rw [hobj] at ho
    cases ho
    refine ⟨_, rfl, rfl, rfl, rfl, fun q' hq' => ?_⟩
    rw [hnone] at hq'
    cases hq'
  · rw [if_neg hp]
    exact ⟨o, ho, rfl, rfl, rfl, fun _ hq => hq⟩

theorem specinv_setMemo {K : KdfOps σ} {s : State σ} (h : SpecInv K s) (p q : Ptr)
    (obj : PrivateKey σ) (hobj : s.privateKeys[p]? = some obj) :
    SpecInv K
      { s with privateKeys := s.privateKeys.set p { obj with publicKey := some q } } := by
  refine ⟨?_, h.pub⟩
  intro p' o x ho hx
  simp only [heap_get_set] at ho
  split at ho
  · cases ho
    exact h.priv p obj x hobj hx
  · exact h.priv p' o x ho hx

end xipher

namespace xipher

variable {σ : Type}

theorem xext_allocPriv (s : State σ) (o : PrivateKey σ) (m1 m2 : GoMap) :
    Ext s { s with privateKeys := s.privateKeys ++ [o], pwdXipherMap := m1,
                   keyXipherMap := m2 } :=
  ⟨ecc.ext_refl s.ecc,
    fun _ o' h => ⟨o', heap_alloc_old h, rfl, rfl, rfl, fun _ hq => hq⟩, fun _ _ h => h⟩

theorem specinv_allocPriv {K : KdfOps σ} {s : State σ} (h : SpecInv K s) (o : PrivateKey σ)
    (m1 m2 : GoMap)
    (ho : ∀ x, o.spec = some x → K.bytes x ≠ List.replicate K.kdfSpecLength 0) :
    SpecInv K { s with privateKeys := s.privateKeys ++ [o], pwdXipherMap := m1,
                       keyXipherMap := m2 } := by
  refine ⟨?_, h.pub⟩
  intro p o' x ho' hx
  simp only [heap_get_alloc] at ho'
  split at ho'
  · cases ho'
    exact ho x hx
  · exact h.priv p o' x ho' hx

theorem xinv_allocKey {P : Prims} {s : State σ} (h : Inv P s) (key : Bytes) :
    Inv P { s with
      privateKeys := s.privateKeys ++
        [{ password := none, spec := none, key := key, symEncrypter := none,
           publicKey := none, specKeyMap := [] }]
      keyXipherMap := store s.keyXipherMap key s.privateKeys.length } := by
  refine ⟨h.ecc, ?_, ?_, ?_, h.pub_obj⟩
  · intro k p hk
    simp only [lookup_store] at hk
    split at hk
    · rename_i hkk
      cases hk
      refine ⟨{ password := none, spec := none, key := key, symEncrypter := none,
                publicKey := none, specKeyMap := [] }, by simp, hkk, rfl, rfl⟩
    · obtain ⟨o, ho, h1, h2, h3⟩ := h.key_map k p hk
      exact ⟨o, heap_alloc_old ho, h1, h2, h3⟩
  · intro w p hw
    obtain ⟨o, ho, h1, h2⟩ := h.pwd_map w p hw
    exact ⟨o, heap_alloc_old ho, h1, h2⟩
  · intro p o ho
    simp only [heap_get_alloc] at ho
    split at ho
    · cases ho
      exact ⟨by simp, fun q hq => by cases hq⟩
    · exact h.priv_obj p o ho

theorem xinv_allocPwd {P : Prims} {s : State σ} (h : Inv P s) (w key : Bytes) (sp : σ)
    (skm : List (Bytes × Bytes)) :
    Inv P { s with
      privateKeys := s.privateKeys ++
        [{ password := some w, spec := some sp, key := key, symEncrypter := none,
           publicKey := none, specKeyMap := skm }]
      pwdXipherMap := store s.pwdXipherMap w s.privateKeys.length } := by
  refine ⟨h.ecc, ?_, ?_, ?_, h.pub_obj⟩
  · intro k p hk
    obtain ⟨o, ho, h1, h2, h3⟩ := h.key_map k p hk
    exact ⟨o, heap_alloc_old ho, h1, h2, h3⟩
  · intro w' p hw
    simp only [lookup_store] at hw
    split at hw
    · rename_i hww
      cases hw
      refine ⟨{ password := some w, spec := some sp, key := key, symEncrypter := none,
                publicKey := none, specKeyMap := skm }, by simp, by simp [hww], rfl⟩
    · obtain ⟨o, ho, h1, h2⟩ := h.pwd_map w' p hw
      exact ⟨o, heap_alloc_old ho, h1, h2⟩
  · intro p o ho
    simp only [heap_get_alloc] at ho
    split at ho
    · cases ho
      exact ⟨by simp, fun q hq => by cases hq⟩
    · exact h.priv_obj p o ho

end xipher

/-! ## Lemmas: each call of package `xipher` is a `Step` -/

namespace xipher

variable {σ : Type}

theorem keyinv_nil (K : KdfOps σ) : KeyInv K ([] : List (PrivateKey σ)) := by
  constructor <;> simp

theorem keyinv_append {K : KdfOps σ} {privs : List (PrivateKey σ)} (h : KeyInv K privs)
    (o : PrivateKey σ)
    (hd : ∀ w sp, o.password = some w → o.spec = some sp → o.key = K.getCipherKey sp w)
    (hr : o.password = none → o.key.length = 32) : KeyInv K (privs ++ [o]) := by
  constructor
  · intro p o' w sp ho'
    simp only [heap_get_alloc] at ho'
    split at ho'
    · cases ho'
      exact hd w sp
    · exact h.derived p o' w sp ho'
  · intro p o' ho'
    simp only [heap_get_alloc] at ho'
    split at ho'
    · cases ho'
      exact hr
    · exact h.raw p o' ho'

theorem keyinv_set {K : KdfOps σ} {privs : List (PrivateKey σ)} (h : KeyInv K privs)
    (p q : Ptr) (obj : PrivateKey σ) (hobj : privs[p]? = some obj) :
    KeyInv K (privs.set p { obj with publicKey := some q }) := by
  constructor
  · intro p' o' w sp ho'
    simp only [heap_get_set] at ho'
    split at ho'
    · cases ho'
      exact h.derived p obj w sp hobj
    · exact h.derived p' o' w sp ho'
  · intro p' o' ho'
    simp only [heap_get_set] at ho'
    split at ho'
    · cases ho'
      exact h.raw p obj hobj
    · exact h.raw p' o' ho'

theorem step_refl (K : KdfOps σ) (P : Prims) (s : State σ) : Step K P s s :=
  ⟨id, xext_refl s, fun _ h => h, fun _ h => h, id⟩

theorem step_trans {K : KdfOps σ} {P : Prims} {s t u : State σ} (h1 : Step K P s t)
    (h2 : Step K P t u) : Step K P s u :=
  ⟨fun h => h2.1 (h1.1 h), xext_trans h1.2.1 h2.2.1, fun hK h => h2.2.2.1 hK (h1.2.2.1 hK h),
    fun hX h => h2.2.2.2.1 hX (h1.2.2.2.1 hX h), fun h => h2.2.2.2.2 (h1.2.2.2.2 h)⟩

/-- Running calls of package `ecc` on the `ecc` part of the state is a step, given that
the `ecc` invariant held before. -/
theorem step_eccRun (K : KdfOps σ) (P : Prims) (s : State σ) (cs : List ecc.Call) :
    Step K P s { s with ecc := ecc.run P cs s.ecc } :=
  ⟨fun h => xinv_withEcc h (ecc.run_inv cs h.ecc) (ecc.run_ext P cs s.ecc),
    xext_withEcc s (ecc.run_ext P cs s.ecc), fun _ h => specinv_withEcc h _,
    fun hX h => ecc.run_publen hX cs h, fun h => h⟩

theorem newPrivateKeyForPwdAndSpec_step (K : KdfOps σ) (P : Prims) (password : Bytes)
    (spec : σ) (s : State σ)
    (hgood : K.Lawful → K.bytes spec ≠ List.replicate K.kdfSpecLength 0) :
    Step K P s (newPrivateKeyForPwdAndSpec K password spec s).2 := by
  unfold newPrivateKeyForPwdAndSpec
  split
  · exact step_refl K P s
  · split
    · exact step_refl K P s
    · refine ⟨fun h => xinv_allocPwd h password _ spec _, xext_allocPriv s _ _ _, ?_,
        fun _ h => h, ?_⟩
      · intro hK h
        refine specinv_allocPriv h _ _ _ ?_
        intro x hx
        cases hx
        exact hgood hK
      · intro h
        refine keyinv_append h _ ?_ ?_
        · intro w sp hw hsp
          cases hw
          cases hsp
          rfl
        · intro hw
          cases hw

theorem NewPrivateKeyForPassword_step (K : KdfOps σ) (P : Prims) (rnd : RandSrc)
    (password : Bytes) (s : State σ) :
    Step K P s (NewPrivateKeyForPassword K rnd password s).2 := by
  unfold NewPrivateKeyForPassword
  split
  · exact step_refl K P s
  · rename_i spec hspec
    exact newPrivateKeyForPwdAndSpec_step K P password spec s
      (fun hK => (hK.built_nonzero rnd spec hspec).1)

theorem NewPrivateKeyForPasswordAndSpec_step (K : KdfOps σ) (P : Prims) (rnd : RandSrc)
    (password : Bytes) (iterations memory threads : Byte) (s : State σ) :
    Step K P s
      (NewPrivateKeyForPasswordAndSpec K rnd password iterations memory threads s).2 := by
  unfold NewPrivateKeyForPasswordAndSpec
  split
  · exact step_refl K P s
  · rename_i spec hspec
    exact newPrivateKeyForPwdAndSpec_step K P password _ s
      (fun hK => (hK.built_nonzero rnd spec hspec).2 iterations memory threads)

theorem NewPrivateKey_step (K : KdfOps σ) (P : Prims) (rnd : RandSrc) (s : State σ) :
    Step K P s (NewPrivateKey rnd s).2 := by
  unfold NewPrivateKey
  split
  · exact step_refl K P s
  · rename_i key hkey
    refine ⟨fun h => xinv_allocKey h _, xext_allocPriv s _ _ _, ?_, fun _ h => h, ?_⟩
    · intro _ h
      exact specinv_allocPriv h _ _ _ (fun x hx => by cases hx)
    · intro h
      refine keyinv_append h _ ?_ ?_
      · intro w sp hw
        cases hw
      · intro _
        exact randRead_length hkey

theorem ParsePrivateKey_step (K : KdfOps σ) (P : Prims) (key : Bytes) (s : State σ) :
    Step K P s (ParsePrivateKey key s).2 := by
  unfold ParsePrivateKey
  split
  · exact step_refl K P s
  · rename_i hlen
    split
    · exact step_refl K P s
    · refine ⟨fun h => xinv_allocKey h _, xext_allocPriv s _ _ _, ?_, fun _ h => h, ?_⟩
      · intro _ h
        exact specinv_allocPriv h _ _ _ (fun x hx => by cases hx)
      · intro h
        refine keyinv_append h _ ?_ ?_
        · intro w sp hw
          cases hw
        · intro _
          simpa [PrivateKeyLength] using hlen

end xipher

namespace xipher

variable {σ : Type}

/-- The ways `(*PrivateKey).PublicKey` can end: nothing changes (a returned pointer is
then the memoized one); an error after calls into `ecc`; or a fresh public key object is
allocated and memoized. -/
theorem xPublicKey_cases (P : Prims) (privateKey : Ptr) (s : State σ) :
    ((PrivateKey.PublicKey P privateKey s).2 = s ∧
      ∀ q, (PrivateKey.PublicKey P privateKey s).1 = .ok q →
        ∃ obj, s.privateKeys[privateKey]? = some obj ∧ obj.publicKey = some q) ∨
    (∃ err cs, PrivateKey.PublicKey P privateKey s =
      (.error err, { s with ecc := ecc.run P cs s.ecc })) ∨
    (∃ obj eccPrivKey eccPubKey e1 e2,
      s.privateKeys[privateKey]? = some obj ∧ obj.publicKey = none ∧
      ecc.GetPrivateKey obj.key s.ecc = (.ok eccPrivKey, e1) ∧
      ecc.PrivateKey.PublicKey P eccPrivKey e1 = (.ok eccPubKey, e2) ∧
      PrivateKey.PublicKey P privateKey s =
        (.ok s.publicKeys.length,
          { s with
            ecc := e2
            publicKeys := s.publicKeys ++ [{ publicKey := eccPubKey, spec := obj.spec }]
            privateKeys :=
              s.privateKeys.set privateKey
                { obj with publicKey := some s.publicKeys.length } })) := by
  unfold PrivateKey.PublicKey
  split
  · exact Or.inl ⟨rfl, fun q hq => by cases hq⟩
  · rename_i obj hobj
    split
    · rename_i q hmemo
      refine Or.inl ⟨rfl, fun q' hq' => ?_⟩
      cases hq'
      exact ⟨obj, hobj, hmemo⟩
    · rename_i hnone
      split
      · rename_i err e1 h1
        refine Or.inr (Or.inl ⟨err, [.GetPrivateKey obj.key], ?_⟩)
        simp [ecc.run, ecc.Call.exec, h1]
      · rename_i eccPrivKey e1 h1
        split
        · rename_i err e2 h2
          refine Or.inr (Or.inl ⟨err, [.GetPrivateKey obj.key, .PublicKey eccPrivKey], ?_⟩)
          simp [ecc.run, ecc.Call.exec, h1, h2]
        · rename_i eccPubKey e2 h2
          exact Or.inr (Or.inr ⟨obj, eccPrivKey, eccPubKey, e1, e2, hobj, hnone, h1, h2, rfl⟩)

theorem PublicKey_step (K : KdfOps σ) (P : Prims) (privateKey : Ptr) (s : State σ) :
    Step K P s (PrivateKey.PublicKey P privateKey s).2 := by
  rcases xPublicKey_cases P privateKey s with ⟨heq, _⟩ | ⟨err, cs, heq⟩ |
    ⟨obj, eccPrivKey, eccPubKey, e1, e2, hobj, hnone, h1, h2, heq⟩
  · rw [heq]; exact step_refl K P s
  · rw [heq]; exact step_eccRun K P s cs
  · rw [heq]
    have he1 : e1 = (ecc.GetPrivateKey obj.key s.ecc).2 := by rw [h1]
    have he2 : e2 = (ecc.PrivateKey.PublicKey P eccPrivKey e1).2 := by rw [h2]
    have hx : ecc.Ext s.ecc e2 := by
      rw [he2]
      refine ecc.ext_trans ?_ (ecc.PublicKey_ext P eccPrivKey e1)
      rw [he1]
      exact ecc.GetPrivateKey_ext _ _
    refine ⟨?_, ?_, ?_, ?_, fun h => keyinv_set h privateKey s.publicKeys.length obj hobj⟩
    · intro h
      have hi1 : ecc.Inv P e1 := by rw [he1]; exact ecc.GetPrivateKey_inv _ h.ecc
      have hi2 : ecc.Inv P e2 := by rw [he2]; exact ecc.PublicKey_inv _ hi1
      have hA := xinv_allocPub (xinv_withEcc h hi2 hx) eccPubKey obj.spec
        (ecc.PublicKey_ok_obj hi1 eccPrivKey eccPubKey h2)
      exact xinv_setMemo hA privateKey s.publicKeys.length obj
        { publicKey := eccPubKey, spec := obj.spec } hobj (by simp) rfl
    · exact xext_trans (xext_trans (xext_withEcc s hx) (xext_allocPub _ _))
        (xext_setMemo _ privateKey s.publicKeys.length obj hobj hnone)
    · intro hK h
      have hA := specinv_allocPub (specinv_withEcc h e2) eccPubKey obj.spec
        (fun x hx => h.priv privateKey obj x hobj hx)
      exact specinv_setMemo hA privateKey s.publicKeys.length obj hobj
    · intro hX h
      show ecc.PubLen e2
      rw [he2]
      refine ecc.PublicKey_publen hX _ ?_
      rw [he1]
      exact ecc.GetPrivateKey_publen _ h

end xipher

namespace xipher

variable {σ : Type}

/-- The ways `ParsePublicKey` can end: the length error, an error after `ecc.GetPublicKey`
ran, or a fresh public key object whose spec is parsed from a region that is not all zero
and is absent otherwise. -/
theorem ParsePublicKey_cases (K : KdfOps σ) (b : Bytes) (s : State σ) :
    (b.length ≠ PublicKeyLength K ∧
      ParsePublicKey K b s = (.error (.invalidPublicKeyLength (PublicKeyLength K) b.length), s)) ∨
    (∃ err, ParsePublicKey K b s =
      (.error err, { s with ecc := (ecc.GetPublicKey (b.take cipherKeyLength) s.ecc).2 })) ∨
    (∃ eccPubKey e1 sp, b.length = PublicKeyLength K ∧
      ecc.GetPublicKey (b.take cipherKeyLength) s.ecc = (.ok eccPubKey, e1) ∧
      ((b.drop cipherKeyLength ≠ List.replicate K.kdfSpecLength 0 ∧
          ∃ spec, K.parseKdfSpec (b.drop cipherKeyLength) = .ok spec ∧ sp = some spec) ∨
        (b.drop cipherKeyLength = List.replicate K.kdfSpecLength 0 ∧ sp = none)) ∧
      ParsePublicKey K b s =
        (.ok s.publicKeys.length,
          { s with
            ecc := e1
            publicKeys := s.publicKeys ++ [{ publicKey := eccPubKey, spec := sp }] })) := by
  unfold ParsePublicKey
  split
  · rename_i hlen
    exact Or.inl ⟨hlen, rfl⟩
  · rename_i hlen
    have hlen' : b.length = PublicKeyLength K := by simpa using hlen
    have hdrop : (b.drop cipherKeyLength).length = K.kdfSpecLength := by
      rw [List.length_drop, hlen', PublicKeyLength]
      omega
    have htake : (b.drop cipherKeyLength).take K.kdfSpecLength = b.drop cipherKeyLength :=
      List.take_of_length_le (Nat.le_of_eq hdrop)
    split
    · rename_i err e1 h1
      exact Or.inr (Or.inl ⟨err, by rw [h1]⟩)
    · rename_i eccPubKey e1 h1
      have he1 : e1 = (ecc.GetPublicKey (b.take cipherKeyLength) s.ecc).2 := by rw [h1]
      simp only [htake]
      rw [if_neg (by omega)]
      split
      · rename_i hnz
        split
        · rename_i err hp
          exact Or.inr (Or.inl ⟨err, by rw [he1]⟩)
        · rename_i spec hp
          exact Or.inr (Or.inr ⟨eccPubKey, e1, some spec, hlen', h1,
            Or.inl ⟨hnz, spec, hp, rfl⟩, rfl⟩)
      · rename_i hz
        exact Or.inr (Or.inr ⟨eccPubKey, e1, none, hlen', h1,
          Or.inr ⟨by simpa using hz, rfl⟩, rfl⟩)

theorem ParsePublicKey_step (K : KdfOps σ) (P : Prims) (b : Bytes) (s : State σ) :
    Step K P s (ParsePublicKey K b s).2 := by
  rcases ParsePublicKey_cases K b s with ⟨_, heq⟩ | ⟨err, heq⟩ |
    ⟨eccPubKey, e1, sp, hlen, h1, hsp, heq⟩
  · rw [heq]; exact step_refl K P s
  · rw [heq]; exact step_eccRun K P s [.GetPublicKey (b.take cipherKeyLength)]
  · rw [heq]
    have he1 : e1 = (ecc.GetPublicKey (b.take cipherKeyLength) s.ecc).2 := by rw [h1]
    have hr1 : (ecc.GetPublicKey (b.take cipherKeyLength) s.ecc).1 = .ok eccPubKey := by
      rw [h1]
    have hx : ecc.Ext s.ecc e1 := by rw [he1]; exact ecc.GetPublicKey_ext _ _
    refine ⟨?_, ?_, ?_, ?_, fun h => h⟩
    · intro h
      have hi1 : ecc.Inv P e1 := by rw [he1]; exact ecc.GetPublicKey_inv _ h.ecc
      refine xinv_allocPub (xinv_withEcc h hi1 hx) eccPubKey sp ?_
      have hm := ecc.GetPublicKey_registered _ _ _ hr1
      rw [← he1] at hm
      obtain ⟨eo, heo, _⟩ := hi1.pub_map _ _ hm
      exact ⟨eo, heo⟩
    · exact xext_trans (xext_withEcc s hx) (xext_allocPub _ _)
    · intro hK h
      refine specinv_allocPub (specinv_withEcc h e1) eccPubKey sp ?_
      intro x hx'
      rcases hsp with ⟨hnz, spec, hp, hs⟩ | ⟨_, hs⟩
      · rw [hs] at hx'
        cases hx'
        rw [hK.parse_bytes _ _ hp]
        exact hnz
      · rw [hs] at hx'
        cases hx'
    · intro hX h
      show ecc.PubLen e1
      rw [he1]
      exact ecc.GetPublicKey_publen _ h

theorem exec_step (K : KdfOps σ) (P : Prims) (c : Call) (s : State σ) :
    Step K P s (c.exec K P s) := by
  cases c with
  | ecc c => exact step_eccRun K P s [c]
  | NewPrivateKeyForPassword rnd password =>
    exact NewPrivateKeyForPassword_step K P rnd password s
  | NewPrivateKeyForPasswordAndSpec rnd password iterations memory threads =>
    exact NewPrivateKeyForPasswordAndSpec_step K P rnd password iterations memory threads s
  | NewPrivateKey rnd => exact NewPrivateKey_step K P rnd s
  | ParsePrivateKey key => exact ParsePrivateKey_step K P key s
  | PublicKey privateKey => exact PublicKey_step K P privateKey s
  | ParsePublicKey pubKeyBytes => exact ParsePublicKey_step K P pubKeyBytes s

theorem run_step (K : KdfOps σ) (P : Prims) (calls : List Call) (s : State σ) :
    Step K P s (run K P calls s) := by
  induction calls generalizing s with
  | nil => exact step_refl K P s
  | cons c cs ih => exact step_trans (exec_step K P c s) (ih (c.exec K P s))

/-- The invariant holds in every state reached from process start. -/
theorem reach_inv (K : KdfOps σ) (P : Prims) (calls : List Call) :
    Inv P (run K P calls State.empty) :=
  (run_step K P calls State.empty).1 (xinv_start P)

end xipher

/-! ## Lemmas: what the constructors of package `xipher` return -/

namespace xipher

variable {σ : Type}

theorem newPrivateKeyForPwdAndSpec_ok {K : KdfOps σ} {P : Prims} {s t : State σ}
    (h : Inv P s) {password : Bytes} {spec : σ} {p : Ptr}
    (hr : newPrivateKeyForPwdAndSpec K password spec s = (.ok p, t)) :
    ∃ o, t.privateKeys[p]? = some o ∧ o.password = some password ∧ o.spec.isSome := by
  unfold newPrivateKeyForPwdAndSpec at hr
  split at hr
  · cases hr
  · split at hr
    · rename_i q hq
      cases hr
      exact h.pwd_map password _ hq
    · cases hr
      exact ⟨{ password := some password, spec := some spec,
               key := K.getCipherKey spec password, symEncrypter := none, publicKey := none,
               specKeyMap := [(K.bytes spec, K.getCipherKey spec password)] },
        by simp, rfl, rfl⟩

theorem NewPrivateKeyForPassword_ok {K : KdfOps σ} {P : Prims} {s t : State σ}
    (h : Inv P s) {rnd : RandSrc} {password : Bytes} {p : Ptr}
    (hr : NewPrivateKeyForPassword K rnd password s = (.ok p, t)) :
    ∃ o, t.privateKeys[p]? = some o ∧ o.password = some password ∧ o.spec.isSome := by
  unfold NewPrivateKeyForPassword at hr
  split at hr
  · cases hr
  · exact newPrivateKeyForPwdAndSpec_ok h hr

theorem NewPrivateKeyForPasswordAndSpec_ok {K : KdfOps σ} {P : Prims} {s t : State σ}
    (h : Inv P s) {rnd : RandSrc} {password : Bytes} {i m th : Byte} {p : Ptr}
    (hr : NewPrivateKeyForPasswordAndSpec K rnd password i m th s = (.ok p, t)) :
    ∃ o, t.privateKeys[p]? = some o ∧ o.password = some password ∧ o.spec.isSome := by
  unfold NewPrivateKeyForPasswordAndSpec at hr
  split at hr
  · cases hr
  · exact newPrivateKeyForPwdAndSpec_ok h hr

theorem NewPrivateKey_ok {s t : State σ} {rnd : RandSrc} {p : Ptr}
    (hr : NewPrivateKey rnd s = (.ok p, t)) :
    ∃ k o, randRead rnd cipherKeyLength = .ok k ∧ t.privateKeys[p]? = some o ∧ o.key = k ∧
      o.password = none ∧ o.spec = none := by
  unfold NewPrivateKey at hr
  split at hr
  · cases hr
  · rename_i k hk
    cases hr
    exact ⟨k, { password := none, spec := none, key := k, symEncrypter := none,
                publicKey := none, specKeyMap := [] }, hk, by simp, rfl, rfl, rfl⟩

theorem ParsePrivateKey_ok {P : Prims} {s t : State σ} (h : Inv P s) {key : Bytes} {p : Ptr}
    (hr : ParsePrivateKey key s = (.ok p, t)) :
    ∃ o, t.privateKeys[p]? = some o ∧ o.key = key ∧ o.password = none ∧ o.spec = none := by
  unfold ParsePrivateKey at hr
  split at hr
  · cases hr
  · split at hr
    · rename_i q hq
      cases hr
      exact h.key_map key _ hq
    · cases hr
      exact ⟨{ password := none, spec := none, key := key, symEncrypter := none,
               publicKey := none, specKeyMap := [] }, by simp, rfl, rfl, rfl⟩

end xipher

/-! ## Theorems: private keys of package `xipher` -/

/-- C6. In every state reached by calls into the process, and after any further calls: on
a private key returned by `NewPrivateKeyForPassword` or `NewPrivateKeyForPasswordAndSpec`,
`Bytes()` fails with `errPrivKeyUnavailableForPwd` (so returns no key bytes); on one
returned by `NewPrivateKey` it succeeds with the 32 bytes drawn, and on one returned by
`ParsePrivateKey k` it succeeds with `k`. -/
theorem private_key_export_guard {σ : Type} (K : xipher.KdfOps σ) (P : Prims)
    (pre mid : List xipher.Call) :
    (∀ rnd password p s1,
      xipher.NewPrivateKeyForPassword K rnd password (xipher.run K P pre xipher.State.empty) =
        (.ok p, s1) →
      xipher.PrivateKey.Bytes p (xipher.run K P mid s1) = .error .errPrivKeyUnavailableForPwd) ∧
    (∀ rnd password i m t p s1,
      xipher.NewPrivateKeyForPasswordAndSpec K rnd password i m t
        (xipher.run K P pre xipher.State.empty) = (.ok p, s1) →
      xipher.PrivateKey.Bytes p (xipher.run K P mid s1) = .error .errPrivKeyUnavailableForPwd) ∧
    (∀ rnd p s1,
      xipher.NewPrivateKey rnd (xipher.run K P pre xipher.State.empty) = (.ok p, s1) →
      ∃ k, randRead rnd xipher.cipherKeyLength = .ok k ∧ k.length = 32 ∧
        xipher.PrivateKey.Bytes p (xipher.run K P mid s1) = .ok k) ∧
    (∀ k p s1,
      xipher.ParsePrivateKey k (xipher.run K P pre xipher.State.empty) = (.ok p, s1) →
      xipher.PrivateKey.Bytes p (xipher.run K P mid s1) = .ok k) := by
  have hs := xipher.reach_inv K P pre
  have pwd : ∀ (p : Ptr) (s1 : xipher.State σ) (w : Bytes),
      (∃ o, s1.privateKeys[p]? = some o ∧ o.password = some w ∧ o.spec.isSome) →
      xipher.PrivateKey.Bytes p (xipher.run K P mid s1) =
        .error .errPrivKeyUnavailableForPwd := by
    rintro p s1 w ⟨o, ho, hw, _⟩
    obtain ⟨o', ho', _, hw', _, _⟩ := (xipher.run_step K P mid s1).2.1.priv p o ho
    unfold xipher.PrivateKey.Bytes
    simp [ho', hw', hw]
  have raw : ∀ (p : Ptr) (s1 : xipher.State σ) (k : Bytes),
      (∃ o, s1.privateKeys[p]? = some o ∧ o.key = k ∧ o.password = none ∧ o.spec = none) →
      xipher.PrivateKey.Bytes p (xipher.run K P mid s1) = .ok k := by
    rintro p s1 k ⟨o, ho, hk, hw, hsp⟩
    obtain ⟨o', ho', hk', hw', hsp', _⟩ := (xipher.run_step K P mid s1).2.1.priv p o ho
    unfold xipher.PrivateKey.Bytes
    simp [ho', hw', hw, hsp', hsp, hk', hk]
  refine ⟨?_, ?_, ?_, ?_⟩
  · intro rnd password p s1 hr
    exact pwd p s1 password (xipher.NewPrivateKeyForPassword_ok hs hr)
  · intro rnd password i m t p s1 hr
    exact pwd p s1 password (xipher.NewPrivateKeyForPasswordAndSpec_ok hs hr)
  · intro rnd p s1 hr
    obtain ⟨k, o, hk, ho, h1, h2, h3⟩ := xipher.NewPrivateKey_ok hr
    exact ⟨k, hk, randRead_length hk, raw p s1 k ⟨o, ho, h1, h2, h3⟩⟩
  · intro k p s1 hr
    exact raw p s1 k (xipher.ParsePrivateKey_ok hs hr)

/-- Witness of C6: a password key (created twice, so the second call finds it registered)
and a parsed raw key, each exported after a public-key derivation. -/
theorem private_key_export_guard_witness :
    xipher.PrivateKey.Bytes 0
        (xipher.run toyKdf toyPrims [.PublicKey 0]
          (xipher.NewPrivateKeyForPassword toyKdf (constSrc 4) pw12
            (xipher.run toyKdf toyPrims [.NewPrivateKeyForPassword (constSrc 3) pw12]
              xipher.State.empty)).2) = .error .errPrivKeyUnavailableForPwd ∧
    xipher.PrivateKey.Bytes 1
        (xipher.run toyKdf toyPrims [.PublicKey 0]
          (xipher.ParsePrivateKey (key32 5)
            (xipher.run toyKdf toyPrims [.NewPrivateKeyForPassword (constSrc 3) pw12]
              xipher.State.empty)).2) = .ok (key32 5) :=
  ⟨(private_key_export_guard toyKdf toyPrims [.NewPrivateKeyForPassword (constSrc 3) pw12]
      [.PublicKey 0]).1 (constSrc 4) pw12 0 _ rfl,
   (private_key_export_guard toyKdf toyPrims [.NewPrivateKeyForPassword (constSrc 3) pw12]
      [.PublicKey 0]).2.2.2 (key32 5) 1 _ rfl⟩

/-- C7, as the code has it. For every non-empty password that is not yet in the password
registry and every (iterations, memory, threads), in every state, whenever spec creation
succeeds, `NewPrivateKeyForPasswordAndSpec` returns a new private key, registered under
the password, whose KdfSpec is the one built from the given cost parameters: the fresh
spec with the three setters applied, so that each cost parameter is the given value, or,
where that is zero, the default the fresh spec holds. Its key is the KDF output of the
password under that spec. -/
theorem new_password_key_spec {σ : Type} (K : xipher.KdfOps σ)
    (fIterations fMemory fThreads : σ → Byte) (hC : K.Costs fIterations fMemory fThreads)
    (s : xipher.State σ)
    (rnd : RandSrc) (password : Bytes) (iterations memory threads : Byte) (spec0 : σ)
    (hpw : password ≠ []) (hnew : lookup s.pwdXipherMap password = none)
    (hspec : K.newSpec rnd = .ok spec0) :
    ∃ t o sp,
      xipher.NewPrivateKeyForPasswordAndSpec K rnd password iterations memory threads s =
        (.ok s.privateKeys.length, t) ∧
      t.privateKeys[s.privateKeys.length]? = some o ∧
      o.password = some password ∧
      o.spec = some sp ∧
      sp = K.setThreads (K.setMemory (K.setIterations spec0 iterations) memory) threads ∧
      fIterations sp = (if iterations = 0 then fIterations spec0 else iterations) ∧
      fMemory sp = (if memory = 0 then fMemory spec0 else memory) ∧
      fThreads sp = (if threads = 0 then fThreads spec0 else threads) ∧
      o.key = K.getCipherKey sp password ∧
      lookup t.pwdXipherMap password = some s.privateKeys.length := by
  have hlen : ¬ password.length = 0 := by
    intro h
    exact hpw (List.length_eq_zero.mp h)
  unfold xipher.NewPrivateKeyForPasswordAndSpec xipher.newPrivateKeyForPwdAndSpec
  rw [hspec]
  simp only [hlen, if_false, hnew]
  refine ⟨_, { password := some password,
                spec := some (K.setThreads (K.setMemory (K.setIterations spec0 iterations)
                  memory) threads),
                key := K.getCipherKey (K.setThreads (K.setMemory
                  (K.setIterations spec0 iterations) memory) threads) password,
                symEncrypter := none, publicKey := none,
                specKeyMap := [(K.bytes (K.setThreads (K.setMemory
                  (K.setIterations spec0 iterations) memory) threads),
                  K.getCipherKey (K.setThreads (K.setMemory
                    (K.setIterations spec0 iterations) memory) threads) password)] },
    K.setThreads (K.setMemory (K.setIterations spec0 iterations) memory) threads,
    rfl, ?_, rfl, rfl, rfl, ?_, ?_, ?_, rfl, ?_⟩
  · simp
  · rw [hC.setThreads_iterations, hC.setMemory_iterations, hC.setIterations_iterations]
  · rw [hC.setThreads_memory, hC.setMemory_memory, hC.setIterations_memory]
  · rw [hC.setThreads_threads, hC.setMemory_threads, hC.setIterations_threads]
  · simp [lookup_store]

/-- The spec-modelled setters keep the default on a zero argument and touch no other
parameter. -/
theorem toyKdf_costs :
    toyKdf.Costs kdfSpec.iterations kdfSpec.memory kdfSpec.threads := by
  refine ⟨?_, ?_, ?_, ?_, ?_, ?_, ?_, ?_, ?_⟩ <;>
    intro sp v <;> by_cases h : v = 0 <;>
    simp [toyKdf, h]

/-- Witness of C7 as amended: the first password key of a process, asked for with 5
iterations and zero for memory and threads, holds a spec with 5 iterations and the
defaults 64 and 1. -/
theorem new_password_key_spec_witness :
    ∃ t o sp,
      xipher.NewPrivateKeyForPasswordAndSpec toyKdf (constSrc 3) pw12 5 0 0
        xipher.State.empty = (.ok 0, t) ∧
      t.privateKeys[0]? = some o ∧
      o.password = some pw12 ∧
      o.spec = some sp ∧
      sp = toyKdf.setThreads (toyKdf.setMemory (toyKdf.setIterations
        { iterations := 16, memory := 64, threads := 1,
          salt := ⟨(List.range 16).map (fun _ => 3), by simp⟩ } 5) 0) 0 ∧
      sp.iterations = (if (5 : Byte) = 0 then 16 else 5) ∧
      sp.memory = (if (0 : Byte) = 0 then 64 else 0) ∧
      sp.threads = (if (0 : Byte) = 0 then 1 else 0) ∧
      o.key = toyKdf.getCipherKey sp pw12 ∧
      lookup t.pwdXipherMap pw12 = some 0 :=
  new_password_key_spec toyKdf kdfSpec.iterations kdfSpec.memory kdfSpec.threads
    toyKdf_costs xipher.State.empty (constSrc 3) pw12 5 0 0 _ (by decide) rfl rfl

/-- Counterexample to C7 as stated. (a) When spec creation fails, the call returns that
error and no key. (b) After `NewPrivateKeyForPassword` registered the password, a call with
iterations 5 succeeds but returns the registered key, whose spec still has the default 16
iterations, not the spec built from the given cost parameters. -/
theorem new_password_key_spec_counterexample :
    (xipher.NewPrivateKeyForPasswordAndSpec toyKdf (.fail 7) pw12 5 0 0
        xipher.State.empty).1 = .error (.external 7) ∧
    (∃ spec0 p o,
      toyKdf.newSpec (constSrc 4) = .ok spec0 ∧
      (xipher.NewPrivateKeyForPasswordAndSpec toyKdf (constSrc 4) pw12 5 0 0
        (xipher.NewPrivateKeyForPassword toyKdf (constSrc 3) pw12
          xipher.State.empty).2).1 = .ok p ∧
      (xipher.NewPrivateKeyForPasswordAndSpec toyKdf (constSrc 4) pw12 5 0 0
        (xipher.NewPrivateKeyForPassword toyKdf (constSrc 3) pw12
          xipher.State.empty).2).2.privateKeys[p]? = some o ∧
      o.spec ≠ some (toyKdf.setThreads (toyKdf.setMemory
        (toyKdf.setIterations spec0 5) 0) 0) ∧
      (o.spec.map fun sp => sp.iterations) = some 16) := by
  refine ⟨rfl, _, 0, _, rfl, rfl, rfl, ?_, rfl⟩
  decide

/-- C8. For the empty password, whenever spec creation succeeds, `NewPrivateKeyForPassword`
and `NewPrivateKeyForPasswordAndSpec` (any cost parameters) fail with `errInvalidPassword`,
return no key and leave the whole state, the password registry included, as it was. For
every non-empty password they do not fail with that error; spec creation is assumed not to
report `errInvalidPassword` itself. -/
theorem empty_password_rejected {σ : Type} (K : xipher.KdfOps σ)
    (hK : ∀ rnd, K.newSpec rnd ≠ .error .errInvalidPassword)
    (s : xipher.State σ) (rnd : RandSrc) (iterations memory threads : Byte) :
    (∀ spec, K.newSpec rnd = .ok spec →
      xipher.NewPrivateKeyForPassword K rnd [] s = (.error .errInvalidPassword, s) ∧
      xipher.NewPrivateKeyForPasswordAndSpec K rnd [] iterations memory threads s =
        (.error .errInvalidPassword, s)) ∧
    (∀ password : Bytes, password ≠ [] →
      (xipher.NewPrivateKeyForPassword K rnd password s).1 ≠ .error .errInvalidPassword ∧
      (xipher.NewPrivateKeyForPasswordAndSpec K rnd password iterations memory threads s).1 ≠
        .error .errInvalidPassword) := by
  have key : ∀ (password : Bytes) (spec : σ), password ≠ [] →
      (xipher.newPrivateKeyForPwdAndSpec K password spec s).1 ≠ .error .errInvalidPassword := by
    intro password spec hpw
    have hlen : ¬ password.length = 0 := fun h => hpw (List.length_eq_zero.mp h)
    unfold xipher.newPrivateKeyForPwdAndSpec
    rw [if_neg hlen]
    split <;> simp
  constructor
  · intro spec hspec
    simp [xipher.NewPrivateKeyForPassword, xipher.NewPrivateKeyForPasswordAndSpec,
      xipher.newPrivateKeyForPwdAndSpec, hspec]
  · intro password hpw
    unfold xipher.NewPrivateKeyForPassword xipher.NewPrivateKeyForPasswordAndSpec
    have h0 := hK rnd
    constructor
    · split
      · rename_i err herr
        intro h
        cases h
        exact h0 herr
      · exact key password _ hpw
    · split
      · rename_i err herr
        intro h
        cases h
        exact h0 herr
      · exact key password _ hpw

theorem toyKdf_newSpec_err (rnd : RandSrc) : toyKdf.newSpec rnd ≠ .error .errInvalidPassword := by
  cases rnd <;> simp [toyKdf]

/-- Witness of C8: the empty password and a one-byte password at process start. -/
theorem empty_password_rejected_witness :
    (∀ spec, toyKdf.newSpec (constSrc 3) = .ok spec →
      xipher.NewPrivateKeyForPassword toyKdf (constSrc 3) [] xipher.State.empty =
        (.error .errInvalidPassword, xipher.State.empty) ∧
      xipher.NewPrivateKeyForPasswordAndSpec toyKdf (constSrc 3) [] 5 6 7 xipher.State.empty =
        (.error .errInvalidPassword, xipher.State.empty)) ∧
    (∀ password : Bytes, password ≠ [] →
      (xipher.NewPrivateKeyForPassword toyKdf (constSrc 3) password
        xipher.State.empty).1 ≠ .error .errInvalidPassword ∧
      (xipher.NewPrivateKeyForPasswordAndSpec toyKdf (constSrc 3) password 5 6 7
        xipher.State.empty).1 ≠ .error .errInvalidPassword) :=
  empty_password_rejected toyKdf toyKdf_newSpec_err xipher.State.empty (constSrc 3) 5 6 7

/-! ## Lemmas: encoding a public key and parsing it back -/

namespace xipher

variable {σ : Type}

theorem PublicKey_ok_spec {P : Prims} {s t : State σ} (h : Inv P s) {q p : Ptr}
    (hr : PrivateKey.PublicKey P q s = (.ok p, t)) :
    ∃ obj po, s.privateKeys[q]? = some obj ∧ t.publicKeys[p]? = some po ∧
      po.spec = obj.spec := by
  rcases xPublicKey_cases P q s with ⟨heq, hmemo⟩ | ⟨err, cs, heq⟩ |
    ⟨obj, eccPrivKey, eccPubKey, e1, e2, hobj, hnone, h1, h2, heq⟩
  · rw [hr] at heq hmemo
    obtain ⟨obj, hobj, hq⟩ := hmemo p rfl
    obtain ⟨po, hpo, hsp⟩ := (h.priv_obj q obj hobj).2 p hq
    cases heq
    exact ⟨obj, po, hobj, hpo, hsp⟩
  · rw [hr] at heq
    cases heq
  · rw [hr] at heq
    cases heq
    exact ⟨obj, { publicKey := eccPubKey, spec := obj.spec }, hobj, by simp, rfl⟩

theorem ParsePublicKey_ok_obj {K : KdfOps σ} {s t : State σ} {b : Bytes} {p : Ptr}
    (hr : ParsePublicKey K b s = (.ok p, t)) : ∃ po, t.publicKeys[p]? = some po := by
  rcases ParsePublicKey_cases K b s with ⟨_, heq⟩ | ⟨err, heq⟩ |
    ⟨eccPubKey, e1, sp, hlen, h1, hsp, heq⟩
  · rw [hr] at heq
    cases heq
  · rw [hr] at heq
    cases heq
  · rw [hr] at heq
    cases heq
    exact ⟨{ publicKey := eccPubKey, spec := sp }, by simp⟩

theorem specRegion_length {K : KdfOps σ} (hK : K.Lawful) (spec : Option σ) :
    (specRegion K spec).length = K.kdfSpecLength := by
  cases spec with
  | none => simp [specRegion]
  | some sp => exact hK.bytes_length sp

/-- In a well-formed state, the bytes of a public key object are its curve key followed by
its spec region, and parsing them yields a public key with the same fields. -/
theorem roundtrip_at {K : KdfOps σ} (hK : K.Lawful) {P : Prims} {s : State σ} (h : Inv P s)
    (hS : SpecInv K s) (hL : ecc.PubLen s.ecc) {p : Ptr} {po : PublicKey σ}
    (hpo : s.publicKeys[p]? = some po) :
    ∃ eo, s.ecc.publicKeys[po.publicKey]? = some eo ∧ eo.key.length = 32 ∧
      PublicKey.Bytes K p s = .ok (eo.key ++ specRegion K po.spec) ∧
      (eo.key ++ specRegion K po.spec).length = PublicKeyLength K ∧
      ∃ po', ParsePublicKey K (eo.key ++ specRegion K po.spec) s =
          (.ok s.publicKeys.length, { s with publicKeys := s.publicKeys ++ [po'] }) ∧
        po'.publicKey = po.publicKey ∧ po'.spec.map K.bytes = po.spec.map K.bytes ∧
        po'.spec.isSome = po.spec.isSome := by
  obtain ⟨eo, heo⟩ := h.pub_obj p po hpo
  have hlen : eo.key.length = 32 := hL _ eo heo
  have hreg := specRegion_length hK po.spec
  have htot : (eo.key ++ specRegion K po.spec).length = PublicKeyLength K := by
    rw [List.length_append, hlen, hreg]
    rfl
  have htake : (eo.key ++ specRegion K po.spec).take cipherKeyLength = eo.key := by
    rw [List.take_append_of_le_length (by rw [hlen]; exact Nat.le_refl _)]
    exact List.take_of_length_le (by rw [hlen]; exact Nat.le_refl _)
  have hdrop : (eo.key ++ specRegion K po.spec).drop cipherKeyLength = specRegion K po.spec := by
    have : cipherKeyLength = eo.key.length := hlen.symm
    rw [this]
    exact List.drop_left _ _
  have hget : ecc.GetPublicKey eo.key s.ecc = (.ok po.publicKey, s.ecc) :=
    ecc.GetPublicKey_of_lookup _ _ _ hlen (h.ecc.pub_obj _ eo heo)
  refine ⟨eo, heo, hlen, ?_, htot, ?_⟩
  · unfold PublicKey.Bytes ecc.PublicKey.Bytes
    simp only [hpo, heo]
    cases hsp : po.spec <;> simp [specRegion]
  · rcases ParsePublicKey_cases K (eo.key ++ specRegion K po.spec) s with ⟨hne, _⟩ |
      ⟨err, heq⟩ | ⟨eccPubKey, e1, sp, _, h1, hsp, heq⟩
    · exact absurd htot hne
    · exfalso
      -- no error is possible: the key is registered and the region parses
      unfold ParsePublicKey at heq
      rw [if_neg (by simpa using htot)] at heq
      simp only [htake, hdrop, hget] at heq
      rw [if_neg (by rw [hreg]; exact Nat.lt_irrefl _)] at heq
      rw [List.take_of_length_le (Nat.le_of_eq hreg)] at heq
      cases hps : po.spec with
      | none =>
        rw [hps] at heq
        simp [specRegion] at heq
      | some x =>
        rw [hps] at heq
        obtain ⟨x', hx'⟩ := hK.parse_total x
        simp [specRegion, hS.pub p po x hpo hps, hx'] at heq
    · rw [htake, hget] at h1
      cases h1
      rw [hdrop] at hsp
      refine ⟨{ publicKey := po.publicKey, spec := sp }, heq, rfl, ?_⟩
      rcases hsp with ⟨hnz, spec, hp, hs⟩ | ⟨hz, hs⟩
      · cases hps : po.spec with
        | none =>
          rw [hps] at hnz
          exact absurd rfl hnz
        | some x =>
          rw [hps] at hp
          have := hK.parse_bytes _ _ hp
          simp [hs, this, specRegion]
      · cases hps : po.spec with
        | none => simp [hs]
        | some x =>
          rw [hps] at hz
          exact absurd hz (hS.pub p po x hpo hps)

end xipher

namespace xipher

variable {σ : Type}

/-- With the base-point contract, `(*PrivateKey).PublicKey` of package `ecc` succeeds
on every allocated private key. -/
theorem ecc_PublicKey_total {P : Prims} (hB : ecc.BasepointTotal P) {s : ecc.State}
    (h : ecc.Inv P s) {q : Ptr} {obj : ecc.PrivateKey} (hobj : s.privateKeys[q]? = some obj) :
    ∃ p t, ecc.PrivateKey.PublicKey P q s = (.ok p, t) := by
  obtain ⟨r, hr⟩ := hB obj.key (h.priv_obj q obj hobj).2
  unfold ecc.PrivateKey.PublicKey
  simp only [hobj, hr]
  cases obj.publicKey with
  | some pk => exact ⟨_, _, rfl⟩
  | none =>
    simp only []
    cases lookup s.publicKeyMap r with
    | some pk => exact ⟨_, _, rfl⟩
    | none => exact ⟨_, _, rfl⟩

/-- With the base-point contract and a key derivation that returns 32 bytes,
`(*PrivateKey).PublicKey` of package `xipher` succeeds on every allocated private key. -/
theorem xipher_PublicKey_total {K : KdfOps σ} (hKL : K.KeyLen) {P : Prims}
    (hB : ecc.BasepointTotal P) {s : State σ} (h : Inv P s) (hk : KeyInv K s.privateKeys)
    {q : Ptr} {obj : PrivateKey σ} (hobj : s.privateKeys[q]? = some obj) :
    ∃ p t, PrivateKey.PublicKey P q s = (.ok p, t) := by
  have hlen : obj.key.length = 32 := by
    cases hw : obj.password with
    | none => exact hk.raw q obj hobj hw
    | some w =>
      have hsome := (h.priv_obj q obj hobj).1.mp (by simp [hw])
      obtain ⟨sp, hsp⟩ := Option.isSome_iff_exists.mp hsome
      rw [hk.derived q obj w sp hobj hw hsp]
      exact hKL sp w
  obtain ⟨ep, hep, hm⟩ := ecc.GetPrivateKey_ok obj.key s.ecc hlen
  have hi1 := ecc.GetPrivateKey_inv obj.key h.ecc
  obtain ⟨eo, heo, _⟩ := hi1.priv_map _ _ hm
  obtain ⟨pp, t2, hpp⟩ := ecc_PublicKey_total hB hi1 heo
  unfold PrivateKey.PublicKey
  simp only [hobj]
  cases obj.publicKey with
  | some pk => exact ⟨_, _, rfl⟩
  | none =>
    simp only []
    split
    · rename_i err e1 h1
      rw [h1] at hep
      cases hep
    · rename_i ep' e1 h1
      have : ep' = ep := by
        rw [h1] at hep
        cases hep
        rfl
      subst this
      have he1 : e1 = (ecc.GetPrivateKey obj.key s.ecc).2 := by rw [h1]
      rw [he1, hpp]
      exact ⟨_, _, rfl⟩

/-- All the invariants hold in a state reached from process start, after one more call
that ended in `s1`, and after any further calls. -/
theorem reach_props {K : KdfOps σ} (hK : K.Lawful) {P : Prims} (hX : ecc.X25519Len P)
    (pre mid : List Call) {s1 : State σ}
    (hstep : Step K P (run K P pre State.empty) s1) :
    Inv P (run K P mid s1) ∧ SpecInv K (run K P mid s1) ∧ ecc.PubLen (run K P mid s1).ecc := by
  have h := step_trans (step_trans (run_step K P pre State.empty) hstep) (run_step K P mid s1)
  exact ⟨h.1 (xinv_start P), h.2.2.1 hK (specinv_start K), h.2.2.2.1 hX ecc.publen_empty⟩

end xipher

/-! ## Theorems: public keys of package `xipher` -/

/-- C9. In every state reached by calls into the process: for every public key `p`
returned by `(*PrivateKey).PublicKey` or by a successful `ParsePublicKey`, and after any
further calls, `p.Bytes()` is the 32-byte curve public key followed by the KdfSpec bytes
(or by `kdfSpecLength` zero bytes when `p` has no spec), `PublicKeyLength = 32 +
kdfSpecLength` bytes in all, and `ParsePublicKey` of these bytes succeeds with a new
object that has the same curve public key object and a spec with the same encoding, absent
exactly when the spec of `p` is absent. The laws of the `kdfSpec` helpers and the 32-byte
result of X25519 are assumed. -/
theorem public_key_roundtrip {σ : Type} (K : xipher.KdfOps σ) (hK : K.Lawful) (P : Prims)
    (hX : ecc.X25519Len P) (pre mid : List xipher.Call) (p : Ptr) (s1 : xipher.State σ)
    (hp : (∃ q, xipher.PrivateKey.PublicKey P q (xipher.run K P pre xipher.State.empty) =
            (.ok p, s1)) ∨
          (∃ b, xipher.ParsePublicKey K b (xipher.run K P pre xipher.State.empty) =
            (.ok p, s1))) :
    ∃ po eo bs,
      (xipher.run K P mid s1).publicKeys[p]? = some po ∧
      (xipher.run K P mid s1).ecc.publicKeys[po.publicKey]? = some eo ∧
      eo.key.length = 32 ∧
      xipher.PublicKey.Bytes K p (xipher.run K P mid s1) = .ok bs ∧
      bs = eo.key ++ xipher.specRegion K po.spec ∧
      bs.length = xipher.PublicKeyLength K ∧
      xipher.PublicKeyLength K = 32 + K.kdfSpecLength ∧
      ∃ p' s3 po',
        xipher.ParsePublicKey K bs (xipher.run K P mid s1) = (.ok p', s3) ∧
        s3.publicKeys[p']? = some po' ∧
        po'.publicKey = po.publicKey ∧
        po'.spec.map K.bytes = po.spec.map K.bytes ∧
        (po'.spec = none ↔ po.spec = none) := by
  have hs := xipher.reach_inv K P pre
  have hstep : xipher.Step K P (xipher.run K P pre xipher.State.empty) s1 := by
    rcases hp with ⟨q, hq⟩ | ⟨b, hb⟩
    · have := xipher.PublicKey_step K P q (xipher.run K P pre xipher.State.empty)
      rwa [hq] at this
    · have := xipher.ParsePublicKey_step K P b (xipher.run K P pre xipher.State.empty)
      rwa [hb] at this
  have hobj : ∃ po, s1.publicKeys[p]? = some po := by
    rcases hp with ⟨q, hq⟩ | ⟨b, hb⟩
    · obtain ⟨_, po, _, hpo, _⟩ := xipher.PublicKey_ok_spec hs hq
      exact ⟨po, hpo⟩
    · exact xipher.ParsePublicKey_ok_obj hb
  obtain ⟨po, hpo⟩ := hobj
  obtain ⟨hI, hS, hL⟩ := xipher.reach_props hK hX pre mid hstep
  have hpo2 := (xipher.run_step K P mid s1).2.1.pub p po hpo
  obtain ⟨eo, heo, hlen, hbytes, htot, po', hparse, h1, h2, h3⟩ :=
    xipher.roundtrip_at hK hI hS hL hpo2
  refine ⟨po, eo, _, hpo2, heo, hlen, hbytes, rfl, htot, rfl, _, _, po', hparse, ?_, h1, h2, ?_⟩
  · simp
  · cases hpo' : po'.spec <;> cases hpo0 : po.spec <;> simp [hpo', hpo0] at h3 ⊢

/-- C10. In every state reached by calls into the process: for a private key returned by
`NewPrivateKeyForPassword` or `NewPrivateKeyForPasswordAndSpec` (any cost parameters), and
after any further calls, every public key that `PublicKey()` returns is such that
`ParsePublicKey` of its `Bytes()` succeeds with a key whose `isPwdBased()` is true; for a
private key returned by `NewPrivateKey` or `ParsePrivateKey` it is false. And `PublicKey()`
does return one, given that X25519 on the base point does not fail and that the key
derivation yields 32 bytes. The laws of the `kdfSpec` helpers and the 32-byte result of
X25519 are assumed. -/
theorem reparsed_public_key_pwd_based {σ : Type} (K : xipher.KdfOps σ) (hK : K.Lawful)
    (P : Prims) (hX : ecc.X25519Len P) (pre mid : List xipher.Call) (q : Ptr)
    (s1 : xipher.State σ) :
    ((∃ rnd password,
        xipher.NewPrivateKeyForPassword K rnd password
          (xipher.run K P pre xipher.State.empty) = (.ok q, s1)) ∨
      (∃ rnd password i m t,
        xipher.NewPrivateKeyForPasswordAndSpec K rnd password i m t
          (xipher.run K P pre xipher.State.empty) = (.ok q, s1)) →
      (∀ p s3, xipher.PrivateKey.PublicKey P q (xipher.run K P mid s1) = (.ok p, s3) →
        ∃ bs p' s4, xipher.PublicKey.Bytes K p s3 = .ok bs ∧
          xipher.ParsePublicKey K bs s3 = (.ok p', s4) ∧
          xipher.PublicKey.isPwdBased p' s4 = .ok true) ∧
      (ecc.BasepointTotal P → K.KeyLen →
        ∃ p s3, xipher.PrivateKey.PublicKey P q (xipher.run K P mid s1) = (.ok p, s3))) ∧
    ((∃ rnd, xipher.NewPrivateKey rnd (xipher.run K P pre xipher.State.empty) = (.ok q, s1)) ∨
      (∃ k, xipher.ParsePrivateKey k (xipher.run K P pre xipher.State.empty) = (.ok q, s1)) →
      (∀ p s3, xipher.PrivateKey.PublicKey P q (xipher.run K P mid s1) = (.ok p, s3) →
        ∃ bs p' s4, xipher.PublicKey.Bytes K p s3 = .ok bs ∧
          xipher.ParsePublicKey K bs s3 = (.ok p', s4) ∧
          xipher.PublicKey.isPwdBased p' s4 = .ok false) ∧
      (ecc.BasepointTotal P → K.KeyLen →
        ∃ p s3, xipher.PrivateKey.PublicKey P q (xipher.run K P mid s1) = (.ok p, s3))) := by
  have hs := xipher.reach_inv K P pre
  -- what a key object created in `s1` with a given `spec.isSome` leads to
  have main : ∀ (v : Bool),
      xipher.Step K P (xipher.run K P pre xipher.State.empty) s1 →
      (∃ o, s1.privateKeys[q]? = some o ∧ o.spec.isSome = v) →
      (∀ p s3, xipher.PrivateKey.PublicKey P q (xipher.run K P mid s1) = (.ok p, s3) →
        ∃ bs p' s4, xipher.PublicKey.Bytes K p s3 = .ok bs ∧
          xipher.ParsePublicKey K bs s3 = (.ok p', s4) ∧
          xipher.PublicKey.isPwdBased p' s4 = .ok v) ∧
      (ecc.BasepointTotal P → K.KeyLen →
        ∃ p s3, xipher.PrivateKey.PublicKey P q (xipher.run K P mid s1) = (.ok p, s3)) := by
    rintro v hstep ⟨o, ho, hv⟩
    obtain ⟨hI, hS, hL⟩ := xipher.reach_props hK hX pre mid hstep
    obtain ⟨o2, ho2, _, _, hsp2, _⟩ := (xipher.run_step K P mid s1).2.1.priv q o ho
    constructor
    · intro p s3 hpub
      obtain ⟨obj, po, hobj, hpo, hsp⟩ := xipher.PublicKey_ok_spec hI hpub
      rw [ho2] at hobj
      cases hobj
      have hstep3 := xipher.PublicKey_step K P q (xipher.run K P mid s1)
      rw [hpub] at hstep3
      obtain ⟨eo, heo, hlen, hbytes, htot, po', hparse, h1, h2, h3⟩ :=
        xipher.roundtrip_at hK (hstep3.1 hI) (hstep3.2.2.1 hK hS) (hstep3.2.2.2.1 hX hL) hpo
      refine ⟨_, _, _, hbytes, hparse, ?_⟩
      unfold xipher.PublicKey.isPwdBased
      simp [h3, hsp, hsp2, hv]
    · intro hB hKL
      have hkeys := (xipher.step_trans
        (xipher.step_trans (xipher.run_step K P pre xipher.State.empty) hstep)
        (xipher.run_step K P mid s1)).2.2.2.2 (xipher.keyinv_nil K)
      exact xipher.xipher_PublicKey_total hKL hB hI hkeys ho2
  constructor
  · intro hc
    rcases hc with ⟨rnd, password, hr⟩ | ⟨rnd, password, i, m, t, hr⟩
    · have hst := xipher.NewPrivateKeyForPassword_step K P rnd password
        (xipher.run K P pre xipher.State.empty)
      rw [hr] at hst
      obtain ⟨o, ho, _, hsome⟩ := xipher.NewPrivateKeyForPassword_ok hs hr
      exact main true hst ⟨o, ho, hsome⟩
    · have hst := xipher.NewPrivateKeyForPasswordAndSpec_step K P rnd password i m t
        (xipher.run K P pre xipher.State.empty)
      rw [hr] at hst
      obtain ⟨o, ho, _, hsome⟩ := xipher.NewPrivateKeyForPasswordAndSpec_ok hs hr
      exact main true hst ⟨o, ho, hsome⟩
  · intro hc
    rcases hc with ⟨rnd, hr⟩ | ⟨k, hr⟩
    · have hst := xipher.NewPrivateKey_step K P rnd (xipher.run K P pre xipher.State.empty)
      rw [hr] at hst
      obtain ⟨_, o, _, ho, _, _, hnone⟩ := xipher.NewPrivateKey_ok hr
      exact main false hst ⟨o, ho, by simp [hnone]⟩
    · have hst := xipher.ParsePrivateKey_step K P k (xipher.run K P pre xipher.State.empty)
      rw [hr] at hst
      obtain ⟨o, ho, _, _, hnone⟩ := xipher.ParsePrivateKey_ok hs hr
      exact main false hst ⟨o, ho, by simp [hnone]⟩

theorem toyKdf_lawful : toyKdf.Lawful := by
  constructor
  · intro spec
    simp [toyKdf, spec.salt.property]
  · intro b spec h
    simp only [toyKdf] at h
    split at h
    · rename_i hlen
      cases h
      match b, hlen with
      | b0 :: b1 :: b2 :: rest, _ => simp [toyKdf]
    · cases h
  · intro spec
    have hlen : (toyKdf.bytes spec).length = 19 := by simp [toyKdf, spec.salt.property]
    simp only [toyKdf] at hlen ⊢
    rw [dif_pos hlen]
    exact ⟨_, rfl⟩
  · intro rnd spec h
    have hit : spec.iterations = 16 := by
      cases rnd with
      | fail code => simp [toyKdf] at h
      | bytes f =>
        simp only [toyKdf] at h
        cases h
        rfl
    have hne : ∀ sp : kdfSpec, sp.iterations ≠ 0 →
        toyKdf.bytes sp ≠ List.replicate toyKdf.kdfSpecLength 0 := by
      intro sp hsp heq
      have h0 := congrArg (fun l => l.head?) heq
      simp [toyKdf, List.replicate] at h0
      exact hsp h0
    constructor
    · apply hne
      rw [hit]
      decide
    · intro i m t
      apply hne
      simp only [toyKdf]
      by_cases hi : i = 0 <;> by_cases hm : m = 0 <;> by_cases ht : t = 0 <;>
        simp [hi, hm, ht, hit]

/-- Witness of C9: the public key of the first password key of a process. -/
theorem public_key_roundtrip_witness :
    ∃ po eo bs,
      (xipher.run toyKdf toyPrims []
        (xipher.PrivateKey.PublicKey toyPrims 0
          (xipher.run toyKdf toyPrims [.NewPrivateKeyForPassword (constSrc 3) pw12]
            xipher.State.empty)).2).publicKeys[0]? = some po ∧
      (xipher.run toyKdf toyPrims []
        (xipher.PrivateKey.PublicKey toyPrims 0
          (xipher.run toyKdf toyPrims [.NewPrivateKeyForPassword (constSrc 3) pw12]
            xipher.State.empty)).2).ecc.publicKeys[po.publicKey]? = some eo ∧
      eo.key.length = 32 ∧
      xipher.PublicKey.Bytes toyKdf 0 (xipher.run toyKdf toyPrims []
        (xipher.PrivateKey.PublicKey toyPrims 0
          (xipher.run toyKdf toyPrims [.NewPrivateKeyForPassword (constSrc 3) pw12]
            xipher.State.empty)).2) = .ok bs ∧
      bs = eo.key ++ xipher.specRegion toyKdf po.spec ∧
      bs.length = xipher.PublicKeyLength toyKdf ∧
      xipher.PublicKeyLength toyKdf = 32 + toyKdf.kdfSpecLength ∧
      ∃ p' s3 po',
        xipher.ParsePublicKey toyKdf bs (xipher.run toyKdf toyPrims []
          (xipher.PrivateKey.PublicKey toyPrims 0
            (xipher.run toyKdf toyPrims [.NewPrivateKeyForPassword (constSrc 3) pw12]
              xipher.State.empty)).2) = (.ok p', s3) ∧
        s3.publicKeys[p']? = some po' ∧
        po'.publicKey = po.publicKey ∧
        po'.spec.map toyKdf.bytes = po.spec.map toyKdf.bytes ∧
        (po'.spec = none ↔ po.spec = none) :=
  public_key_roundtrip toyKdf toyKdf_lawful toyPrims toyPrims_X25519Len
    [.NewPrivateKeyForPassword (constSrc 3) pw12] [] 0 _ (Or.inl ⟨0, rfl⟩)

theorem toyPrims_basepointTotal : ecc.BasepointTotal toyPrims := by
  intro k hk
  simp [toyPrims, hk]

theorem toyKdf_keyLen : toyKdf.KeyLen := by
  intro spec pwd
  simp [toyKdf, xipher.cipherKeyLength]

/-- Witness of C10: a password key and a parsed raw key, each with its public key
re-parsed, and the public key of the password key exists. -/
theorem reparsed_public_key_pwd_based_witness :
    (∃ p s3, xipher.PrivateKey.PublicKey toyPrims 0 (xipher.run toyKdf toyPrims []
        (xipher.NewPrivateKeyForPassword toyKdf (constSrc 3) pw12
          (xipher.run toyKdf toyPrims [] xipher.State.empty)).2) = (.ok p, s3)) ∧
    (∃ bs p' s4,
      xipher.PublicKey.Bytes toyKdf 0
        (xipher.PrivateKey.PublicKey toyPrims 0 (xipher.run toyKdf toyPrims []
          (xipher.NewPrivateKeyForPassword toyKdf (constSrc 3) pw12
            (xipher.run toyKdf toyPrims [] xipher.State.empty)).2)).2 = .ok bs ∧
      xipher.ParsePublicKey toyKdf bs
        (xipher.PrivateKey.PublicKey toyPrims 0 (xipher.run toyKdf toyPrims []
          (xipher.NewPrivateKeyForPassword toyKdf (constSrc 3) pw12
            (xipher.run toyKdf toyPrims [] xipher.State.empty)).2)).2 = (.ok p', s4) ∧
      xipher.PublicKey.isPwdBased p' s4 = .ok true) ∧
    (∃ bs p' s4,
      xipher.PublicKey.Bytes toyKdf 0
        (xipher.PrivateKey.PublicKey toyPrims 0 (xipher.run toyKdf toyPrims []
          (xipher.ParsePrivateKey (key32 5)
            (xipher.run toyKdf toyPrims [] xipher.State.empty)).2)).2 = .ok bs ∧
      xipher.ParsePublicKey toyKdf bs
        (xipher.PrivateKey.PublicKey toyPrims 0 (xipher.run toyKdf toyPrims []
          (xipher.ParsePrivateKey (key32 5)
            (xipher.run toyKdf toyPrims [] xipher.State.empty)).2)).2 = (.ok p', s4) ∧
      xipher.PublicKey.isPwdBased p' s4 = .ok false) :=
  ⟨((reparsed_public_key_pwd_based toyKdf toyKdf_lawful toyPrims toyPrims_X25519Len [] [] 0
      (xipher.NewPrivateKeyForPassword toyKdf (constSrc 3) pw12
        (xipher.run toyKdf toyPrims [] xipher.State.empty)).2).1
      (Or.inl ⟨constSrc 3, pw12, rfl⟩)).2 toyPrims_basepointTotal toyKdf_keyLen,
   ((reparsed_public_key_pwd_based toyKdf toyKdf_lawful toyPrims toyPrims_X25519Len [] [] 0
      (xipher.NewPrivateKeyForPassword toyKdf (constSrc 3) pw12
        (xipher.run toyKdf toyPrims [] xipher.State.empty)).2).1
      (Or.inl ⟨constSrc 3, pw12, rfl⟩)).1 0 _ rfl,
   ((reparsed_public_key_pwd_based toyKdf toyKdf_lawful toyPrims toyPrims_X25519Len [] [] 0
      (xipher.ParsePrivateKey (key32 5)
        (xipher.run toyKdf toyPrims [] xipher.State.empty)).2).2
      (Or.inr ⟨key32 5, rfl⟩)).1 0 _ rfl⟩

/-! ## Lemma: the `ecc` part of a process state is reached by calls into `ecc` alone -/

namespace xipher

variable {σ : Type}

theorem exec_ecc_part (K : KdfOps σ) (P : Prims) (c : Call) (s : State σ) :
    ∃ cs, (c.exec K P s).ecc = ecc.run P cs s.ecc := by
  cases c with
  | ecc c => exact ⟨[c], rfl⟩
  | NewPrivateKeyForPassword rnd password =>
    refine ⟨[], ?_⟩
    simp only [Call.exec, NewPrivateKeyForPassword, newPrivateKeyForPwdAndSpec]
    repeat' split
    all_goals rfl
  | NewPrivateKeyForPasswordAndSpec rnd password iterations memory threads =>
    refine ⟨[], ?_⟩
    simp only [Call.exec, NewPrivateKeyForPasswordAndSpec, newPrivateKeyForPwdAndSpec]
    repeat' split
    all_goals rfl
  | NewPrivateKey rnd =>
    refine ⟨[], ?_⟩
    simp only [Call.exec, NewPrivateKey]
    repeat' split
    all_goals rfl
  | ParsePrivateKey key =>
    refine ⟨[], ?_⟩
    simp only [Call.exec, ParsePrivateKey]
    repeat' split
    all_goals rfl
  | PublicKey privateKey =>
    show ∃ cs, (PrivateKey.PublicKey P privateKey s).2.ecc = ecc.run P cs s.ecc
    rcases xPublicKey_cases P privateKey s with ⟨heq, _⟩ | ⟨err, cs, heq⟩ |
      ⟨obj, eccPrivKey, eccPubKey, e1, e2, hobj, hnone, h1, h2, heq⟩
    · exact ⟨[], by rw [heq]; rfl⟩
    · exact ⟨cs, by rw [heq]⟩
    · refine ⟨[.GetPrivateKey obj.key, .PublicKey eccPrivKey], ?_⟩
      rw [heq]
      simp [ecc.run, ecc.Call.exec, h1, h2]
  | ParsePublicKey pubKeyBytes =>
    show ∃ cs, (ParsePublicKey K pubKeyBytes s).2.ecc = ecc.run P cs s.ecc
    rcases ParsePublicKey_cases K pubKeyBytes s with ⟨_, heq⟩ | ⟨err, heq⟩ |
      ⟨eccPubKey, e1, sp, hlen, h1, hsp, heq⟩
    · exact ⟨[], by rw [heq]; rfl⟩
    · exact ⟨[.GetPublicKey (pubKeyBytes.take cipherKeyLength)], by rw [heq]; rfl⟩
    · refine ⟨[.GetPublicKey (pubKeyBytes.take cipherKeyLength)], ?_⟩
      rw [heq]
      simp [ecc.run, ecc.Call.exec, h1]

/-- Whatever calls the process made, the state of package `ecc` is one that calls into
`ecc` alone reach: the theorems about `ecc.run` cover every state of the process. -/
theorem run_ecc_part (K : KdfOps σ) (P : Prims) (calls : List Call) (s : State σ) :
    ∃ cs, (run K P calls s).ecc = ecc.run P cs s.ecc := by
  induction calls generalizing s with
  | nil => exact ⟨[], rfl⟩
  | cons c rest ih =>
    obtain ⟨cs1, h1⟩ := exec_ecc_part K P c s
    obtain ⟨cs2, h2⟩ := ih (c.exec K P s)
    refine ⟨cs1 ++ cs2, ?_⟩
    show (run K P rest (c.exec K P s)).ecc = _
    rw [h2, h1]
    simp [ecc.run, List.foldl_append]

end xipher

/-! ## Theorems: the flag byte of `Decompress` -/

/-- C20. For every non-empty input `e`, `Decompress e` does not index out of range: it is
`zDecompress (e[1:])` when `e[0] = 1`, and otherwise it is `e[1:]` unchanged with no error,
so the flag values 0 and 2..255 are all taken as stored data. Non-emptiness is needed: on
the empty input the slicing panics. -/
theorem decompress_dispatch (zDecompress : Bytes → Except Err Bytes) (e : Bytes)
    (hne : e ≠ []) :
    (e.head hne = 1 → commons.Decompress zDecompress e = zDecompress e.tail) ∧
    (e.head hne ≠ 1 → commons.Decompress zDecompress e = .ok e.tail) ∧
    commons.Decompress zDecompress [] = .error .panic := by
  cases e with
  | nil => exact absurd rfl hne
  | cons flag rest =>
    refine ⟨?_, ?_, rfl⟩
    · intro h
      simp only [List.head_cons] at h
      simp [commons.Decompress, h]
    · intro h
      simp only [List.head_cons] at h
      simp [commons.Decompress, h]

/-- Witness of C20: the flag value 2 in front of two bytes, with a decompressor that would
fail on every input. -/
theorem decompress_dispatch_witness :
    ((([2, 8, 9] : Bytes).head (by simp) = 1 →
        commons.Decompress (fun _ => .error (.external 9)) [2, 8, 9] =
          (fun _ => .error (.external 9)) ([2, 8, 9] : Bytes).tail) ∧
      (([2, 8, 9] : Bytes).head (by simp) ≠ 1 →
        commons.Decompress (fun _ => .error (.external 9)) [2, 8, 9] =
          .ok ([2, 8, 9] : Bytes).tail) ∧
      commons.Decompress (fun _ => .error (.external 9)) [] = .error .panic) :=
  decompress_dispatch (fun _ => .error (.external 9)) [2, 8, 9] (by simp)

/-! ## Theorems: password and spec of a private key go together -/

/-- C19. In every state reached by calls into the process, every private key object of
package `xipher` (each was made by one of the four constructors) has its password set if
and only if its KdfSpec is set; so `isPwdBased()` (password and spec) is true exactly when
`Bytes()` (guarded by password or spec) fails, and it then fails with
`errPrivKeyUnavailableForPwd`. -/
theorem password_iff_spec {σ : Type} (K : xipher.KdfOps σ) (P : Prims)
    (calls : List xipher.Call) (p : Ptr)
    (hp : p < (xipher.run K P calls xipher.State.empty).privateKeys.length) :
    ∃ o, (xipher.run K P calls xipher.State.empty).privateKeys[p]? = some o ∧
      (o.password.isSome ↔ o.spec.isSome) ∧
      (xipher.PrivateKey.isPwdBased p (xipher.run K P calls xipher.State.empty) = .ok true ↔
        ∃ e, xipher.PrivateKey.Bytes p (xipher.run K P calls xipher.State.empty) = .error e) ∧
      (xipher.PrivateKey.isPwdBased p (xipher.run K P calls xipher.State.empty) = .ok true ↔
        xipher.PrivateKey.Bytes p (xipher.run K P calls xipher.State.empty) =
          .error .errPrivKeyUnavailableForPwd) := by
  have hI := xipher.reach_inv K P calls
  have ho : (xipher.run K P calls xipher.State.empty).privateKeys[p]? =
      some ((xipher.run K P calls xipher.State.empty).privateKeys[p]) :=
    List.getElem?_eq_getElem hp
  generalize (xipher.run K P calls xipher.State.empty).privateKeys[p] = o at ho
  have hiff := (hI.priv_obj p o ho).1
  refine ⟨o, ho, hiff, ?_, ?_⟩
  · unfold xipher.PrivateKey.isPwdBased xipher.PrivateKey.Bytes
    simp only [ho]
    cases hw : o.password <;> cases hs : o.spec <;> simp [hw, hs] at hiff ⊢
  · unfold xipher.PrivateKey.isPwdBased xipher.PrivateKey.Bytes
    simp only [ho]
    cases hw : o.password <;> cases hs : o.spec <;> simp [hw, hs] at hiff ⊢

/-- Witness of C19: the second private key object after a password key and a raw key were
made. -/
theorem password_iff_spec_witness :
    ∃ o, (xipher.run toyKdf toyPrims
          [.NewPrivateKeyForPassword (constSrc 3) pw12, .ParsePrivateKey (key32 5)]
          xipher.State.empty).privateKeys[1]? = some o ∧
      (o.password.isSome ↔ o.spec.isSome) ∧
      (xipher.PrivateKey.isPwdBased 1 (xipher.run toyKdf toyPrims
          [.NewPrivateKeyForPassword (constSrc 3) pw12, .ParsePrivateKey (key32 5)]
          xipher.State.empty) = .ok true ↔
        ∃ e, xipher.PrivateKey.Bytes 1 (xipher.run toyKdf toyPrims
          [.NewPrivateKeyForPassword (constSrc 3) pw12, .ParsePrivateKey (key32 5)]
          xipher.State.empty) = .error e) ∧
      (xipher.PrivateKey.isPwdBased 1 (xipher.run toyKdf toyPrims
          [.NewPrivateKeyForPassword (constSrc 3) pw12, .ParsePrivateKey (key32 5)]
          xipher.State.empty) = .ok true ↔
        xipher.PrivateKey.Bytes 1 (xipher.run toyKdf toyPrims
          [.NewPrivateKeyForPassword (constSrc 3) pw12, .ParsePrivateKey (key32 5)]
          xipher.State.empty) = .error .errPrivKeyUnavailableForPwd) :=
  password_iff_spec toyKdf toyPrims
    [.NewPrivateKeyForPassword (constSrc 3) pw12, .ParsePrivateKey (key32 5)] 1 (by decide)

/-! ## Theorems: memoized public key and memoized encrypter of package `ecc` -/

namespace ecc

/-- A memoized public key is returned as it is, whatever the primitives. -/
theorem PublicKey_of_memo (P : Prims) {s : State} {q p : Ptr} {obj : PrivateKey}
    (hobj : s.privateKeys[q]? = some obj) (hmemo : obj.publicKey = some p) :
    PrivateKey.PublicKey P q s = (.ok p, s) := by
  unfold PrivateKey.PublicKey
  simp only [hobj, hmemo]

/-- A memoized encrypter is returned as it is, whatever the primitives and the random
source. -/
theorem getEncrypter_of_memo (P : Prims) (rnd : RandSrc) {s : State} {pk : Ptr}
    {obj : PublicKey} {enc : encrypter} (hobj : s.publicKeys[pk]? = some obj)
    (hmemo : obj.encrypter = some enc) :
    PublicKey.getEncrypter P rnd pk s = (.ok enc, s) := by
  unfold PublicKey.getEncrypter
  simp only [hobj, hmemo]

end ecc

/-- C14. In every state reached by calls into the package, for every private key object
`q` with scalar `k` on which `X25519(k, Basepoint)` succeeds with `r`: `PublicKey()`
returns a public key object whose bytes are `r`; that object is the one registered under
`r` (a public key registered under `r` before the call is the one returned, and
`GetPublicKey r` returns it, given the 32-byte result of X25519); and after any further
calls `PublicKey()` on `q` returns the same object and changes nothing, whatever X25519
would compute then. -/
theorem ecc_public_key_memo (P : Prims) (hX : ecc.X25519Len P) (pre mid : List ecc.Call)
    (q : Ptr) (obj : ecc.PrivateKey) (r : Bytes)
    (hobj : (ecc.run P pre ecc.State.empty).privateKeys[q]? = some obj)
    (hr : P.X25519 obj.key P.Basepoint = .ok r) :
    ∃ p s1 po,
      ecc.PrivateKey.PublicKey P q (ecc.run P pre ecc.State.empty) = (.ok p, s1) ∧
      s1.publicKeys[p]? = some po ∧ po.key = r ∧
      lookup s1.publicKeyMap r = some p ∧
      (∀ p0, lookup (ecc.run P pre ecc.State.empty).publicKeyMap r = some p0 → p0 = p) ∧
      ecc.GetPublicKey r s1 = (.ok p, s1) ∧
      ∀ P' : Prims,
        ecc.PrivateKey.PublicKey P' q (ecc.run P mid s1) = (.ok p, ecc.run P mid s1) := by
  have hs : ecc.Inv P (ecc.run P pre ecc.State.empty) := ecc.run_inv pre (ecc.inv_empty P)
  have hl : ecc.PubLen (ecc.run P pre ecc.State.empty) := ecc.run_publen hX pre ecc.publen_empty
  -- the call succeeds, and afterwards `q` has the result memoized
  have key : ∃ p s1, ecc.PrivateKey.PublicKey P q (ecc.run P pre ecc.State.empty) = (.ok p, s1) ∧
      ∃ obj1, s1.privateKeys[q]? = some obj1 ∧ obj1.publicKey = some p := by
    cases hm : obj.publicKey with
    | some p => exact ⟨p, _, ecc.PublicKey_of_memo P hobj hm, obj, hobj, hm⟩
    | none =>
      cases hlk : lookup (ecc.run P pre ecc.State.empty).publicKeyMap r with
      | some pk =>
        refine ⟨pk,
          { ecc.run P pre ecc.State.empty with
            privateKeys := (ecc.run P pre ecc.State.empty).privateKeys.set q
              { obj with publicKey := some pk } },
          ?_, { obj with publicKey := some pk }, ?_, rfl⟩
        · unfold ecc.PrivateKey.PublicKey
          simp only [hobj, hm, hr, hlk]
        · simp [heap_get_set, heap_get_lt hobj]
      | none =>
        refine ⟨(ecc.run P pre ecc.State.empty).publicKeys.length,
          { ecc.run P pre ecc.State.empty with
            publicKeys := (ecc.run P pre ecc.State.empty).publicKeys ++
              [{ key := r, encrypter := none }]
            publicKeyMap := store (ecc.run P pre ecc.State.empty).publicKeyMap r
              (ecc.run P pre ecc.State.empty).publicKeys.length
            privateKeys := (ecc.run P pre ecc.State.empty).privateKeys.set q
              { obj with publicKey := some (ecc.run P pre ecc.State.empty).publicKeys.length } },
          ?_, { obj with publicKey := some (ecc.run P pre ecc.State.empty).publicKeys.length },
          ?_, rfl⟩
        · unfold ecc.PrivateKey.PublicKey
          simp only [hobj, hm, hr, hlk]
        · simp [heap_get_set, heap_get_lt hobj]
  obtain ⟨p, s1, hcall, obj1, hobj1, hmemo1⟩ := key
  have e2 : (ecc.PrivateKey.PublicKey P q (ecc.run P pre ecc.State.empty)).2 = s1 := by
    rw [hcall]
  have hi1 : ecc.Inv P s1 := by
    have := ecc.PublicKey_inv q hs
    rwa [e2] at this
  have hl1 : ecc.PubLen s1 := by
    have := ecc.PublicKey_publen hX q hl
    rwa [e2] at this
  have hx1 : ecc.Ext (ecc.run P pre ecc.State.empty) s1 := by
    have := ecc.PublicKey_ext P q (ecc.run P pre ecc.State.empty)
    rwa [e2] at this
  -- the memoized object holds the X25519 image of the key of `q`
  obtain ⟨po, hpo, hxo⟩ := hi1.priv_pub q obj1 p hobj1 hmemo1
  obtain ⟨obj1', hobj1', hk1, _⟩ := hx1.priv q obj hobj
  rw [hobj1] at hobj1'
  cases hobj1'
  rw [hk1, hr] at hxo
  have hkey : po.key = r := by
    cases hxo
    rfl
  have hreg : lookup s1.publicKeyMap r = some p := by
    rw [← hkey]
    exact hi1.pub_obj p po hpo
  refine ⟨p, s1, po, hcall, hpo, hkey, hreg, ?_, ?_, ?_⟩
  · intro p0 h0
    have := ecc.ext_pub_map hs hi1 hx1 h0
    rw [hreg] at this
    exact (Option.some.inj this).symm
  · exact ecc.GetPublicKey_of_lookup r s1 p (by rw [← hkey]; exact hl1 p po hpo) hreg
  · intro P'
    obtain ⟨o2, ho2, _, hq2⟩ := (ecc.run_ext P mid s1).priv q obj1 hobj1
    exact ecc.PublicKey_of_memo P' ho2 (hq2 p hmemo1)

/-- Witness of C14: the public key of the first private key of a process, asked for again
after another key was interned. -/
theorem ecc_public_key_memo_witness :
    ∃ p s1 po,
      ecc.PrivateKey.PublicKey toyPrims 0
        (ecc.run toyPrims [.GetPrivateKey (key32 1)] ecc.State.empty) = (.ok p, s1) ∧
      s1.publicKeys[p]? = some po ∧
      po.key = List.zipWith (· + ·) (key32 1) toyPrims.Basepoint ∧
      lookup s1.publicKeyMap (List.zipWith (· + ·) (key32 1) toyPrims.Basepoint) = some p ∧
      (∀ p0, lookup (ecc.run toyPrims [.GetPrivateKey (key32 1)] ecc.State.empty).publicKeyMap
          (List.zipWith (· + ·) (key32 1) toyPrims.Basepoint) = some p0 → p0 = p) ∧
      ecc.GetPublicKey (List.zipWith (· + ·) (key32 1) toyPrims.Basepoint) s1 = (.ok p, s1) ∧
      ∀ P' : Prims,
        ecc.PrivateKey.PublicKey P' 0 (ecc.run toyPrims [.GetPrivateKey (key32 2)] s1) =
          (.ok p, ecc.run toyPrims [.GetPrivateKey (key32 2)] s1) :=
  ecc_public_key_memo toyPrims toyPrims_X25519Len [.GetPrivateKey (key32 1)]
    [.GetPrivateKey (key32 2)] 0 { key := key32 1, publicKey := none }
    (List.zipWith (· + ·) (key32 1) toyPrims.Basepoint) rfl rfl

namespace ecc

/-- What a call of `getEncrypter` on an object without an encrypter does: it fails and
changes nothing, or it draws 32 bytes, derives both X25519 values and the cipher, and
stores the encrypter it returns. -/
theorem getEncrypter_fresh (P : Prims) (rnd : RandSrc) {s : State} {pk : Ptr}
    {obj : PublicKey} (hobj : s.publicKeys[pk]? = some obj) (hnone : obj.encrypter = none) :
    (∃ err, PublicKey.getEncrypter P rnd pk s = (.error err, s)) ∨
    (∃ e ephPubKey sharedKey cipher,
      randRead rnd ScalarSize = .ok e ∧ P.X25519 e P.Basepoint = .ok ephPubKey ∧
      P.X25519 e obj.key = .ok sharedKey ∧ P.chachaGet sharedKey = .ok cipher ∧
      PublicKey.getEncrypter P rnd pk s =
        (.ok { ephPubKey := ephPubKey, cipher := cipher },
          { s with
            publicKeys := s.publicKeys.set pk
              { obj with encrypter := some { ephPubKey := ephPubKey, cipher := cipher } } })) := by
  unfold PublicKey.getEncrypter
  simp only [hobj, hnone]
  cases h1 : randRead rnd ScalarSize with
  | error err => exact Or.inl ⟨err, by simp only []⟩
  | ok e =>
    simp only []
    cases h2 : P.X25519 e P.Basepoint with
    | error err => exact Or.inl ⟨err, by simp only []⟩
    | ok ephPubKey =>
      simp only []
      cases h3 : P.X25519 e obj.key with
      | error err => exact Or.inl ⟨err, by simp only []⟩
      | ok sharedKey =>
        simp only []
        cases h4 : P.chachaGet sharedKey with
        | error err => exact Or.inl ⟨err, by simp only []⟩
        | ok cipher =>
          exact Or.inr ⟨e, ephPubKey, sharedKey, cipher, rfl,
            by first | rfl | exact h2, by first | rfl | exact h3, by first | rfl | exact h4,
            by simp only []⟩

end ecc

/-- C16. In every state reached by calls into the package, for every public key object
`pk`: a call of `getEncrypter` that fails leaves the state as it was, so memoizes nothing;
a successful call on an object without an encrypter draws a 32-byte scalar `e` and stores
the encrypter it returns, whose ephemeral public key is `X25519(e, Basepoint)` and whose
cipher is the one made for `X25519(e, pub)`; and after a successful call, and any further
calls, `getEncrypter` returns that same encrypter and changes nothing, whatever the random
source and the primitives would yield then. -/
theorem encrypter_once (P : Prims) (pre mid : List ecc.Call) (pk : Ptr)
    (obj : ecc.PublicKey)
    (hobj : (ecc.run P pre ecc.State.empty).publicKeys[pk]? = some obj) :
    (∀ rnd err t,
      ecc.PublicKey.getEncrypter P rnd pk (ecc.run P pre ecc.State.empty) = (.error err, t) →
      t = ecc.run P pre ecc.State.empty) ∧
    (obj.encrypter = none → ∀ rnd enc s1,
      ecc.PublicKey.getEncrypter P rnd pk (ecc.run P pre ecc.State.empty) = (.ok enc, s1) →
      ∃ e sharedKey obj1,
        randRead rnd ecc.ScalarSize = .ok e ∧ e.length = 32 ∧
        P.X25519 e P.Basepoint = .ok enc.ephPubKey ∧
        P.X25519 e obj.key = .ok sharedKey ∧
        P.chachaGet sharedKey = .ok enc.cipher ∧
        s1.publicKeys[pk]? = some obj1 ∧ obj1.key = obj.key ∧ obj1.encrypter = some enc) ∧
    (∀ rnd enc s1,
      ecc.PublicKey.getEncrypter P rnd pk (ecc.run P pre ecc.State.empty) = (.ok enc, s1) →
      ∀ (P' : Prims) (rnd' : RandSrc),
        ecc.PublicKey.getEncrypter P' rnd' pk (ecc.run P mid s1) =
          (.ok enc, ecc.run P mid s1)) := by
  -- after a successful call the object holds the returned encrypter
  have stored : ∀ rnd enc s1,
      ecc.PublicKey.getEncrypter P rnd pk (ecc.run P pre ecc.State.empty) = (.ok enc, s1) →
      ∃ obj1, s1.publicKeys[pk]? = some obj1 ∧ obj1.key = obj.key ∧
        obj1.encrypter = some enc := by
    intro rnd enc s1 hcall
    cases hm : obj.encrypter with
    | some enc0 =>
      rw [ecc.getEncrypter_of_memo P rnd hobj hm] at hcall
      cases hcall
      exact ⟨obj, hobj, rfl, hm⟩
    | none =>
      rcases ecc.getEncrypter_fresh P rnd hobj hm with ⟨err, h⟩ |
        ⟨e, ephPubKey, sharedKey, cipher, _, _, _, _, h⟩
      · rw [h] at hcall
        cases hcall
      · rw [h] at hcall
        cases hcall
        exact ⟨{ obj with encrypter := some { ephPubKey := ephPubKey, cipher := cipher } },
          by simp [heap_get_set, heap_get_lt hobj], rfl, rfl⟩
  refine ⟨?_, ?_, ?_⟩
  · intro rnd err t hcall
    cases hm : obj.encrypter with
    | some enc0 =>
      rw [ecc.getEncrypter_of_memo P rnd hobj hm] at hcall
      cases hcall
    | none =>
      rcases ecc.getEncrypter_fresh P rnd hobj hm with ⟨err', h⟩ |
        ⟨e, ephPubKey, sharedKey, cipher, _, _, _, _, h⟩
      · rw [h] at hcall
        cases hcall
        rfl
      · rw [h] at hcall
        cases hcall
  · intro hm rnd enc s1 hcall
    obtain ⟨obj1, ho1, hk1, he1⟩ := stored rnd enc s1 hcall
    rcases ecc.getEncrypter_fresh P rnd hobj hm with ⟨err, h⟩ |
      ⟨e, ephPubKey, sharedKey, cipher, h1, h2, h3, h4, h⟩
    · rw [h] at hcall
      cases hcall
    · rw [h] at hcall
      cases hcall
      exact ⟨e, sharedKey, obj1, h1, randRead_length h1, h2, h3, h4, ho1, hk1, he1⟩
  · intro rnd enc s1 hcall P' rnd'
    obtain ⟨obj1, ho1, _, he1⟩ := stored rnd enc s1 hcall
    obtain ⟨o2, ho2, _, he2⟩ := (ecc.run_ext P mid s1).pub pk obj1 ho1
    exact ecc.getEncrypter_of_memo P' rnd' ho2 (he2 enc he1)

/-- Witness of C16: the first encrypter of the first public key of a process. -/
theorem encrypter_once_witness :
    ∃ e sharedKey obj1,
      randRead (constSrc 7) ecc.ScalarSize = .ok e ∧ e.length = 32 ∧
      toyPrims.X25519 e toyPrims.Basepoint =
        .ok (List.zipWith (· + ·) (key32 7) toyPrims.Basepoint) ∧
      toyPrims.X25519 e (key32 1) = .ok sharedKey ∧
      toyPrims.chachaGet sharedKey = .ok ⟨List.zipWith (· + ·) (key32 7) (key32 1)⟩ ∧
      (ecc.PublicKey.getEncrypter toyPrims (constSrc 7) 0
          (ecc.run toyPrims [.GetPublicKey (key32 1)] ecc.State.empty)).2.publicKeys[0]? =
        some obj1 ∧
      obj1.key = key32 1 ∧
      obj1.encrypter = some
        { ephPubKey := List.zipWith (· + ·) (key32 7) toyPrims.Basepoint,
          cipher := ⟨List.zipWith (· + ·) (key32 7) (key32 1)⟩ } :=
  (encrypter_once toyPrims [.GetPublicKey (key32 1)] [] 0
    { key := key32 1, encrypter := none } rfl).2.1 rfl (constSrc 7)
    { ephPubKey := List.zipWith (· + ·) (key32 7) toyPrims.Basepoint,
      cipher := ⟨List.zipWith (· + ·) (key32 7) (key32 1)⟩ } _ rfl

/-! ## Theorems: what a failed parse leaves behind -/

/-- What a failed call leaves behind, whatever `parseKdfSpec` is. When `ecc.GetPrivateKey`,
`ecc.GetPublicKey`, `xipher.ParsePrivateKey`, `NewPrivateKeyForPassword` or
`NewPrivateKeyForPasswordAndSpec` returns an error, the state is exactly as before the
call. When `xipher.ParsePublicKey` returns an error, the state is as before the call, or
else the error is the one `parseKdfSpec` reported on a trailing region of `kdfSpecLength`
bytes that is not all zero. -/
theorem parse_failure_cases {σ : Type} (K : xipher.KdfOps σ) (s : xipher.State σ) :
    (∀ key err t, ecc.GetPrivateKey key s.ecc = (.error err, t) → t = s.ecc) ∧
    (∀ key err t, ecc.GetPublicKey key s.ecc = (.error err, t) → t = s.ecc) ∧
    (∀ key err t, xipher.ParsePrivateKey key s = (.error err, t) → t = s) ∧
    (∀ rnd password err t,
      xipher.NewPrivateKeyForPassword K rnd password s = (.error err, t) → t = s) ∧
    (∀ rnd password i m th err t,
      xipher.NewPrivateKeyForPasswordAndSpec K rnd password i m th s = (.error err, t) →
      t = s) ∧
    (∀ b err t, xipher.ParsePublicKey K b s = (.error err, t) →
      t = s ∨
      (b.length = xipher.PublicKeyLength K ∧
        b.drop xipher.cipherKeyLength ≠ List.replicate K.kdfSpecLength 0 ∧
        K.parseKdfSpec (b.drop xipher.cipherKeyLength) = .error err ∧
        t = { s with ecc := (ecc.GetPublicKey (b.take xipher.cipherKeyLength) s.ecc).2 })) := by
  have pwd : ∀ password spec err t,
      xipher.newPrivateKeyForPwdAndSpec K password spec s = (.error err, t) → t = s := by
    intro password spec err t h
    unfold xipher.newPrivateKeyForPwdAndSpec at h
    split at h
    · cases h
      rfl
    · split at h <;> cases h
  refine ⟨?_, ?_, ?_, ?_, ?_, ?_⟩
  · intro key err t h
    unfold ecc.GetPrivateKey at h
    split at h
    · cases h
      rfl
    · split at h <;> cases h
  · intro key err t h
    unfold ecc.GetPublicKey at h
    split at h
    · cases h
      rfl
    · split at h <;> cases h
  · intro key err t h
    unfold xipher.ParsePrivateKey at h
    split at h
    · cases h
      rfl
    · split at h <;> cases h
  · intro rnd password err t h
    unfold xipher.NewPrivateKeyForPassword at h
    split at h
    · cases h
      rfl
    · exact pwd _ _ _ _ h
  · intro rnd password i m th err t h
    unfold xipher.NewPrivateKeyForPasswordAndSpec at h
    split at h
    · cases h
      rfl
    · exact pwd _ _ _ _ h
  · intro b err t h
    unfold xipher.ParsePublicKey at h
    split at h
    · cases h
      exact Or.inl rfl
    · rename_i hlen
      have hlen' : b.length = xipher.PublicKeyLength K := by simpa using hlen
      have hdrop : (b.drop xipher.cipherKeyLength).length = K.kdfSpecLength := by
        rw [List.length_drop, hlen', xipher.PublicKeyLength]
        omega
      have htake : (b.drop xipher.cipherKeyLength).take K.kdfSpecLength =
          b.drop xipher.cipherKeyLength := List.take_of_length_le (Nat.le_of_eq hdrop)
      split at h
      · rename_i err1 e1 h1
        -- `ecc.GetPublicKey` changes nothing when it fails
        cases h
        left
        have : e1 = s.ecc := by
          unfold ecc.GetPublicKey at h1
          split at h1
          · cases h1
            rfl
          · split at h1 <;> cases h1
        rw [this]
      · rename_i eccPubKey e1 h1
        have he1 : e1 = (ecc.GetPublicKey (b.take xipher.cipherKeyLength) s.ecc).2 := by
          rw [h1]
        simp only [htake] at h
        rw [if_neg (by omega)] at h
        split at h
        · rename_i hnz
          split at h
          · rename_i err2 hp
            cases h
            right
            exact ⟨hlen', hnz, hp, by rw [he1]⟩
          · cases h
        · cases h

/-- The spec-modelled `parseKdfSpec` reads every region of 19 bytes. -/
theorem toyKdf_parse_region (b : Bytes) (h : b.length = toyKdf.kdfSpecLength) :
    ∃ sp, toyKdf.parseKdfSpec b = .ok sp := by
  have h19 : b.length = 19 := h
  exact ⟨_, dif_pos h19⟩

/-- C13. Whenever `ecc.GetPrivateKey`, `ecc.GetPublicKey`, `xipher.ParsePrivateKey`,
`xipher.ParsePublicKey`, `NewPrivateKeyForPassword` or `NewPrivateKeyForPasswordAndSpec`
returns an error, the state, with every interning registry in it, is exactly as it was
before the call. The helper `parseKdfSpec` is not among the sources; it is taken to read
every region of `kdfSpecLength` bytes, the only length `ParsePublicKey` hands it, so that
`ParsePublicKey` fails on a wrong length only, before `ecc.GetPublicKey` runs. -/
theorem failed_parse_state {σ : Type} (K : xipher.KdfOps σ)
    (hparse : ∀ b : Bytes, b.length = K.kdfSpecLength → ∃ sp, K.parseKdfSpec b = .ok sp)
    (s : xipher.State σ) :
    (∀ key err t, ecc.GetPrivateKey key s.ecc = (.error err, t) → t = s.ecc) ∧
    (∀ key err t, ecc.GetPublicKey key s.ecc = (.error err, t) → t = s.ecc) ∧
    (∀ key err t, xipher.ParsePrivateKey key s = (.error err, t) → t = s) ∧
    (∀ rnd password err t,
      xipher.NewPrivateKeyForPassword K rnd password s = (.error err, t) → t = s) ∧
    (∀ rnd password i m th err t,
      xipher.NewPrivateKeyForPasswordAndSpec K rnd password i m th s = (.error err, t) →
      t = s) ∧
    (∀ b err t, xipher.ParsePublicKey K b s = (.error err, t) → t = s) := by
  obtain ⟨h1, h2, h3, h4, h5, h6⟩ := parse_failure_cases K s
  refine ⟨h1, h2, h3, h4, h5, ?_⟩
  intro b err t h
  rcases h6 b err t h with ht | ⟨hlen, _, hp, _⟩
  · exact ht
  · exfalso
    have hdrop : (b.drop xipher.cipherKeyLength).length = K.kdfSpecLength := by
      rw [List.length_drop, hlen, xipher.PublicKeyLength]
      omega
    obtain ⟨sp, hsp⟩ := hparse _ hdrop
    rw [hsp] at hp
    cases hp

/-- Witness of C13: a public key encoding of 32 bytes, 19 short, is refused and leaves the
state of a process that holds one key as it was. -/
theorem failed_parse_state_witness :
    (xipher.ParsePublicKey toyKdf (key32 1)
        (xipher.run toyKdf toyPrims [.ParsePrivateKey (key32 5)] xipher.State.empty)).1 =
      .error (.invalidPublicKeyLength 51 32) ∧
    (xipher.ParsePublicKey toyKdf (key32 1)
        (xipher.run toyKdf toyPrims [.ParsePrivateKey (key32 5)] xipher.State.empty)).2 =
      xipher.run toyKdf toyPrims [.ParsePrivateKey (key32 5)] xipher.State.empty :=
  ⟨rfl, (failed_parse_state toyKdf toyKdf_parse_region
    (xipher.run toyKdf toyPrims [.ParsePrivateKey (key32 5)] xipher.State.empty)).2.2.2.2.2
      (key32 1) _ _ rfl⟩

/-! ## Lemmas: the invariant of a process that uses `asx` -/

namespace asx

variable {κ π : Type}

theorem eccMemo_mono {P : Prims} {e e' : ecc.State} (h : ecc.Inv P e) (h' : ecc.Inv P e')
    (hx : ecc.Ext e e') {k : Bytes} {q : Ptr} (hm : EccMemo e k q) : EccMemo e' k q := by
  obtain ⟨ep, eo, hl, ho, hq⟩ := hm
  obtain ⟨eo', ho', _, hq'⟩ := hx.priv ep eo ho
  exact ⟨ep, eo', ecc.ext_priv_map h h' hx hl, ho', hq' q hq⟩

theorem privOk_mono (E : Env κ π) {P : Prims} {e e' : ecc.State} (h : ecc.Inv P e)
    (h' : ecc.Inv P e') (hx : ecc.Ext e e') {pubs pubs' : List PublicKey}
    (hp : ∀ (i : Ptr) (po : PublicKey), pubs[i]? = some po → pubs'[i]? = some po)
    {o : PrivateKey} (ho : PrivOk E e pubs o) : PrivOk E e' pubs' o := by
  obtain ⟨h1, h2, h3⟩ := ho
  refine ⟨fun ep hep => ecc.ext_priv_map h h' hx (h1 ep hep), ?_, ?_⟩
  · intro pub hpub
    obtain ⟨q, hq, hm⟩ := h2 pub hpub
    exact ⟨q, hp _ _ hq, eccMemo_mono h h' hx hm⟩
  · intro pub hpub
    obtain ⟨k, hk⟩ := h3 pub hpub
    exact ⟨k, hp _ _ hk⟩

theorem pubOk_mono {e e' : ecc.State} (hx : ecc.Ext e e') {kybs kybs' : List π}
    (hk : kybs.length ≤ kybs'.length) {po : PublicKey} (h : PubOk e kybs po) :
    PubOk e' kybs' po := by
  rcases h with ⟨q, hq, eo, heo⟩ | ⟨k, hk1, hk2⟩
  · obtain ⟨eo', heo', _⟩ := hx.pub q eo heo
    exact Or.inl ⟨q, hq, eo', heo'⟩
  · exact Or.inr ⟨k, hk1, Nat.lt_of_lt_of_le hk2 hk⟩

theorem privLater_refl (o : PrivateKey) : PrivLater o o :=
  ⟨rfl, fun _ h => h, fun _ h => h, fun _ h => h⟩

theorem privLater_trans {a b c : PrivateKey} (h1 : PrivLater a b) (h2 : PrivLater b c) :
    PrivLater a c :=
  ⟨h2.1.trans h1.1, fun x h => h2.2.1 x (h1.2.1 x h), fun x h => h2.2.2.1 x (h1.2.2.1 x h),
    fun x h => h2.2.2.2 x (h1.2.2.2 x h)⟩

theorem aext_refl (s : State κ π) : Ext s s :=
  ⟨ecc.ext_refl s.ecc, fun _ o h => ⟨o, h, privLater_refl o⟩, fun _ _ h => h, fun _ _ h => h⟩

theorem aext_trans {s t u : State κ π} (h1 : Ext s t) (h2 : Ext t u) : Ext s u := by
  refine ⟨ecc.ext_trans h1.ecc h2.ecc, ?_, fun i po h => h2.pub i po (h1.pub i po h),
    fun k x h => h2.kyb k x (h1.kyb k x h)⟩
  intro p o h
  obtain ⟨o1, ho1, hl1⟩ := h1.priv p o h
  obtain ⟨o2, ho2, hl2⟩ := h2.priv p o1 ho1
  exact ⟨o2, ho2, privLater_trans hl1 hl2⟩

theorem ainv_start (E : Env κ π) (P : Prims) : Inv E P (State.empty : State κ π) := by
  refine ⟨ecc.inv_empty P, ?_, ?_⟩ <;> simp [State.empty]

theorem astep_refl (E : Env κ π) (P : Prims) (s : State κ π) : Step E P s s :=
  ⟨id, aext_refl s, fun _ h => h⟩

theorem astep_trans {E : Env κ π} {P : Prims} {s t u : State κ π} (h1 : Step E P s t)
    (h2 : Step E P t u) : Step E P s u :=
  ⟨fun h => h2.1 (h1.1 h), aext_trans h1.2.1 h2.2.1, fun hX h => h2.2.2 hX (h1.2.2 hX h)⟩

/-- A change of the `ecc` part alone, by calls into `ecc`, is a step. -/
theorem astep_eccRun (E : Env κ π) (P : Prims) (s : State κ π) (cs : List ecc.Call) :
    Step E P s { s with ecc := ecc.run P cs s.ecc } := by
  refine ⟨?_, ⟨ecc.run_ext P cs s.ecc, fun _ o h => ⟨o, h, privLater_refl o⟩, fun _ _ h => h,
    fun _ _ h => h⟩, fun hX h => ecc.run_publen hX cs h⟩
  intro h
  have he := ecc.run_inv cs h.ecc
  have hx := ecc.run_ext P cs s.ecc
  exact ⟨he, fun p o ho => privOk_mono E h.ecc he hx (fun _ _ hh => hh) (h.priv p o ho),
    fun i po hpo => pubOk_mono hx (Nat.le_refl _) (h.pub i po hpo)⟩

/-- A private key object that has no memoized field satisfies the invariant. -/
theorem privOk_fresh (E : Env κ π) (e : ecc.State) (pubs : List PublicKey) (key : Bytes) :
    PrivOk E e pubs
      { key := key, eccPrivKey := none, kybPrivKey := none, pubKeyECC := none,
        pubKeyKyb := none } :=
  ⟨fun _ h => (by cases h), fun _ h => (by cases h), fun _ h => (by cases h)⟩

theorem ParsePrivateKeyIn_step (E : Env κ π) (P : Prims) (key : Bytes) (s : State κ π) :
    Step E P s (ParsePrivateKeyIn key s).2 := by
  unfold ParsePrivateKeyIn ParsePrivateKey
  split
  · exact astep_refl E P s
  · rename_i obj hobj
    split at hobj
    · cases hobj
    · cases hobj
      refine ⟨?_, ⟨ecc.ext_refl s.ecc, fun _ o h => ⟨o, xipher.heap_alloc_old h, privLater_refl o⟩,
        fun _ _ h => h, fun _ _ h => h⟩, fun _ h => h⟩
      intro h
      refine ⟨h.ecc, ?_, h.pub⟩
      intro p o ho
      simp only [heap_get_alloc] at ho
      split at ho
      · cases ho
        exact privOk_fresh E _ _ key
      · exact h.priv p o ho

theorem asx_NewPrivateKey_step (E : Env κ π) (P : Prims) (rnd : RandSrc) (s : State κ π) :
    Step E P s (NewPrivateKey rnd s).2 := by
  unfold NewPrivateKey
  split
  · exact astep_refl E P s
  · exact ParsePrivateKeyIn_step E P _ s

end asx

namespace ecc

/-- A successful `GetPrivateKey` leaves the bytes registered under the returned object. -/
theorem GetPrivateKey_registered (key : Bytes) (s : State) (p : Ptr)
    (h : (GetPrivateKey key s).1 = .ok p) :
    lookup (GetPrivateKey key s).2.privateKeyMap key = some p := by
  unfold GetPrivateKey at h ⊢
  split
  · rename_i hlen
    rw [if_pos hlen] at h
    cases h
  · rename_i hlen
    rw [if_neg hlen] at h
    split
    · rename_i q hq
      rw [hq] at h
      cases h
      exact hq
    · rename_i hq
      rw [hq] at h
      cases h
      simp [lookup_store]

/-- A failed `GetPublicKey` changes nothing. -/
theorem GetPublicKey_error (key : Bytes) (s t : State) (err : Err)
    (h : GetPublicKey key s = (.error err, t)) : t = s ∧ err = .errInvalidKeyLength ∧
      key.length ≠ 32 := by
  unfold GetPublicKey at h
  split at h
  · rename_i hlen
    cases h
    exact ⟨rfl, rfl, by simpa [ScalarSize] using hlen⟩
  · split at h <;> cases h

/-- After a successful `(*PrivateKey).PublicKey` the private key object holds the returned
pointer. -/
theorem PublicKey_ok_memo (P : Prims) {s t : State} {q p : Ptr}
    (hr : PrivateKey.PublicKey P q s = (.ok p, t)) :
    ∃ obj1, t.privateKeys[q]? = some obj1 ∧ obj1.publicKey = some p := by
  rcases PublicKey_cases P q s with ⟨heq, hmemo⟩ | ⟨obj, key, pubKey, hobj, hnone, hx, hl, heq⟩ |
    ⟨obj, key, hobj, hnone, hx, hl, heq⟩
  · rw [hr] at heq hmemo
    obtain ⟨obj, hobj, hq⟩ := hmemo p rfl
    cases heq
    exact ⟨obj, hobj, hq⟩
  · rw [hr] at heq
    cases heq
    exact ⟨{ obj with publicKey := some p }, by simp [heap_get_set, heap_get_lt hobj], rfl⟩
  · rw [hr] at heq
    cases heq
    exact ⟨{ obj with publicKey := some s.publicKeys.length },
      by simp [heap_get_set, heap_get_lt hobj], rfl⟩

end ecc

namespace asx

variable {κ π : Type}

/-- The SHA-256 of a seed is always accepted by `ecc.ParsePrivateKey`. -/
theorem parse_sha_ok (E : Env κ π) (key : Bytes) (e : ecc.State) :
    ∃ ep, (ecc.GetPrivateKey (E.Sum256 key).val e).1 = .ok ep ∧
      lookup (ecc.GetPrivateKey (E.Sum256 key).val e).2.privateKeyMap (E.Sum256 key).val =
        some ep :=
  ecc.GetPrivateKey_ok _ e (E.Sum256 key).property

/-- The ways `getEccPrivKey` can end: nothing changes (a returned pointer is then the
memoized one), or the SHA-256 of the seed is interned as an `ecc` private key and
memoized. -/
theorem getEccPrivKey_cases (E : Env κ π) (p : Ptr) (s : State κ π) :
    ((PrivateKey.getEccPrivKey E p s).2 = s ∧
      ∀ ep, (PrivateKey.getEccPrivKey E p s).1 = .ok ep →
        ∃ obj, s.privateKeys[p]? = some obj ∧ obj.eccPrivKey = some ep) ∨
    (∃ obj ep e1, s.privateKeys[p]? = some obj ∧ obj.eccPrivKey = none ∧
      ecc.GetPrivateKey (E.Sum256 obj.key).val s.ecc = (.ok ep, e1) ∧
      PrivateKey.getEccPrivKey E p s =
        (.ok ep,
          { s with
            ecc := e1
            privateKeys := s.privateKeys.set p { obj with eccPrivKey := some ep } })) := by
  unfold PrivateKey.getEccPrivKey ecc.ParsePrivateKey
  split
  · exact Or.inl ⟨rfl, fun ep h => by cases h⟩
  · rename_i obj hobj
    split
    · rename_i ep hmemo
      refine Or.inl ⟨rfl, fun ep' h => ?_⟩
      cases h
      exact ⟨obj, hobj, hmemo⟩
    · rename_i hnone
      split
      · rename_i err e1 h1
        exfalso
        obtain ⟨ep, hep, _⟩ := parse_sha_ok E obj.key s.ecc
        rw [h1] at hep
        cases hep
      · rename_i ep e1 h1
        exact Or.inr ⟨obj, ep, e1, hobj, hnone, h1, rfl⟩

theorem getEccPrivKey_step (E : Env κ π) (P : Prims) (p : Ptr) (s : State κ π) :
    Step E P s (PrivateKey.getEccPrivKey E p s).2 := by
  rcases getEccPrivKey_cases E p s with ⟨heq, _⟩ | ⟨obj, ep, e1, hobj, hnone, h1, heq⟩
  · rw [heq]; exact astep_refl E P s
  · rw [heq]
    have he1 : e1 = (ecc.GetPrivateKey (E.Sum256 obj.key).val s.ecc).2 := by rw [h1]
    have hr1 : (ecc.GetPrivateKey (E.Sum256 obj.key).val s.ecc).1 = .ok ep := by rw [h1]
    have hx : ecc.Ext s.ecc e1 := by rw [he1]; exact ecc.GetPrivateKey_ext _ _
    refine ⟨?_, ⟨hx, ?_, fun _ _ h => h, fun _ _ h => h⟩, ?_⟩
    · intro h
      have hi1 : ecc.Inv P e1 := by rw [he1]; exact ecc.GetPrivateKey_inv _ h.ecc
      have hreg : lookup e1.privateKeyMap (E.Sum256 obj.key).val = some ep := by
        rw [he1]
        exact ecc.GetPrivateKey_registered _ _ _ hr1
      refine ⟨hi1, ?_, fun i po hpo => pubOk_mono hx (Nat.le_refl _) (h.pub i po hpo)⟩
      intro p' o ho
      simp only [heap_get_set] at ho
      split at ho
      · cases ho
        have hold := privOk_mono E h.ecc hi1 hx (fun _ _ hh => hh) (h.priv p obj hobj)
        refine ⟨?_, hold.2.1, hold.2.2⟩
        intro ep' hep'
        cases hep'
        exact hreg
      · exact privOk_mono E h.ecc hi1 hx (fun _ _ hh => hh) (h.priv p' o ho)
    · intro p' o ho
      simp only [heap_get_set]
      by_cases hp : p = p' ∧ p' < s.privateKeys.length
      · rw [if_pos hp]
        obtain ⟨rfl, _⟩ := hp
        rw [hobj] at ho
        cases ho
        refine ⟨_, rfl, rfl, ?_, fun _ h => h, fun _ h => h⟩
        intro x hx'
        rw [hnone] at hx'
        cases hx'
      · rw [if_neg hp]
        exact ⟨o, ho, privLater_refl o⟩
    · intro hX h
      show ecc.PubLen e1
      rw [he1]
      exact ecc.GetPrivateKey_publen _ h

/-- A change of the heap of `kyb` private keys and of the field `kybPrivKey` of one
private key object keeps the invariant and extends the state. -/
theorem getKybPrivKey_step (E : Env κ π) (P : Prims) (p : Ptr) (s : State κ π) :
    Step E P s (PrivateKey.getKybPrivKey E p s).2 := by
  unfold PrivateKey.getKybPrivKey
  split
  · exact astep_refl E P s
  · rename_i obj hobj
    split
    · exact astep_refl E P s
    · split
      · exact astep_refl E P s
      · rename_i k hk
        refine ⟨?_, ⟨ecc.ext_refl s.ecc, ?_, fun _ _ h => h, fun _ _ h => h⟩, fun _ h => h⟩
        · intro h
          refine ⟨h.ecc, ?_, h.pub⟩
          intro p' o ho
          simp only [heap_get_set] at ho
          split at ho
          · cases ho
            exact h.priv p obj hobj
          · exact h.priv p' o ho
        · intro p' o ho
          simp only [heap_get_set]
          by_cases hp : p = p' ∧ p' < s.privateKeys.length
          · rw [if_pos hp]
            obtain ⟨rfl, _⟩ := hp
            rw [hobj] at ho
            cases ho
            exact ⟨_, rfl, rfl, fun _ h => h, fun _ h => h, fun _ h => h⟩
          · rw [if_neg hp]
            exact ⟨o, ho, privLater_refl o⟩

end asx

namespace asx

variable {κ π : Type}

/-- The ways `PublicKeyECC` can end: nothing changes (a returned pointer is then the
memoized one); an error after calls into `ecc`; or the classical sub-key is interned, its
public key derived, and a new public key object with only `ePub` set is memoized. -/
theorem PublicKeyECC_cases (E : Env κ π) (P : Prims) (p : Ptr) (s : State κ π) :
    ((PrivateKey.PublicKeyECC E P p s).2 = s ∧
      ∀ pub, (PrivateKey.PublicKeyECC E P p s).1 = .ok pub →
        ∃ obj, s.privateKeys[p]? = some obj ∧ obj.pubKeyECC = some pub) ∨
    (∃ err cs, PrivateKey.PublicKeyECC E P p s =
      (.error err, { s with ecc := ecc.run P cs s.ecc })) ∨
    (∃ obj ep q e1 e2, s.privateKeys[p]? = some obj ∧ obj.pubKeyECC = none ∧
      ecc.GetPrivateKey (E.Sum256 obj.key).val s.ecc = (.ok ep, e1) ∧
      ecc.PrivateKey.PublicKey P ep e1 = (.ok q, e2) ∧
      PrivateKey.PublicKeyECC E P p s =
        (.ok s.publicKeys.length,
          { s with
            ecc := e2
            publicKeys := s.publicKeys ++ [{ ePub := some q, kPub := none }]
            privateKeys :=
              s.privateKeys.set p { obj with pubKeyECC := some s.publicKeys.length } })) := by
  unfold PrivateKey.PublicKeyECC ecc.ParsePrivateKey
  split
  · exact Or.inl ⟨rfl, fun pub h => by cases h⟩
  · rename_i obj hobj
    split
    · rename_i pub hmemo
      refine Or.inl ⟨rfl, fun pub' h => ?_⟩
      cases h
      exact ⟨obj, hobj, hmemo⟩
    · rename_i hnone
      split
      · rename_i err e1 h1
        refine Or.inr (Or.inl ⟨err, [.GetPrivateKey (E.Sum256 obj.key).val], ?_⟩)
        simp [ecc.run, ecc.Call.exec, h1]
      · rename_i ep e1 h1
        split
        · rename_i err e2 h2
          refine Or.inr (Or.inl
            ⟨err, [.GetPrivateKey (E.Sum256 obj.key).val, .PublicKey ep], ?_⟩)
          simp [ecc.run, ecc.Call.exec, h1, h2]
        · rename_i q e2 h2
          exact Or.inr (Or.inr ⟨obj, ep, q, e1, e2, hobj, hnone, h1, h2, rfl⟩)

theorem PublicKeyECC_step (E : Env κ π) (P : Prims) (p : Ptr) (s : State κ π) :
    Step E P s (PrivateKey.PublicKeyECC E P p s).2 := by
  rcases PublicKeyECC_cases E P p s with ⟨heq, _⟩ | ⟨err, cs, heq⟩ |
    ⟨obj, ep, q, e1, e2, hobj, hnone, h1, h2, heq⟩
  · rw [heq]; exact astep_refl E P s
  · rw [heq]; exact astep_eccRun E P s cs
  · rw [heq]
    have he1 : e1 = (ecc.GetPrivateKey (E.Sum256 obj.key).val s.ecc).2 := by rw [h1]
    have hr1 : (ecc.GetPrivateKey (E.Sum256 obj.key).val s.ecc).1 = .ok ep := by rw [h1]
    have he2 : e2 = (ecc.PrivateKey.PublicKey P ep e1).2 := by rw [h2]
    have hx1 : ecc.Ext s.ecc e1 := by rw [he1]; exact ecc.GetPrivateKey_ext _ _
    have hx12 : ecc.Ext e1 e2 := by rw [he2]; exact ecc.PublicKey_ext P ep e1
    have hx : ecc.Ext s.ecc e2 := ecc.ext_trans hx1 hx12
    have hold : ∀ (i : Ptr) (po : PublicKey), s.publicKeys[i]? = some po →
        (s.publicKeys ++ [{ ePub := some q, kPub := none }])[i]? = some po :=
      fun _ _ hh => xipher.heap_alloc_old hh
    refine ⟨?_, ⟨hx, ?_, hold, fun _ _ h => h⟩, ?_⟩
    · intro h
      have hi1 : ecc.Inv P e1 := by rw [he1]; exact ecc.GetPrivateKey_inv _ h.ecc
      have hi2 : ecc.Inv P e2 := by rw [he2]; exact ecc.PublicKey_inv _ hi1
      have hreg1 : lookup e1.privateKeyMap (E.Sum256 obj.key).val = some ep := by
        rw [he1]
        exact ecc.GetPrivateKey_registered _ _ _ hr1
      have hmemo : EccMemo e2 (E.Sum256 obj.key).val q := by
        obtain ⟨eo, heo, hq⟩ := ecc.PublicKey_ok_memo P h2
        exact ⟨ep, eo, ecc.ext_priv_map hi1 hi2 hx12 hreg1, heo, hq⟩
      refine ⟨hi2, ?_, ?_⟩
      · intro p' o ho
        simp only [heap_get_set] at ho
        split at ho
        · cases ho
          have hobjOk := privOk_mono E h.ecc hi2 hx hold (h.priv p obj hobj)
          refine ⟨hobjOk.1, ?_, hobjOk.2.2⟩
          intro pub hpub
          cases hpub
          exact ⟨q, by simp, hmemo⟩
        · exact privOk_mono E h.ecc hi2 hx hold (h.priv p' o ho)
      · intro i po hpo
        simp only [heap_get_alloc] at hpo
        split at hpo
        · cases hpo
          exact Or.inl ⟨q, rfl, ecc.PublicKey_ok_obj hi1 ep q h2⟩
        · exact pubOk_mono hx (Nat.le_refl _) (h.pub i po hpo)
    · intro p' o ho
      simp only [heap_get_set]
      by_cases hp : p = p' ∧ p' < s.privateKeys.length
      · rw [if_pos hp]
        obtain ⟨rfl, _⟩ := hp
        rw [hobj] at ho
        cases ho
        refine ⟨_, rfl, rfl, fun _ h => h, ?_, fun _ h => h⟩
        intro x hx'
        rw [hnone] at hx'
        cases hx'
      · rw [if_neg hp]
        exact ⟨o, ho, privLater_refl o⟩
    · intro hX h
      show ecc.PubLen e2
      rw [he2]
      refine ecc.PublicKey_publen hX _ ?_
      rw [he1]
      exact ecc.GetPrivateKey_publen _ h

/-- The ways `PublicKeyKyber` can end: nothing changes (a returned pointer is then the
memoized one, or the call failed), or a new public key object with only `kPub` set is
memoized. -/
theorem PublicKeyKyber_cases (E : Env κ π) (p : Ptr) (s : State κ π) :
    ((PrivateKey.PublicKeyKyber E p s).2 = s ∧
      ∀ pub, (PrivateKey.PublicKeyKyber E p s).1 = .ok pub →
        ∃ obj, s.privateKeys[p]? = some obj ∧ obj.pubKeyKyb = some pub) ∨
    (∃ obj x, s.privateKeys[p]? = some obj ∧ obj.pubKeyKyb = none ∧
      PrivateKey.PublicKeyKyber E p s =
        (.ok s.publicKeys.length,
          { s with
            kybPublicKeys := s.kybPublicKeys ++ [x]
            publicKeys :=
              s.publicKeys ++ [{ ePub := none, kPub := some s.kybPublicKeys.length }]
            privateKeys :=
              s.privateKeys.set p { obj with pubKeyKyb := some s.publicKeys.length } })) := by
  unfold PrivateKey.PublicKeyKyber
  split
  · exact Or.inl ⟨rfl, fun pub h => by cases h⟩
  · rename_i obj hobj
    split
    · rename_i pub hmemo
      refine Or.inl ⟨rfl, fun pub' h => ?_⟩
      cases h
      exact ⟨obj, hobj, hmemo⟩
    · rename_i hnone
      split
      · exact Or.inl ⟨rfl, fun pub h => by cases h⟩
      · split
        · exact Or.inl ⟨rfl, fun pub h => by cases h⟩
        · rename_i x hx
          exact Or.inr ⟨obj, x, hobj, hnone, rfl⟩

theorem PublicKeyKyber_step (E : Env κ π) (P : Prims) (p : Ptr) (s : State κ π) :
    Step E P s (PrivateKey.PublicKeyKyber E p s).2 := by
  rcases PublicKeyKyber_cases E p s with ⟨heq, _⟩ | ⟨obj, x, hobj, hnone, heq⟩
  · rw [heq]; exact astep_refl E P s
  · rw [heq]
    have hold : ∀ (i : Ptr) (po : PublicKey), s.publicKeys[i]? = some po →
        (s.publicKeys ++ [{ ePub := none, kPub := some s.kybPublicKeys.length }])[i]? =
          some po :=
      fun _ _ hh => xipher.heap_alloc_old hh
    refine ⟨?_, ⟨ecc.ext_refl s.ecc, ?_, hold, fun _ _ h => xipher.heap_alloc_old h⟩,
      fun _ h => h⟩
    · intro h
      refine ⟨h.ecc, ?_, ?_⟩
      · intro p' o ho
        simp only [heap_get_set] at ho
        split at ho
        · cases ho
          have hobjOk := privOk_mono E h.ecc h.ecc (ecc.ext_refl s.ecc) hold (h.priv p obj hobj)
          refine ⟨hobjOk.1, hobjOk.2.1, ?_⟩
          intro pub hpub
          cases hpub
          exact ⟨s.kybPublicKeys.length, by simp⟩
        · exact privOk_mono E h.ecc h.ecc (ecc.ext_refl s.ecc) hold (h.priv p' o ho)
      · intro i po hpo
        simp only [heap_get_alloc] at hpo
        split at hpo
        · cases hpo
          exact Or.inr ⟨s.kybPublicKeys.length, rfl, by simp⟩
        · exact pubOk_mono (ecc.ext_refl s.ecc) (by simp) (h.pub i po hpo)
    · intro p' o ho
      simp only [heap_get_set]
      by_cases hp : p = p' ∧ p' < s.privateKeys.length
      · rw [if_pos hp]
        obtain ⟨rfl, _⟩ := hp
        rw [hobj] at ho
        cases ho
        refine ⟨_, rfl, rfl, fun _ h => h, fun _ h => h, ?_⟩
        intro x' hx'
        rw [hnone] at hx'
        cases hx'
      · rw [if_neg hp]
        exact ⟨o, ho, privLater_refl o⟩

end asx

namespace asx

variable {κ π : Type}

/-- The ways `ParsePublicKey` can end: an error, which leaves the state as it was; a
classical key, whose payload `ecc` interns; or a post-quantum key, decoded by `kyb`. -/
theorem asx_ParsePublicKey_cases (E : Env κ π) (key : Bytes) (s : State κ π) :
    (∃ err, ParsePublicKey E key s = (.error err, s)) ∨
    (∃ payload q e1, key = E.AlgoECC :: payload ∧
      ecc.GetPublicKey payload s.ecc = (.ok q, e1) ∧
      ParsePublicKey E key s =
        (.ok s.publicKeys.length,
          { s with
            ecc := e1
            publicKeys := s.publicKeys ++ [{ ePub := some q, kPub := none }] })) ∨
    (∃ tag payload x, key = tag :: payload ∧ tag ≠ E.AlgoECC ∧ tag = E.AlgoKyber ∧
      E.kybParsePublicKey payload = .ok x ∧
      ParsePublicKey E key s =
        (.ok s.publicKeys.length,
          { s with
            kybPublicKeys := s.kybPublicKeys ++ [x]
            publicKeys :=
              s.publicKeys ++ [{ ePub := none, kPub := some s.kybPublicKeys.length }] })) := by
  unfold ParsePublicKey ecc.ParsePublicKey
  split
  · exact Or.inl ⟨_, rfl⟩
  · split
    · exact Or.inl ⟨_, rfl⟩
    · rename_i tag payload _
      split
      · rename_i htag
        split
        · rename_i err e1 h1
          obtain ⟨rfl, _, _⟩ := ecc.GetPublicKey_error payload s.ecc e1 err h1
          exact Or.inl ⟨err, rfl⟩
        · rename_i q e1 h1
          exact Or.inr (Or.inl ⟨payload, q, e1, by rw [htag], h1, rfl⟩)
      · rename_i htag
        split
        · rename_i hk
          split
          · exact Or.inl ⟨_, rfl⟩
          · rename_i x hx
            exact Or.inr (Or.inr ⟨tag, payload, x, rfl, htag, hk, hx, rfl⟩)
        · exact Or.inl ⟨_, rfl⟩

theorem asx_ParsePublicKey_step (E : Env κ π) (P : Prims) (key : Bytes) (s : State κ π) :
    Step E P s (ParsePublicKey E key s).2 := by
  rcases asx_ParsePublicKey_cases E key s with ⟨err, heq⟩ | ⟨payload, q, e1, _, h1, heq⟩ |
    ⟨tag, payload, x, _, _, _, _, heq⟩
  · rw [heq]; exact astep_refl E P s
  · rw [heq]
    have he1 : e1 = (ecc.GetPublicKey payload s.ecc).2 := by rw [h1]
    have hr1 : (ecc.GetPublicKey payload s.ecc).1 = .ok q := by rw [h1]
    have hx : ecc.Ext s.ecc e1 := by rw [he1]; exact ecc.GetPublicKey_ext _ _
    have hold : ∀ (i : Ptr) (po : PublicKey), s.publicKeys[i]? = some po →
        (s.publicKeys ++ [{ ePub := some q, kPub := none }])[i]? = some po :=
      fun _ _ hh => xipher.heap_alloc_old hh
    refine ⟨?_, ⟨hx, fun p o ho => ⟨o, ho, privLater_refl o⟩, hold, fun _ _ h => h⟩, ?_⟩
    · intro h
      have hi1 : ecc.Inv P e1 := by rw [he1]; exact ecc.GetPublicKey_inv _ h.ecc
      refine ⟨hi1, fun p o ho => privOk_mono E h.ecc hi1 hx hold (h.priv p o ho), ?_⟩
      intro i po hpo
      simp only [heap_get_alloc] at hpo
      split at hpo
      · cases hpo
        have hreg : lookup e1.publicKeyMap payload = some q := by
          rw [he1]; exact ecc.GetPublicKey_registered _ _ _ hr1
        obtain ⟨eo, heo, _⟩ := hi1.pub_map _ _ hreg
        exact Or.inl ⟨q, rfl, eo, heo⟩
      · exact pubOk_mono hx (Nat.le_refl _) (h.pub i po hpo)
    · intro _ h
      show ecc.PubLen e1
      rw [he1]
      exact ecc.GetPublicKey_publen _ h
  · rw [heq]
    have hold : ∀ (i : Ptr) (po : PublicKey), s.publicKeys[i]? = some po →
        (s.publicKeys ++ [{ ePub := none, kPub := some s.kybPublicKeys.length }])[i]? =
          some po :=
      fun _ _ hh => xipher.heap_alloc_old hh
    refine ⟨?_, ⟨ecc.ext_refl s.ecc, fun p o ho => ⟨o, ho, privLater_refl o⟩, hold,
      fun _ _ h => xipher.heap_alloc_old h⟩, fun _ h => h⟩
    intro h
    refine ⟨h.ecc,
      fun p o ho => privOk_mono E h.ecc h.ecc (ecc.ext_refl s.ecc) hold (h.priv p o ho), ?_⟩
    intro i po hpo
    simp only [heap_get_alloc] at hpo
    split at hpo
    · cases hpo
      exact Or.inr ⟨s.kybPublicKeys.length, rfl, by simp⟩
    · exact pubOk_mono (ecc.ext_refl s.ecc) (by simp) (h.pub i po hpo)

theorem asx_exec_step (E : Env κ π) (P : Prims) (c : Call) (s : State κ π) :
    Step E P s (c.exec E P s) := by
  cases c with
  | ecc c => exact astep_eccRun E P s [c]
  | NewPrivateKey rnd => exact asx_NewPrivateKey_step E P rnd s
  | ParsePrivateKey key => exact ParsePrivateKeyIn_step E P key s
  | getEccPrivKey p => exact getEccPrivKey_step E P p s
  | getKybPrivKey p => exact getKybPrivKey_step E P p s
  | PublicKeyECC p => exact PublicKeyECC_step E P p s
  | PublicKeyKyber p => exact PublicKeyKyber_step E P p s
  | ParsePublicKey key => exact asx_ParsePublicKey_step E P key s

theorem asx_run_step (E : Env κ π) (P : Prims) (calls : List Call) (s : State κ π) :
    Step E P s (run E P calls s) := by
  induction calls generalizing s with
  | nil => exact astep_refl E P s
  | cons c cs ih => exact astep_trans (asx_exec_step E P c s) (ih (c.exec E P s))

/-- Every state a process can reach by calls into `ecc` and `asx` satisfies the invariant,
and, with the 32-byte result of X25519, holds only 32-byte `ecc` public keys. -/
theorem asx_reach (E : Env κ π) (P : Prims) (hX : ecc.X25519Len P) (calls : List Call) :
    Inv E P (run E P calls (State.empty : State κ π)) ∧
      ecc.PubLen (run E P calls (State.empty : State κ π)).ecc := by
  have h := asx_run_step E P calls (State.empty : State κ π)
  exact ⟨h.1 (ainv_start E P), h.2.2 hX ecc.publen_empty⟩

end asx

/-! ## Theorems: errors of `asx.ParsePublicKey` -/

theorem toyEnv_lawful : toyEnv.Lawful :=
  ⟨by decide, by decide, by decide⟩

/-- C11, as the code has it. An input to `asx.ParsePublicKey` shorter than
`MinPublicKeyLength` fails with `errInvalidPublicKeyLength`. Otherwise an input whose first
byte is neither `AlgoECC` nor `AlgoKyber` fails with `errInvalidPublicKey`, and an input
whose payload the selected decoder rejects fails with the error of that decoder, passed on
unchanged: after the tag `AlgoECC` a payload that is not exactly 32 bytes fails with
`errInvalidKeyLength` of package `ecc`, and after the tag `AlgoKyber` a payload that
`kyb.ParsePublicKey` rejects fails with the error `kyb.ParsePublicKey` returned. In each of
these cases the state is as before the call. -/
theorem parse_public_key_errors {κ π : Type} (E : asx.Env κ π) (hE : E.Lawful)
    (key : Bytes) (s : asx.State κ π) :
    (key.length < E.MinPublicKeyLength →
      asx.ParsePublicKey E key s = (.error .errInvalidPublicKeyLength, s)) ∧
    (E.MinPublicKeyLength ≤ key.length →
      (∃ tag payload, key = tag :: payload) ∧
      (∀ tag payload, key = tag :: payload → tag ≠ E.AlgoECC → tag ≠ E.AlgoKyber →
        asx.ParsePublicKey E key s = (.error .errInvalidPublicKey, s)) ∧
      (∀ payload, key = E.AlgoECC :: payload → payload.length ≠ 32 →
        asx.ParsePublicKey E key s = (.error .errInvalidKeyLength, s)) ∧
      (∀ payload err, key = E.AlgoKyber :: payload →
        E.kybParsePublicKey payload = .error err →
        asx.ParsePublicKey E key s = (.error err, s))) := by
  refine ⟨fun hlt => ?_, fun hge => ⟨?_, ?_, ?_, ?_⟩⟩
  · unfold asx.ParsePublicKey
    rw [if_pos hlt]
  · cases key with
    | nil =>
      have := hE.min_pos
      simp at hge
      omega
    | cons tag payload => exact ⟨tag, payload, rfl⟩
  · intro tag payload hkey h1 h2
    subst hkey
    unfold asx.ParsePublicKey
    rw [if_neg (Nat.not_lt.mpr hge)]
    simp only [if_neg h1, if_neg h2]
  · intro payload hkey hlen
    subst hkey
    unfold asx.ParsePublicKey ecc.ParsePublicKey
    rw [if_neg (Nat.not_lt.mpr hge)]
    have h : ecc.GetPublicKey payload s.ecc = (.error .errInvalidKeyLength, s.ecc) := by
      unfold ecc.GetPublicKey
      rw [if_pos (by simpa [ecc.ScalarSize] using hlen)]
    simp only [if_true, h]
  · intro payload err hkey hdec
    subst hkey
    unfold asx.ParsePublicKey
    rw [if_neg (Nat.not_lt.mpr hge)]
    simp only [if_neg (Ne.symm hE.tags), if_true, hdec]

/-- Witness of the amended C11: the tag of a classical key followed by 33 bytes. -/
theorem parse_public_key_errors_witness :
    toyEnv.MinPublicKeyLength ≤ pub34.length ∧ (key32 1 ++ [1]).length ≠ 32 ∧
      asx.ParsePublicKey toyEnv pub34 asx.State.empty =
        (.error .errInvalidKeyLength, asx.State.empty) :=
  ⟨by decide, by decide,
    ((parse_public_key_errors toyEnv toyEnv_lawful pub34 asx.State.empty).2
      (by decide)).2.2.1 (key32 1 ++ [1]) rfl (by decide)⟩

/-- Counterexample to C11 as stated: the input is not shorter than the minimum, its first
byte is `AlgoECC` and its payload of 33 bytes is not a curve public key, and yet the error
is `errInvalidKeyLength` of package `ecc`, not `errInvalidPublicKey`. -/
theorem parse_public_key_errors_counterexample :
    toyEnv.MinPublicKeyLength ≤ pub34.length ∧
    pub34.head? = some toyEnv.AlgoECC ∧
    pub34.tail.length ≠ 32 ∧
    (asx.ParsePublicKey toyEnv pub34
      (asx.State.empty : asx.State Bytes Bytes)).1 = .error .errInvalidKeyLength ∧
    (asx.ParsePublicKey toyEnv pub34
      (asx.State.empty : asx.State Bytes Bytes)).1 ≠ .error .errInvalidPublicKey := by
  refine ⟨by decide, rfl, by decide, rfl, ?_⟩
  have h : (asx.ParsePublicKey toyEnv pub34
      (asx.State.empty : asx.State Bytes Bytes)).1 = .error .errInvalidKeyLength := rfl
  rw [h]
  intro h'
  cases h'

/-! ## Theorems: round trip of a classical hybrid public key -/

/-- C12. In every state the process can reach, for every hybrid public key `p` whose
classical sub-key is set, to the `ecc` public key `q`: `p.Bytes()` succeeds and is the byte
`AlgoECC` followed by the bytes of `q`, 33 bytes in all, and `asx.ParsePublicKey` of these
bytes succeeds, leaves `ecc` as it is and returns a new public key object whose classical
sub-key is the same object `q` and whose post-quantum sub-key is unset, equal to `p` field
for field. -/
theorem hybrid_public_key_roundtrip {κ π : Type} (E : asx.Env κ π) (hE : E.Lawful)
    (P : Prims) (hX : ecc.X25519Len P) (pre : List asx.Call) (p q : Ptr)
    (obj : asx.PublicKey)
    (hobj : (asx.run E P pre asx.State.empty).publicKeys[p]? = some obj)
    (hq : obj.ePub = some q) :
    ∃ eo, (asx.run E P pre asx.State.empty).ecc.publicKeys[q]? = some eo ∧
      asx.PublicKey.Bytes E p (asx.run E P pre asx.State.empty) =
        .ok (E.AlgoECC :: eo.key) ∧
      (E.AlgoECC :: eo.key).length = 33 ∧
      obj = { ePub := some q, kPub := none } ∧
      asx.ParsePublicKey E (E.AlgoECC :: eo.key) (asx.run E P pre asx.State.empty) =
        (.ok (asx.run E P pre asx.State.empty).publicKeys.length,
          { asx.run E P pre asx.State.empty with
            publicKeys := (asx.run E P pre asx.State.empty).publicKeys ++
              [{ ePub := some q, kPub := none }] }) := by
  obtain ⟨hinv, hlen⟩ := asx.asx_reach E P hX pre
  generalize asx.run E P pre asx.State.empty = s at hobj hinv hlen ⊢
  rcases hinv.pub p obj hobj with ⟨q', hobjeq, eo, heo⟩ | ⟨k, hobjeq, _⟩
  · have hqq : q' = q := by
      rw [hobjeq] at hq
      cases hq
      rfl
    subst hqq
    have hkey : eo.key.length = 32 := hlen q' eo heo
    have hreg : lookup s.ecc.publicKeyMap eo.key = some q' := hinv.ecc.pub_obj q' eo heo
    have hget : ecc.GetPublicKey eo.key s.ecc = (.ok q', s.ecc) :=
      ecc.GetPublicKey_of_lookup eo.key s.ecc q' hkey hreg
    refine ⟨eo, heo, ?_, by simp [hkey], hobjeq, ?_⟩
    · unfold asx.PublicKey.Bytes ecc.PublicKey.Bytes
      simp only [hobj, hobjeq, heo]
    · unfold asx.ParsePublicKey ecc.ParsePublicKey
      have hmin := hE.min_le
      rw [if_neg (by simp [hkey]; omega)]
      simp only [if_true, hget]
  · rw [hobjeq] at hq
    cases hq

/-- Witness of C12: the classical public key of the private key parsed from 64 bytes. -/
theorem hybrid_public_key_roundtrip_witness :
    ∃ eo, (asx.run toyEnv toyPrims [.ParsePrivateKey (key64 1), .PublicKeyECC 0]
        asx.State.empty).ecc.publicKeys[0]? = some eo ∧
      asx.PublicKey.Bytes toyEnv 0
          (asx.run toyEnv toyPrims [.ParsePrivateKey (key64 1), .PublicKeyECC 0]
            asx.State.empty) =
        .ok (toyEnv.AlgoECC :: eo.key) ∧
      (toyEnv.AlgoECC :: eo.key).length = 33 ∧
      ({ ePub := some 0, kPub := none } : asx.PublicKey) = { ePub := some 0, kPub := none } ∧
      asx.ParsePublicKey toyEnv (toyEnv.AlgoECC :: eo.key)
          (asx.run toyEnv toyPrims [.ParsePrivateKey (key64 1), .PublicKeyECC 0]
            asx.State.empty) =
        (.ok (asx.run toyEnv toyPrims [.ParsePrivateKey (key64 1), .PublicKeyECC 0]
            asx.State.empty).publicKeys.length,
          { asx.run toyEnv toyPrims [.ParsePrivateKey (key64 1), .PublicKeyECC 0]
              asx.State.empty with
            publicKeys := (asx.run toyEnv toyPrims
                [.ParsePrivateKey (key64 1), .PublicKeyECC 0] asx.State.empty).publicKeys ++
              [{ ePub := some 0, kPub := none }] }) :=
  hybrid_public_key_roundtrip toyEnv toyEnv_lawful toyPrims toyPrims_X25519Len
    [.ParsePrivateKey (key64 1), .PublicKeyECC 0] 0 0 { ePub := some 0, kPub := none }
    rfl rfl

/-! ## Theorems: a hybrid public key has exactly one variant -/

/-- C17. In every state the process can reach: a public key that `asx.ParsePublicKey`
returns has exactly one sub-key set, the classical one when the first byte of the input is
`AlgoECC` and the post-quantum one when it is `AlgoKyber`; a public key that
`PublicKeyECC` returns has only the classical sub-key set, and one that `PublicKeyKyber`
returns has only the post-quantum sub-key set. On an input whose first byte is `AlgoECC`,
`asx.ParsePublicKey` gives the same result and state whatever `kyb.ParsePublicKey` is. -/
theorem public_key_one_variant {κ π : Type} (E : asx.Env κ π) (hE : E.Lawful) (P : Prims)
    (pre : List asx.Call) (s : asx.State κ π) (hs : s = asx.run E P pre asx.State.empty) :
    (∀ key pub t, asx.ParsePublicKey E key s = (.ok pub, t) →
      ∃ tag payload, key = tag :: payload ∧
        ((tag = E.AlgoECC ∧ tag ≠ E.AlgoKyber ∧
            ∃ q, t.publicKeys[pub]? = some { ePub := some q, kPub := none }) ∨
          (tag = E.AlgoKyber ∧ tag ≠ E.AlgoECC ∧
            ∃ k, t.publicKeys[pub]? = some { ePub := none, kPub := some k }))) ∧
    (∀ p pub t, asx.PrivateKey.PublicKeyECC E P p s = (.ok pub, t) →
      ∃ q, t.publicKeys[pub]? = some { ePub := some q, kPub := none }) ∧
    (∀ p pub t, asx.PrivateKey.PublicKeyKyber E p s = (.ok pub, t) →
      ∃ k, t.publicKeys[pub]? = some { ePub := none, kPub := some k }) ∧
    (∀ (dec : Bytes → Except Err π) payload,
      asx.ParsePublicKey { E with kybParsePublicKey := dec } (E.AlgoECC :: payload) s =
        asx.ParsePublicKey E (E.AlgoECC :: payload) s) := by
  have hinv : asx.Inv E P s := by
    rw [hs]
    exact (asx.asx_run_step E P pre asx.State.empty).1 (asx.ainv_start E P)
  refine ⟨?_, ?_, ?_, ?_⟩
  · intro key pub t h
    rcases asx.asx_ParsePublicKey_cases E key s with ⟨err, heq⟩ |
      ⟨payload, q, e1, hkey, _, heq⟩ | ⟨tag, payload, x, hkey, hne, htag, _, heq⟩
    · rw [heq] at h
      cases h
    · rw [heq] at h
      cases h
      exact ⟨E.AlgoECC, payload, hkey, Or.inl ⟨rfl, hE.tags, q, by simp⟩⟩
    · rw [heq] at h
      cases h
      exact ⟨tag, payload, hkey, Or.inr ⟨htag, hne, s.kybPublicKeys.length, by simp⟩⟩
  · intro p pub t h
    rcases asx.PublicKeyECC_cases E P p s with ⟨hst, hmemo⟩ | ⟨err, cs, heq⟩ |
      ⟨obj, ep, q, e1, e2, _, _, _, _, heq⟩
    · obtain ⟨obj, hobj, hm⟩ := hmemo pub (by rw [h])
      have ht : t = s := by rw [← hst, h]
      obtain ⟨q, hq, _⟩ := (hinv.priv p obj hobj).2.1 pub hm
      exact ⟨q, by rw [ht]; exact hq⟩
    · rw [heq] at h
      cases h
    · rw [heq] at h
      cases h
      exact ⟨q, by simp⟩
  · intro p pub t h
    rcases asx.PublicKeyKyber_cases E p s with ⟨hst, hmemo⟩ | ⟨obj, x, _, _, heq⟩
    · obtain ⟨obj, hobj, hm⟩ := hmemo pub (by rw [h])
      have ht : t = s := by rw [← hst, h]
      obtain ⟨k, hk⟩ := (hinv.priv p obj hobj).2.2 pub hm
      exact ⟨k, by rw [ht]; exact hk⟩
    · rw [heq] at h
      cases h
      exact ⟨s.kybPublicKeys.length, by simp⟩
  · intro dec payload
    unfold asx.ParsePublicKey
    simp only [if_true]

/-- Witness of C17: the classical public key of a parsed private key, asked for a second
time, is the memoized object, with only the classical sub-key set. -/
theorem public_key_one_variant_witness :
    ∃ q, (asx.run toyEnv toyPrims [.ParsePrivateKey (key64 1), .PublicKeyECC 0]
        asx.State.empty).publicKeys[0]? = some { ePub := some q, kPub := none } :=
  (public_key_one_variant toyEnv toyEnv_lawful toyPrims
    [.ParsePrivateKey (key64 1), .PublicKeyECC 0] _ rfl).2.1 0 0 _ rfl

namespace asx

variable {κ π : Type}

/-- The memoized public key of the private key registered under `k` is one object. -/
theorem eccMemo_unique {e : ecc.State} {k : Bytes} {q q' : Ptr} (h : EccMemo e k q)
    (h' : EccMemo e k q') : q = q' := by
  obtain ⟨ep, eo, hl, ho, hq⟩ := h
  obtain ⟨ep', eo', hl', ho', hq'⟩ := h'
  rw [hl] at hl'
  cases hl'
  rw [ho] at ho'
  cases ho'
  rw [hq] at hq'
  cases hq'
  rfl

/-- The memoized public key of the private key registered under `k` holds the bytes
`X25519(k, Basepoint)`. -/
theorem eccMemo_bytes {P : Prims} {e : ecc.State} (h : ecc.Inv P e) {k : Bytes} {q : Ptr}
    (hm : EccMemo e k q) :
    ∃ po, e.publicKeys[q]? = some po ∧ P.X25519 k P.Basepoint = .ok po.key := by
  obtain ⟨ep, eo, hl, ho, hq⟩ := hm
  obtain ⟨o, ho2, hk⟩ := h.priv_map k ep hl
  rw [ho] at ho2
  cases ho2
  obtain ⟨po, hpo, hx⟩ := h.priv_pub ep eo q ho hq
  exact ⟨po, hpo, by rw [← hk]; exact hx⟩

/-- After `PublicKey()` on the private key registered under `k` has returned `q`, the key
registered under `k` has `q` memoized. -/
theorem eccMemo_of_PublicKey {P : Prims} {e e' : ecc.State} (h : ecc.Inv P e) {k : Bytes}
    {ep q : Ptr} (hl : lookup e.privateKeyMap k = some ep)
    (hr : ecc.PrivateKey.PublicKey P ep e = (.ok q, e')) : EccMemo e' k q := by
  have he' : e' = (ecc.PrivateKey.PublicKey P ep e).2 := by rw [hr]
  have hi' : ecc.Inv P e' := by rw [he']; exact ecc.PublicKey_inv _ h
  have hx : ecc.Ext e e' := by rw [he']; exact ecc.PublicKey_ext P ep e
  obtain ⟨obj1, ho1, hq1⟩ := ecc.PublicKey_ok_memo P hr
  exact ⟨ep, obj1, ecc.ext_priv_map h hi' hx hl, ho1, hq1⟩

/-- The classical sub-key that `getEccPrivKey` returns is the `ecc` private key registered
under the SHA-256 of the seed. -/
theorem getEccPrivKey_ok_reg {E : Env κ π} {P : Prims} {s t : State κ π} (h : Inv E P s)
    {p ep : Ptr} {obj : PrivateKey} (hobj : s.privateKeys[p]? = some obj)
    (hr : PrivateKey.getEccPrivKey E p s = (.ok ep, t)) :
    lookup t.ecc.privateKeyMap (E.Sum256 obj.key).val = some ep := by
  rcases getEccPrivKey_cases E p s with ⟨hst, hmemo⟩ | ⟨obj', ep', e1, hobj', _, h1, heq⟩
  · obtain ⟨obj', hobj', hm⟩ := hmemo ep (by rw [hr])
    rw [hobj] at hobj'
    cases hobj'
    have ht : t = s := by rw [← hst, hr]
    rw [ht]
    exact (h.priv p obj hobj).1 ep hm
  · rw [hobj] at hobj'
    cases hobj'
    rw [heq] at hr
    cases hr
    have := ecc.GetPrivateKey_registered (E.Sum256 obj.key).val s.ecc ep (by rw [h1])
    rw [h1] at this
    exact this

/-- On an allocated private key `getEccPrivKey` succeeds. -/
theorem getEccPrivKey_total (E : Env κ π) {s : State κ π} {p : Ptr} {obj : PrivateKey}
    (hobj : s.privateKeys[p]? = some obj) :
    ∃ ep t, PrivateKey.getEccPrivKey E p s = (.ok ep, t) := by
  obtain ⟨ep0, hep0, _⟩ := parse_sha_ok E obj.key s.ecc
  unfold PrivateKey.getEccPrivKey ecc.ParsePrivateKey
  simp only [hobj]
  cases obj.eccPrivKey with
  | some ep => exact ⟨_, _, rfl⟩
  | none =>
    simp only []
    cases h1 : ecc.GetPrivateKey (E.Sum256 obj.key).val s.ecc with
    | mk r e1 =>
      rw [h1] at hep0
      cases hep0
      exact ⟨_, _, rfl⟩

/-- After `PublicKeyECC` has returned `pub`, the private key has `pub` memoized. -/
theorem PublicKeyECC_ok_memo {E : Env κ π} {P : Prims} {s t : State κ π} {p pub : Ptr}
    {obj : PrivateKey} (hobj : s.privateKeys[p]? = some obj)
    (hr : PrivateKey.PublicKeyECC E P p s = (.ok pub, t)) :
    ∃ o1, t.privateKeys[p]? = some o1 ∧ o1.key = obj.key ∧ o1.pubKeyECC = some pub := by
  rcases PublicKeyECC_cases E P p s with ⟨hst, hmemo⟩ | ⟨err, cs, heq⟩ |
    ⟨obj', ep, q, e1, e2, hobj', _, _, _, heq⟩
  · obtain ⟨obj', hobj', hm⟩ := hmemo pub (by rw [hr])
    rw [hobj] at hobj'
    cases hobj'
    have ht : t = s := by rw [← hst, hr]
    rw [ht]
    exact ⟨obj, hobj, rfl, hm⟩
  · rw [heq] at hr
    cases hr
  · rw [hobj] at hobj'
    cases hobj'
    rw [heq] at hr
    cases hr
    exact ⟨{ obj with pubKeyECC := some s.publicKeys.length },
      by simp [heap_get_set, heap_get_lt hobj], rfl, rfl⟩

/-- With the base-point contract, `PublicKeyECC` succeeds on every allocated private key. -/
theorem PublicKeyECC_total {E : Env κ π} {P : Prims} (hB : ecc.BasepointTotal P)
    {s : State κ π} (h : Inv E P s) {p : Ptr} {obj : PrivateKey}
    (hobj : s.privateKeys[p]? = some obj) :
    ∃ pub t, PrivateKey.PublicKeyECC E P p s = (.ok pub, t) := by
  obtain ⟨ep0, hep0, hreg⟩ := parse_sha_ok E obj.key s.ecc
  unfold PrivateKey.PublicKeyECC ecc.ParsePrivateKey
  simp only [hobj]
  cases obj.pubKeyECC with
  | some pub => exact ⟨_, _, rfl⟩
  | none =>
    simp only []
    cases h1 : ecc.GetPrivateKey (E.Sum256 obj.key).val s.ecc with
    | mk r e1 =>
      rw [h1] at hep0 hreg
      cases hep0
      have hi1 : ecc.Inv P e1 := by
        have := ecc.GetPrivateKey_inv (E.Sum256 obj.key).val h.ecc
        rwa [h1] at this
      obtain ⟨eo, heo, _⟩ := hi1.priv_map _ _ hreg
      obtain ⟨q, e2, h2⟩ := xipher.ecc_PublicKey_total hB hi1 heo
      simp only [h2]
      exact ⟨_, _, rfl⟩

end asx

/-! ## Theorems: the classical public key and the classical sub-key -/

/-- C18. In every state the process can reach, for every hybrid private key `p` with seed
`obj.key`: when `PublicKeyECC()` is called and then `getEccPrivKey().PublicKey()`, the
classical sub-key of the public key that `PublicKeyECC()` returned is the very object that
`getEccPrivKey().PublicKey()` returns, and its bytes are
`X25519(SHA-256(seed), Basepoint)`; the same holds when `getEccPrivKey().PublicKey()` is
called first and `PublicKeyECC()` after it. With the base-point contract of X25519 the
calls of either order all succeed. -/
theorem classical_public_key_agrees {κ π : Type} (E : asx.Env κ π) (P : Prims)
    (pre : List asx.Call) (p : Ptr) (obj : asx.PrivateKey)
    (hobj : (asx.run E P pre asx.State.empty).privateKeys[p]? = some obj) :
    (∀ pub s1 ep s2 q e3,
      asx.PrivateKey.PublicKeyECC E P p (asx.run E P pre asx.State.empty) = (.ok pub, s1) →
      asx.PrivateKey.getEccPrivKey E p s1 = (.ok ep, s2) →
      ecc.PrivateKey.PublicKey P ep s2.ecc = (.ok q, e3) →
      s2.publicKeys[pub]? = some { ePub := some q, kPub := none } ∧
      ∃ po, e3.publicKeys[q]? = some po ∧
        P.X25519 (E.Sum256 obj.key).val P.Basepoint = .ok po.key) ∧
    (∀ ep t1 q e2 pub t3,
      asx.PrivateKey.getEccPrivKey E p (asx.run E P pre asx.State.empty) = (.ok ep, t1) →
      ecc.PrivateKey.PublicKey P ep t1.ecc = (.ok q, e2) →
      asx.PrivateKey.PublicKeyECC E P p { t1 with ecc := e2 } = (.ok pub, t3) →
      t3.publicKeys[pub]? = some { ePub := some q, kPub := none } ∧
      ∃ po, t3.ecc.publicKeys[q]? = some po ∧
        P.X25519 (E.Sum256 obj.key).val P.Basepoint = .ok po.key) ∧
    (ecc.BasepointTotal P →
      (∃ pub s1 ep s2 q e3,
        asx.PrivateKey.PublicKeyECC E P p (asx.run E P pre asx.State.empty) = (.ok pub, s1) ∧
        asx.PrivateKey.getEccPrivKey E p s1 = (.ok ep, s2) ∧
        ecc.PrivateKey.PublicKey P ep s2.ecc = (.ok q, e3)) ∧
      (∃ ep t1 q e2 pub t3,
        asx.PrivateKey.getEccPrivKey E p (asx.run E P pre asx.State.empty) = (.ok ep, t1) ∧
        ecc.PrivateKey.PublicKey P ep t1.ecc = (.ok q, e2) ∧
        asx.PrivateKey.PublicKeyECC E P p { t1 with ecc := e2 } = (.ok pub, t3))) := by
  have hinv : asx.Inv E P (asx.run E P pre asx.State.empty) :=
    (asx.asx_run_step E P pre asx.State.empty).1 (asx.ainv_start E P)
  generalize asx.run E P pre asx.State.empty = s at hobj hinv ⊢
  -- the state after `PublicKeyECC`
  have after1 : ∀ {u v : asx.State κ π} {pub : Ptr}, asx.Inv E P u →
      asx.PrivateKey.PublicKeyECC E P p u = (.ok pub, v) → asx.Inv E P v ∧ asx.Ext u v := by
    intro u v pub hu h
    have hv : v = (asx.PrivateKey.PublicKeyECC E P p u).2 := by rw [h]
    have hstep := asx.PublicKeyECC_step E P p u
    rw [← hv] at hstep
    exact ⟨hstep.1 hu, hstep.2.1⟩
  -- the state after `getEccPrivKey`
  have after2 : ∀ {u v : asx.State κ π} {ep : Ptr}, asx.Inv E P u →
      asx.PrivateKey.getEccPrivKey E p u = (.ok ep, v) → asx.Inv E P v ∧ asx.Ext u v := by
    intro u v ep hu h
    have hv : v = (asx.PrivateKey.getEccPrivKey E p u).2 := by rw [h]
    have hstep := asx.getEccPrivKey_step E P p u
    rw [← hv] at hstep
    exact ⟨hstep.1 hu, hstep.2.1⟩
  -- the state after `PublicKey()` of package `ecc`
  have after3 : ∀ {u : asx.State κ π} {ep q : Ptr} {e : ecc.State}, asx.Inv E P u →
      ecc.PrivateKey.PublicKey P ep u.ecc = (.ok q, e) →
      asx.Inv E P { u with ecc := e } ∧ ecc.Ext u.ecc e := by
    intro u ep q e hu h
    have hrun : ecc.run P [.PublicKey ep] u.ecc = e := by
      simp [ecc.run, ecc.Call.exec, h]
    have hstep := asx.astep_eccRun E P u [.PublicKey ep]
    rw [hrun] at hstep
    exact ⟨hstep.1 hu, hstep.2.1.ecc⟩
  refine ⟨?_, ?_, ?_⟩
  · intro pub s1 ep s2 q e3 h1 h2 h3
    obtain ⟨hinv1, _⟩ := after1 hinv h1
    obtain ⟨o1, ho1, hk1, hm1⟩ := asx.PublicKeyECC_ok_memo hobj h1
    obtain ⟨q0, hpub0, hmemo0⟩ := (hinv1.priv p o1 ho1).2.1 pub hm1
    obtain ⟨hinv2, hext2⟩ := after2 hinv1 h2
    have hreg := asx.getEccPrivKey_ok_reg hinv1 ho1 h2
    obtain ⟨hinv3, hx3⟩ := after3 hinv2 h3
    have hm3 := asx.eccMemo_of_PublicKey hinv2.ecc hreg h3
    have hm0 : asx.EccMemo e3 (E.Sum256 o1.key).val q0 :=
      asx.eccMemo_mono hinv1.ecc hinv3.ecc (ecc.ext_trans hext2.ecc hx3) hmemo0
    have hq : q = q0 := asx.eccMemo_unique hm3 hm0
    subst hq
    refine ⟨hext2.pub pub _ hpub0, ?_⟩
    rw [← hk1]
    exact asx.eccMemo_bytes hinv3.ecc hm3
  · intro ep t1 q e2 pub t3 h1 h2 h3
    obtain ⟨hinv1, hext1⟩ := after2 hinv h1
    have hreg := asx.getEccPrivKey_ok_reg hinv hobj h1
    obtain ⟨o1, ho1, hk1, _⟩ := hext1.priv p obj hobj
    obtain ⟨hinv2, _⟩ := after3 hinv1 h2
    have hm2 := asx.eccMemo_of_PublicKey hinv1.ecc hreg h2
    have ho2 : ({ t1 with ecc := e2 } : asx.State κ π).privateKeys[p]? = some o1 := ho1
    obtain ⟨hinv3, hext3⟩ := after1 hinv2 h3
    obtain ⟨o3, ho3, hk3, hm3⟩ := asx.PublicKeyECC_ok_memo ho2 h3
    obtain ⟨q0, hpub0, hmemo0⟩ := (hinv3.priv p o3 ho3).2.1 pub hm3
    rw [hk3, hk1] at hmemo0
    have hm2' : asx.EccMemo t3.ecc (E.Sum256 obj.key).val q :=
      asx.eccMemo_mono hinv2.ecc hinv3.ecc hext3.ecc hm2
    have hq : q = q0 := asx.eccMemo_unique hm2' hmemo0
    subst hq
    exact ⟨hpub0, asx.eccMemo_bytes hinv3.ecc hm2'⟩
  · intro hB
    constructor
    · obtain ⟨pub, s1, h1⟩ := asx.PublicKeyECC_total hB hinv hobj
      obtain ⟨hinv1, _⟩ := after1 hinv h1
      obtain ⟨o1, ho1, _, _⟩ := asx.PublicKeyECC_ok_memo hobj h1
      obtain ⟨ep, s2, h2⟩ := asx.getEccPrivKey_total E ho1
      obtain ⟨hinv2, _⟩ := after2 hinv1 h2
      have hreg := asx.getEccPrivKey_ok_reg hinv1 ho1 h2
      obtain ⟨eo, heo, _⟩ := hinv2.ecc.priv_map _ _ hreg
      obtain ⟨q, e3, h3⟩ := xipher.ecc_PublicKey_total hB hinv2.ecc heo
      exact ⟨pub, s1, ep, s2, q, e3, h1, h2, h3⟩
    · obtain ⟨ep, t1, h1⟩ := asx.getEccPrivKey_total E hobj
      obtain ⟨hinv1, hext1⟩ := after2 hinv h1
      have hreg := asx.getEccPrivKey_ok_reg hinv hobj h1
      obtain ⟨o1, ho1, _⟩ := hext1.priv p obj hobj
      obtain ⟨eo, heo, _⟩ := hinv1.ecc.priv_map _ _ hreg
      obtain ⟨q, e2, h2⟩ := xipher.ecc_PublicKey_total hB hinv1.ecc heo
      obtain ⟨hinv2, _⟩ := after3 hinv1 h2
      have ho2 : ({ t1 with ecc := e2 } : asx.State κ π).privateKeys[p]? = some o1 := ho1
      obtain ⟨pub, t3, h3⟩ := asx.PublicKeyECC_total hB hinv2 ho2
      exact ⟨ep, t1, q, e2, pub, t3, h1, h2, h3⟩

/-- Witness of C18: on the private key parsed from 64 bytes, `PublicKeyECC()` first and
`getEccPrivKey().PublicKey()` after it. -/
theorem classical_public_key_agrees_witness :
    (asx.PrivateKey.getEccPrivKey toyEnv 0
        (asx.PrivateKey.PublicKeyECC toyEnv toyPrims 0
          (asx.run toyEnv toyPrims [.ParsePrivateKey (key64 1)]
            asx.State.empty)).2).2.publicKeys[0]? =
      some { ePub := some 0, kPub := none } ∧
    ∃ po, (asx.PrivateKey.getEccPrivKey toyEnv 0
        (asx.PrivateKey.PublicKeyECC toyEnv toyPrims 0
          (asx.run toyEnv toyPrims [.ParsePrivateKey (key64 1)]
            asx.State.empty)).2).2.ecc.publicKeys[0]? = some po ∧
      toyPrims.X25519 (toyEnv.Sum256 (key64 1)).val toyPrims.Basepoint = .ok po.key :=
  (classical_public_key_agrees toyEnv toyPrims [.ParsePrivateKey (key64 1)] 0
    { key := key64 1, eccPrivKey := none, kybPrivKey := none, pubKeyECC := none,
      pubKeyKyb := none } rfl).1 0 _ 0 _ 0 _ rfl rfl rfl
